import Mathlib

/-!
# rasync: throttling wrappers, rate limiters and the supervised loop

A shallow embedding of `at_least.go`, `at_most.go` and `inf_loop.go`.

Modelling conventions
* A reading of the monotonic clock (`time.Time`) and a `time.Duration` are
  both an `Int` number of nanoseconds.  The int64 range of the Go types is not
  modelled.
* A Go `error` is an `Option ε`: `none` is `nil`, `some e` a non-nil error.
* A task is a function of the clock reading and of its own private state; it
  reports its error, how long it ran (a natural number, so the clock never
  runs backwards) and its new private state.
* `time.Sleep x` returns immediately when `x ≤ 0`; otherwise the clock
  advances by `x` plus a non-negative overshoot taken from the world.
* Every task invocation and every `time.Sleep` is appended to the trace of the
  world, so that "how often was `f` invoked" is read off the trace.
* The closures returned by the `Once*` constructors capture `last`; a call of
  such a closure is modelled by passing `last` in and out.  Calls are issued
  sequentially, so the mutex is always free when a call arrives.
-/

namespace Rasync

/-- Observable events of a run. -/
inductive Event (ε : Type) where
  /-- One invocation of the wrapped task: clock at start, clock at return, result. -/
  | ran (start : Int) (finish : Int) (err : Option ε)
  /-- One call of `time.Sleep` with the requested duration. -/
  | slept (req : Int)
  deriving DecidableEq, Repr

/-- What one invocation of a task yields. -/
structure Outcome (σ ε : Type) where
  err : Option ε
  took : Nat
  env : σ

/-- A fallible zero-argument Go function `func() error`, with its captured state `σ`. -/
abbrev Task (σ ε : Type) := Int → σ → Outcome σ ε

/-- The world a call runs in. -/
structure World (σ ε : Type) where
  /-- Current reading of the monotonic clock. -/
  now : Int
  /-- Private state of the task. -/
  env : σ
  /-- Overshoot of the `n`-th sleep that really pauses. -/
  oversleep : Nat → Nat
  /-- Number of sleeps that really paused so far. -/
  naps : Nat
  /-- Events so far, oldest first. -/
  trace : List (Event ε)

variable {σ ε : Type}

/-- Go `time.Now()`. -/
def timeNow (w : World σ ε) : Int := w.now

/-- Go `time.Since(t)`. -/
def timeSince (t : Int) (w : World σ ε) : Int := timeNow w - t

/-- Go `time.Sleep(x)`: pauses for at least `x`; returns at once when `x ≤ 0`. -/
def timeSleep (x : Int) (w : World σ ε) : World σ ε :=
  if x ≤ 0 then
    { w with trace := w.trace ++ [Event.slept x] }
  else
    { w with
      now := w.now + x + (w.oversleep w.naps : Int)
      naps := w.naps + 1
      trace := w.trace ++ [Event.slept x] }

/-- The call `f()` of the wrapped task. -/
def invoke (f : Task σ ε) (w : World σ ε) : Option ε × World σ ε :=
  let r := f w.now w.env
  (r.err,
   { w with
     now := w.now + (r.took : Int)
     env := r.env
     trace := w.trace ++ [Event.ran w.now (w.now + (r.took : Int)) r.err] })

/-- The caller does something else for `g` nanoseconds. -/
def idle (g : Nat) (w : World σ ε) : World σ ε :=
  { w with now := w.now + (g : Int) }

/-! ## at_least.go -/

/-- The closure returned by `RunAtLeast(dur, f)`. -/
def RunAtLeast (dur : Int) (f : Task σ ε) (w : World σ ε) : Option ε × World σ ε :=
  let begin := timeNow w
  let r := invoke f w
  let d := timeSince begin r.2
  if d ≤ dur then (r.1, timeSleep (dur - d) r.2) else (r.1, r.2)

/-- The closure returned by `RunSuccessAtLeast(dur, f)`. -/
def RunSuccessAtLeast (dur : Int) (f : Task σ ε) (w : World σ ε) :
    Option ε × World σ ε :=
  let begin := timeNow w
  let r := invoke f w
  let d := timeSince begin r.2
  if r.1.isNone ∧ d ≤ dur then (r.1, timeSleep (dur - d) r.2) else (r.1, r.2)

/-- The closure returned by `RunFailedAtLeast(dur, f)`. -/
def RunFailedAtLeast (dur : Int) (f : Task σ ε) (w : World σ ε) :
    Option ε × World σ ε :=
  let begin := timeNow w
  let r := invoke f w
  let d := timeSince begin r.2
  if r.1.isSome ∧ d ≤ dur then (r.1, timeSleep (dur - d) r.2) else (r.1, r.2)

/-! ## at_most.go -/

/-- The constructor part of `OnceAtMost(dur, f)`: `last := time.Now().Add(0 - dur)`. -/
def OnceAtMost (dur : Int) (w : World σ ε) : Int := timeNow w + (0 - dur)

/-- The closure returned by `OnceAtMost(dur, f)`, with `last` passed in and out. -/
def OnceAtMost.call (dur : Int) (f : Task σ ε) (last : Int) (w : World σ ε) :
    Option ε × Int × World σ ε :=
  let d := timeSince last w
  let w1 := if d ≤ dur then timeSleep (dur - d) w else w
  let last1 := timeNow w1
  let r := invoke f w1
  (r.1, last1, r.2)

/-- The constructor part of `OnceSuccessAtMost(dur, f)`. -/
def OnceSuccessAtMost (dur : Int) (w : World σ ε) : Int := timeNow w + (0 - dur)

/-- The closure returned by `OnceSuccessAtMost(dur, f)`. -/
def OnceSuccessAtMost.call (dur : Int) (f : Task σ ε) (last : Int) (w : World σ ε) :
    Option ε × Int × World σ ε :=
  let d := timeSince last w
  let w1 := if d ≤ dur then timeSleep (dur - d) w else w
  let now := timeNow w1
  let r := invoke f w1
  if r.1.isNone then (r.1, now, r.2) else (r.1, last, r.2)

/-- The constructor part of `OnceWithin(dur, f)`. -/
def OnceWithin (dur : Int) (w : World σ ε) : Int := timeNow w + (0 - dur)

/-- The closure returned by `OnceWithin(dur, f)`: the check under the read lock,
then the same check again under the write lock. -/
def OnceWithin.call (dur : Int) (f : Task σ ε) (last : Int) (w : World σ ε) :
    Option ε × Int × World σ ε :=
  if timeSince last w ≤ dur then (none, last, w)
  else if timeSince last w ≤ dur then (none, last, w)
  else
    let last1 := timeNow w
    let r := invoke f w
    (r.1, last1, r.2)

/-- The constructor part of `OnceSuccessWithin(dur, f)`. -/
def OnceSuccessWithin (dur : Int) (w : World σ ε) : Int := timeNow w + (0 - dur)

/-- The closure returned by `OnceSuccessWithin(dur, f)`. -/
def OnceSuccessWithin.call (dur : Int) (f : Task σ ε) (last : Int) (w : World σ ε) :
    Option ε × Int × World σ ε :=
  if timeSince last w ≤ dur then (none, last, w)
  else if timeSince last w ≤ dur then (none, last, w)
  else
    let now := timeNow w
    let r := invoke f w
    if r.1.isNone then (r.1, now, r.2) else (r.1, last, r.2)

/-! ## inf_loop.go -/

/-- An operation performed on the channel `Err` of an `InfiniteLoopControl`. -/
inductive ChanOp (ε : Type) where
  /-- The statement `errchan <- v` has completed (a receiver took the value). -/
  | send (v : Option ε)
  /-- The statement `close(errchan)` has completed. -/
  | close
  deriving DecidableEq, Repr

/-- The context the loop runs under.  `done k t` tells whether the `k`-th `select`
of the loop, executed at clock reading `t`, finds `ctx.Done()` closed; `cause` is
the non-nil error that `ctx.Err()` returns from then on (`context.Canceled`). -/
structure Ctx (ε : Type) where
  done : Nat → Int → Bool
  cause : ε

/-- Where the goroutine that runs `doInfiniteLooping` stands. -/
inductive Pc where
  /-- At the head of `for err == nil`. -/
  | looping
  /-- At `errchan <- err`, waiting for a receiver. -/
  | sending
  /-- At `close(errchan)`. -/
  | closing
  /-- The function has returned. -/
  | returned
  deriving DecidableEq, Repr

/-- State of the goroutine that runs `doInfiniteLooping`. -/
structure Loop (σ ε : Type) where
  pc : Pc
  /-- The local variable `err`. -/
  err : Option ε
  /-- Number of `select` statements executed so far. -/
  checks : Nat
  world : World σ ε
  /-- Operations completed on `errchan`, oldest first. -/
  errchan : List (ChanOp ε)

/-- The state in which `InfiniteLoop(task)` starts the goroutine: a fresh unbuffered
channel and `var err error`. -/
def InfiniteLoop (w : World σ ε) : Loop σ ε :=
  { pc := Pc.looping, err := none, checks := 0, world := w, errchan := [] }

/-- One step of `doInfiniteLooping`.  `receiver` tells whether a receiver is ready
on `errchan` at this step; the send on the unbuffered channel completes only
then. -/
def doInfiniteLooping.step (ctx : Ctx ε) (task : Task σ ε) (receiver : Bool)
    (s : Loop σ ε) : Loop σ ε :=
  match s.pc with
  | Pc.looping =>
    if s.err.isNone then
      if ctx.done s.checks s.world.now then
        { s with err := some ctx.cause, checks := s.checks + 1 }
      else
        { s with
          err := (invoke task s.world).1
          world := (invoke task s.world).2
          checks := s.checks + 1 }
    else
      { s with pc := Pc.sending }
  | Pc.sending =>
    if receiver then
      { s with pc := Pc.closing, errchan := s.errchan ++ [ChanOp.send s.err] }
    else s
  | Pc.closing => { s with pc := Pc.returned, errchan := s.errchan ++ [ChanOp.close] }
  | Pc.returned => s

/-- The state of the goroutine running `doInfiniteLooping(ctx, errchan, task)` after
`n` steps from `s`; `receiver k` tells whether a receiver is ready at step `k`. -/
def doInfiniteLooping (ctx : Ctx ε) (task : Task σ ε) (receiver : Nat → Bool) :
    Nat → Loop σ ε → Loop σ ε
  | 0, s => s
  | n + 1, s =>
    doInfiniteLooping.step ctx task (receiver n) (doInfiniteLooping ctx task receiver n s)

/-! ## Sequential callers and trace observations -/

/-- A caller that issues one call per entry of the list, one after the other,
idling for the given time before each call. -/
def callSeq (call : Int → World σ ε → Option ε × Int × World σ ε) :
    List Nat → Int → World σ ε → List (Option ε) × Int × World σ ε
  | [], last, w => ([], last, w)
  | g :: gs, last, w =>
    let r := call last (idle g w)
    let rest := callSeq call gs r.2.1 r.2.2
    (r.1 :: rest.1, rest.2.1, rest.2.2)

/-- One more call of a closure, issued `g` nanoseconds after an earlier call or
sequence of calls returned `r`. -/
def thenCall (call : Int → World σ ε → Option ε × Int × World σ ε) (g : Nat)
    (r : α × Int × World σ ε) : Option ε × Int × World σ ε :=
  call r.2.1 (idle g r.2.2)

/-- The task invocations recorded in a trace. -/
def invocations : List (Event ε) → List (Event ε)
  | [] => []
  | Event.ran s t e :: es => Event.ran s t e :: invocations es
  | Event.slept _ :: es => invocations es

/-- The clock readings at which the task was started. -/
def starts : List (Event ε) → List Int
  | [] => []
  | Event.ran s _ _ :: es => s :: starts es
  | Event.slept _ :: es => starts es

/-- The clock readings at which the task returned. -/
def finishes : List (Event ε) → List Int
  | [] => []
  | Event.ran _ t _ :: es => t :: finishes es
  | Event.slept _ :: es => finishes es

/-- The durations requested from `time.Sleep`. -/
def sleeps : List (Event ε) → List Int
  | [] => []
  | Event.ran _ _ _ :: es => sleeps es
  | Event.slept x :: es => x :: sleeps es

/-- The clock readings at which the successful runs of the task were started. -/
def successStarts : List (Event ε) → List Int
  | [] => []
  | Event.ran s _ none :: es => s :: successStarts es
  | Event.ran _ _ (some _) :: es => successStarts es
  | Event.slept _ :: es => successStarts es

/-! ## inf_loop.go: `AllErr` and `AnyErr` -/

/-- What a receive from the `Err` channel of a child finds. -/
inductive Recv (ε : Type) where
  /-- A value was received (`ok` is true). -/
  | value (v : Option ε)
  /-- The channel is closed (`ok` is false). -/
  | closed
  deriving DecidableEq, Repr

/-- The children handed to `AllErr` or `AnyErr`, as the aggregating goroutine deals
with them; `κ` is their joint state and a child is named by its index in `ctrls`.
`peek` tells what a receive from the child's `Err` would find right now (`none`
when it would block: no sender is waiting and the channel is open), `take` gives
the state after that receive has completed, `cancel` the state after the child's
`Cancel` has been called. -/
structure Kids (κ ε : Type) where
  peek : κ → Nat → Option (Recv ε)
  take : κ → Nat → κ
  cancel : κ → Nat → κ

/-- What the aggregating goroutine does, in order. -/
inductive AggEvent (ε : Type) where
  /-- A call of `reflect.Select` returned, having chosen the channel of `child`. -/
  | selected (child : Nat) (r : Recv ε)
  /-- The call `c.Cancel()` for `child`, inside `ret.Cancel()`. -/
  | cancel (child : Nat)
  /-- An operation completed on `ret.Err`. -/
  | out (op : ChanOp ε)
  /-- A value received and dropped by `for range c.Err` in `AnyErr`. -/
  | discarded (child : Nat) (v : Option ε)
  deriving DecidableEq, Repr

/-- Where the deferred calls stand while the aggregating goroutine panics. -/
inductive Deferred (ε : Type) where
  /-- In the deferred `ret.Cancel()`, about to call `ctrls[k].Cancel()`. -/
  | cancelling (k : Nat)
  /-- In the deferred drain. -/
  | draining (i : Nat)
  /-- At `ret.Err <- val.Interface().(error)` inside the drain of `AllErr`. -/
  | reforward (v : Option ε)
  /-- At the deferred `close(ret.Err)`. -/
  | closing
  deriving DecidableEq, Repr

/-- Where the aggregating goroutine stands. -/
inductive AggPc (ε : Type) where
  /-- At the first `reflect.Select(cases)`. -/
  | first
  /-- At `ret.Err <- val.Interface().(error)` after the first selection. -/
  | forward (v : Option ε)
  /-- In the deferred `ret.Cancel()`, about to call `ctrls[k].Cancel()`. -/
  | cancelling (k : Nat)
  /-- In the deferred drain: for `AllErr` at the head of `for len(cases) > 0`, for
  `AnyErr` in `for range ctrls[i].Err`. -/
  | draining (i : Nat)
  /-- At `ret.Err <- val.Interface().(error)` inside the drain of `AllErr`. -/
  | reforward (v : Option ε)
  /-- At the deferred `close(ret.Err)`. -/
  | closing
  /-- The goroutine has returned. -/
  | finished
  /-- The type assertion `.(error)` met a nil interface and the goroutine panics:
  the deferred calls not yet made are running. -/
  | panicking (d : Deferred ε)
  /-- All deferred calls have run and the panic leaves the goroutine. -/
  | panicked
  deriving DecidableEq, Repr

/-- State of the aggregating goroutine together with the children. -/
structure Agg (κ ε : Type) where
  pc : AggPc ε
  /-- The number of children, `len(ctrls)`. -/
  n : Nat
  /-- The children whose channels are still in the slice `cases`, in order. -/
  cases : List Nat
  kids : κ
  events : List (AggEvent ε)

/-- The state in which `AllErr(ctrls...)` starts its goroutine: one receive case per
child, in order. -/
def AllErr {κ : Type} (n : Nat) (kids : κ) : Agg κ ε :=
  { pc := AggPc.first, n := n, cases := List.range n, kids := kids, events := [] }

/-- The `Cancel` of the handle returned by `AllErr`: `c.Cancel()` for every child, in
order.  Returns the children's state and the calls made. -/
def AllErr.Cancel {κ : Type} (K : Kids κ ε) (n : Nat) (kids : κ) : κ × List (AggEvent ε) :=
  ((List.range n).foldl K.cancel kids, (List.range n).map AggEvent.cancel)

/-- One step of the goroutine of `AllErr`.  `pick` is the case that `reflect.Select`
would choose (taken modulo the number of cases); the selection completes only if
a receive from that channel would not block, and never when there is no case.
`receiver` tells whether a receiver is ready on `ret.Err`.  When the type
assertion `.(error)` meets a nil value the goroutine panics: the deferred calls
not yet made run as they do on return (a second nil value, met in the deferred
drain, ends that drain), and then the panic leaves the goroutine. -/
def AllErr.step {κ : Type} (K : Kids κ ε) (pick : Nat) (receiver : Bool) (s : Agg κ ε) :
    Agg κ ε :=
  match s.pc with
  | AggPc.first =>
    if s.cases = [] then s
    else
      match K.peek s.kids (s.cases.getD (pick % s.cases.length) 0) with
      | none => s
      | some (Recv.value v) =>
        { s with
          pc := AggPc.forward v
          kids := K.take s.kids (s.cases.getD (pick % s.cases.length) 0)
          events := s.events ++
            [AggEvent.selected (s.cases.getD (pick % s.cases.length) 0) (Recv.value v)] }
      | some Recv.closed =>
        { s with
          pc := AggPc.cancelling 0
          cases := s.cases.eraseIdx (pick % s.cases.length)
          events := s.events ++
            [AggEvent.selected (s.cases.getD (pick % s.cases.length) 0) Recv.closed] }
  | AggPc.forward v =>
    match v with
    | none => { s with pc := AggPc.panicking (Deferred.cancelling 0) }
    | some e =>
      if receiver then
        { s with
          pc := AggPc.cancelling 0
          events := s.events ++ [AggEvent.out (ChanOp.send (some e))] }
      else s
  | AggPc.cancelling k =>
    if k < s.n then
      { s with
        pc := AggPc.cancelling (k + 1)
        kids := K.cancel s.kids k
        events := s.events ++ [AggEvent.cancel k] }
    else { s with pc := AggPc.draining 0 }
  | AggPc.draining _ =>
    if s.cases = [] then { s with pc := AggPc.closing }
    else
      match K.peek s.kids (s.cases.getD (pick % s.cases.length) 0) with
      | none => s
      | some (Recv.value v) =>
        { s with
          pc := AggPc.reforward v
          kids := K.take s.kids (s.cases.getD (pick % s.cases.length) 0)
          events := s.events ++
            [AggEvent.selected (s.cases.getD (pick % s.cases.length) 0) (Recv.value v)] }
      | some Recv.closed =>
        { s with
          cases := s.cases.eraseIdx (pick % s.cases.length)
          events := s.events ++
            [AggEvent.selected (s.cases.getD (pick % s.cases.length) 0) Recv.closed] }
  | AggPc.reforward v =>
    match v with
    | none => { s with pc := AggPc.panicking Deferred.closing }
    | some e =>
      if receiver then
        { s with
          pc := AggPc.draining 0
          events := s.events ++ [AggEvent.out (ChanOp.send (some e))] }
      else s
  | AggPc.closing =>
    { s with pc := AggPc.finished, events := s.events ++ [AggEvent.out ChanOp.close] }
  | AggPc.finished => s
  | AggPc.panicking (Deferred.cancelling k) =>
    if k < s.n then
      { s with
        pc := AggPc.panicking (Deferred.cancelling (k + 1))
        kids := K.cancel s.kids k
        events := s.events ++ [AggEvent.cancel k] }
    else { s with pc := AggPc.panicking (Deferred.draining 0) }
  | AggPc.panicking (Deferred.draining _) =>
    if s.cases = [] then { s with pc := AggPc.panicking Deferred.closing }
    else
      match K.peek s.kids (s.cases.getD (pick % s.cases.length) 0) with
      | none => s
      | some (Recv.value v) =>
        { s with
          pc := AggPc.panicking (Deferred.reforward v)
          kids := K.take s.kids (s.cases.getD (pick % s.cases.length) 0)
          events := s.events ++
            [AggEvent.selected (s.cases.getD (pick % s.cases.length) 0) (Recv.value v)] }
      | some Recv.closed =>
        { s with
          cases := s.cases.eraseIdx (pick % s.cases.length)
          events := s.events ++
            [AggEvent.selected (s.cases.getD (pick % s.cases.length) 0) Recv.closed] }
  | AggPc.panicking (Deferred.reforward v) =>
    match v with
    | none => { s with pc := AggPc.panicking Deferred.closing }
    | some e =>
      if receiver then
        { s with
          pc := AggPc.panicking (Deferred.draining 0)
          events := s.events ++ [AggEvent.out (ChanOp.send (some e))] }
      else s
  | AggPc.panicking Deferred.closing =>
    { s with pc := AggPc.panicked, events := s.events ++ [AggEvent.out ChanOp.close] }
  | AggPc.panicked => s

/-- The goroutine of `AllErr` after `m` steps; `sched k` gives the case favoured by
`reflect.Select` and the readiness of a receiver on `ret.Err` at step `k`. -/
def AllErr.run {κ : Type} (K : Kids κ ε) (sched : Nat → Nat × Bool) :
    Nat → Agg κ ε → Agg κ ε
  | 0, s => s
  | m + 1, s => AllErr.step K (sched m).1 (sched m).2 (AllErr.run K sched m s)

/-- The state in which `AnyErr(ctrls...)` starts its goroutine. -/
def AnyErr {κ : Type} (n : Nat) (kids : κ) : Agg κ ε :=
  { pc := AggPc.first, n := n, cases := List.range n, kids := kids, events := [] }

/-- The `Cancel` of the handle returned by `AnyErr`. -/
def AnyErr.Cancel {κ : Type} (K : Kids κ ε) (n : Nat) (kids : κ) : κ × List (AggEvent ε) :=
  ((List.range n).foldl K.cancel kids, (List.range n).map AggEvent.cancel)

/-- One step of the goroutine of `AnyErr`; `pick` and `receiver` as for `AllErr.step`.
The deferred drain receives from the children in order, each until its channel
is closed.  A nil first value makes the goroutine panic at the type assertion,
and the deferred calls run before the panic leaves it. -/
def AnyErr.step {κ : Type} (K : Kids κ ε) (pick : Nat) (receiver : Bool) (s : Agg κ ε) :
    Agg κ ε :=
  match s.pc with
  | AggPc.first =>
    if s.cases = [] then s
    else
      match K.peek s.kids (s.cases.getD (pick % s.cases.length) 0) with
      | none => s
      | some (Recv.value v) =>
        { s with
          pc := AggPc.forward v
          kids := K.take s.kids (s.cases.getD (pick % s.cases.length) 0)
          events := s.events ++
            [AggEvent.selected (s.cases.getD (pick % s.cases.length) 0) (Recv.value v)] }
      | some Recv.closed =>
        { s with
          pc := AggPc.cancelling 0
          events := s.events ++
            [AggEvent.selected (s.cases.getD (pick % s.cases.length) 0) Recv.closed] }
  | AggPc.forward v =>
    match v with
    | none => { s with pc := AggPc.panicking (Deferred.cancelling 0) }
    | some e =>
      if receiver then
        { s with
          pc := AggPc.cancelling 0
          events := s.events ++ [AggEvent.out (ChanOp.send (some e))] }
      else s
  | AggPc.cancelling k =>
    if k < s.n then
      { s with
        pc := AggPc.cancelling (k + 1)
        kids := K.cancel s.kids k
        events := s.events ++ [AggEvent.cancel k] }
    else { s with pc := AggPc.draining 0 }
  | AggPc.draining i =>
    if i < s.n then
      match K.peek s.kids i with
      | none => s
      | some (Recv.value v) =>
        { s with kids := K.take s.kids i, events := s.events ++ [AggEvent.discarded i v] }
      | some Recv.closed => { s with pc := AggPc.draining (i + 1) }
    else { s with pc := AggPc.closing }
  | AggPc.reforward _ => s
  | AggPc.closing =>
    { s with pc := AggPc.finished, events := s.events ++ [AggEvent.out ChanOp.close] }
  | AggPc.finished => s
  | AggPc.panicking (Deferred.cancelling k) =>
    if k < s.n then
      { s with
        pc := AggPc.panicking (Deferred.cancelling (k + 1))
        kids := K.cancel s.kids k
        events := s.events ++ [AggEvent.cancel k] }
    else { s with pc := AggPc.panicking (Deferred.draining 0) }
  | AggPc.panicking (Deferred.draining i) =>
    if i < s.n then
      match K.peek s.kids i with
      | none => s
      | some (Recv.value v) =>
        { s with kids := K.take s.kids i, events := s.events ++ [AggEvent.discarded i v] }
      | some Recv.closed => { s with pc := AggPc.panicking (Deferred.draining (i + 1)) }
    else { s with pc := AggPc.panicking Deferred.closing }
  | AggPc.panicking (Deferred.reforward _) => s
  | AggPc.panicking Deferred.closing =>
    { s with pc := AggPc.panicked, events := s.events ++ [AggEvent.out ChanOp.close] }
  | AggPc.panicked => s

/-- The goroutine of `AnyErr` after `m` steps. -/
def AnyErr.run {κ : Type} (K : Kids κ ε) (sched : Nat → Nat × Bool) :
    Nat → Agg κ ε → Agg κ ε
  | 0, s => s
  | m + 1, s => AnyErr.step K (sched m).1 (sched m).2 (AnyErr.run K sched m s)

/-- The operations completed on `ret.Err`, in order. -/
def outs : List (AggEvent ε) → List (ChanOp ε)
  | [] => []
  | AggEvent.out op :: es => op :: outs es
  | AggEvent.selected _ _ :: es => outs es
  | AggEvent.cancel _ :: es => outs es
  | AggEvent.discarded _ _ :: es => outs es

/-- The children whose `Cancel` was called, in order. -/
def cancels : List (AggEvent ε) → List Nat
  | [] => []
  | AggEvent.cancel c :: es => c :: cancels es
  | AggEvent.out _ :: es => cancels es
  | AggEvent.selected _ _ :: es => cancels es
  | AggEvent.discarded _ _ :: es => cancels es

/-- The values received and dropped, with the child each came from, in order. -/
def discards : List (AggEvent ε) → List (Nat × Option ε)
  | [] => []
  | AggEvent.discarded c v :: es => (c, v) :: discards es
  | AggEvent.out _ :: es => discards es
  | AggEvent.selected _ _ :: es => discards es
  | AggEvent.cancel _ :: es => discards es

/-- The events up to the deferred `ret.Cancel()`, on each path out of the first
selection: it found a closed channel, or it received a value and forwarded it,
or it received a nil value and the type assertion panicked. -/
def firstPath (pre : List (AggEvent ε)) : Prop :=
  (∃ c, pre = [AggEvent.selected c Recv.closed])
  ∨ (∃ c e, pre = [AggEvent.selected c (Recv.value (some e)),
      AggEvent.out (ChanOp.send (some e))])
  ∨ (∃ c, pre = [AggEvent.selected c (Recv.value none)])

/-- How the calls of `Cancel` lie among the events of the aggregating goroutine:
none before the first selection has returned (and its value, if any, has been
forwarded, or was nil and made the type assertion panic); then one call per
child, in order; and once the deferred `ret.Cancel()` has returned all `n` calls
lie before everything that follows. -/
def CancelOrder {κ : Type} (s : Agg κ ε) : Prop :=
  match s.pc with
  | AggPc.first => s.events = []
  | AggPc.forward v => ∃ c, s.events = [AggEvent.selected c (Recv.value v)]
  | AggPc.cancelling k =>
    k ≤ s.n ∧ ∃ pre, firstPath pre ∧ s.events = pre ++ (List.range k).map AggEvent.cancel
  | AggPc.panicking (Deferred.cancelling k) =>
    k ≤ s.n ∧ ∃ pre, firstPath pre ∧ s.events = pre ++ (List.range k).map AggEvent.cancel
  | _ =>
    ∃ pre post, firstPath pre
      ∧ s.events = pre ++ (List.range s.n).map AggEvent.cancel ++ post
      ∧ cancels post = []

/-- Whether the deferred `ret.Cancel()` has returned: the goroutine is in its deferred
drain, at the deferred close of `ret.Err`, or gone. -/
def AggPc.afterCancel : AggPc ε → Bool
  | AggPc.first => false
  | AggPc.forward _ => false
  | AggPc.cancelling _ => false
  | AggPc.panicking (Deferred.cancelling _) => false
  | _ => true

/-- The children after the operations recorded in the events have been made on
them, in order: `take` for every value received, `cancel` for every call of
`Cancel`. -/
def replay {κ : Type} (K : Kids κ ε) : List (AggEvent ε) → κ → κ
  | [], ks => ks
  | AggEvent.selected c (Recv.value _) :: es, ks => replay K es (K.take ks c)
  | AggEvent.selected _ Recv.closed :: es, ks => replay K es ks
  | AggEvent.cancel c :: es, ks => replay K es (K.cancel ks c)
  | AggEvent.out _ :: es, ks => replay K es ks
  | AggEvent.discarded c _ :: es, ks => replay K es (K.take ks c)

/-! ### Children known only by the one value each delivers -/

/-- The `Err` channel of a child that delivers one value and is then closed. -/
inductive Chan (ε : Type) where
  /-- The value has not been received yet. -/
  | offering (v : Option ε)
  /-- The value has been received and the channel closed. -/
  | closed
  deriving DecidableEq, Repr

/-- Children of which only the channels are known.  A receive from a channel that
still offers its value is taken to succeed whenever `reflect.Select` favours it,
so every order in which the children can become ready is covered; what a child
delivers is fixed beforehand, whatever `Cancel` does to it. -/
def chanKids : Kids (Nat → Chan ε) ε :=
  { peek := fun ks i =>
      match ks i with
      | Chan.offering v => some (Recv.value v)
      | Chan.closed => some Recv.closed
    take := fun ks i => fun j => if j = i then Chan.closed else ks j
    cancel := fun ks _ => ks }

/-- Children `0 .. n-1` of which child `c` delivers the non-nil error `v c`, none
received yet. -/
def offeringAll (v : Nat → ε) : Nat → Chan ε := fun c => Chan.offering (some (v c))

/-- Relates what `AllErr` has put on `ret.Err` to the list `R` of the children whose
value it has received so far, in the order of reception. -/
def AllSent (v : Nat → ε) (s : Agg (Nat → Chan ε) ε) (R : List Nat) : Prop :=
  match s.pc with
  | AggPc.first => R = [] ∧ outs s.events = [] ∧ s.cases = List.range s.n
  | AggPc.forward x =>
    ∃ R0 c, R = R0 ++ [c] ∧ x = some (v c)
      ∧ outs s.events = R0.map (fun c => ChanOp.send (some (v c)))
  | AggPc.reforward x =>
    ∃ R0 c, R = R0 ++ [c] ∧ x = some (v c)
      ∧ outs s.events = R0.map (fun c => ChanOp.send (some (v c)))
  | AggPc.cancelling _ => outs s.events = R.map (fun c => ChanOp.send (some (v c)))
  | AggPc.draining _ => outs s.events = R.map (fun c => ChanOp.send (some (v c)))
  | AggPc.closing =>
    s.cases = [] ∧ outs s.events = R.map (fun c => ChanOp.send (some (v c)))
  | AggPc.finished =>
    s.cases = []
      ∧ outs s.events = R.map (fun c => ChanOp.send (some (v c))) ++ [ChanOp.close]
  | AggPc.panicking _ => False
  | AggPc.panicked => False

/-- Invariant of `AllErr` over children that each deliver one value: `R` lists,
without repetition, the children whose value has been received; exactly their
channels are closed; a child leaves `cases` only after its value was received. -/
structure AllInv (v : Nat → ε) (s : Agg (Nat → Chan ε) ε) (R : List Nat) : Prop where
  kidsOpen : ∀ c, c ∉ R → s.kids c = Chan.offering (some (v c))
  kidsClosed : ∀ c, c ∈ R → s.kids c = Chan.closed
  nodupR : R.Nodup
  memR : ∀ c, c ∈ R → c < s.n
  nodupCases : s.cases.Nodup
  memCases : ∀ c, c ∈ s.cases → c < s.n
  gone : ∀ c, c < s.n → c ∉ s.cases → c ∈ R
  sent : AllSent v s R

/-- Selections and sends the drain of `AllErr` still has to make for the given
cases: three steps for a channel that still offers its value, one for a closed
one. -/
def work (kids : Nat → Chan ε) : List Nat → Nat
  | [] => 0
  | c :: cs =>
    (match kids c with
      | Chan.offering _ => 3
      | Chan.closed => 1) + work kids cs

/-- A bound on the number of steps the goroutine of `AllErr` still makes when a
receiver is always ready. -/
def AllErr.stepsLeft (s : Agg (Nat → Chan ε) ε) : Nat :=
  match s.pc with
  | AggPc.first => work s.kids s.cases + s.n + 5
  | AggPc.forward _ => work s.kids s.cases + s.n + 4
  | AggPc.cancelling k => work s.kids s.cases + (s.n - k) + 3
  | AggPc.draining _ => work s.kids s.cases + 2
  | AggPc.reforward _ => work s.kids s.cases + 3
  | AggPc.closing => 1
  | AggPc.finished => 0
  | AggPc.panicking _ => 0
  | AggPc.panicked => 0

/-- The channels once `AnyErr` has received the value of child `c0` in its first
selection and has drained the children before `j`. -/
def AnyKids (v : Nat → ε) (kids : Nat → Chan ε) (c0 j : Nat) : Prop :=
  ∀ c, kids c = if c = c0 ∨ c < j then Chan.closed else Chan.offering (some (v c))

/-- The values `AnyErr` has dropped once it has drained the children before `j`:
those of all of them but `c0`, in order. -/
def dropped (v : Nat → ε) (c0 j : Nat) : List (Nat × Option ε) :=
  ((List.range j).filter (fun c => decide (c ≠ c0))).map (fun c => (c, some (v c)))

/-- Invariant of `AnyErr` over children that each deliver one value. -/
def AnyInv (v : Nat → ε) (s : Agg (Nat → Chan ε) ε) : Prop :=
  match s.pc with
  | AggPc.first => s.events = [] ∧ s.cases = List.range s.n ∧ s.kids = offeringAll v
  | AggPc.forward x =>
    ∃ c0, c0 < s.n ∧ x = some (v c0)
      ∧ s.events.head? = some (AggEvent.selected c0 (Recv.value (some (v c0))))
      ∧ outs s.events = [] ∧ discards s.events = [] ∧ AnyKids v s.kids c0 0
  | AggPc.cancelling _ =>
    ∃ c0, c0 < s.n
      ∧ s.events.head? = some (AggEvent.selected c0 (Recv.value (some (v c0))))
      ∧ outs s.events = [ChanOp.send (some (v c0))] ∧ discards s.events = []
      ∧ AnyKids v s.kids c0 0
  | AggPc.draining i =>
    ∃ c0 j, c0 < s.n ∧ i ≤ s.n ∧ (j = i ∨ (j = i + 1 ∧ i ≠ c0 ∧ i < s.n))
      ∧ s.events.head? = some (AggEvent.selected c0 (Recv.value (some (v c0))))
      ∧ outs s.events = [ChanOp.send (some (v c0))] ∧ discards s.events = dropped v c0 j
      ∧ AnyKids v s.kids c0 j
  | AggPc.closing =>
    ∃ c0, c0 < s.n
      ∧ s.events.head? = some (AggEvent.selected c0 (Recv.value (some (v c0))))
      ∧ outs s.events = [ChanOp.send (some (v c0))] ∧ discards s.events = dropped v c0 s.n
  | AggPc.finished =>
    ∃ c0, c0 < s.n
      ∧ s.events.head? = some (AggEvent.selected c0 (Recv.value (some (v c0))))
      ∧ outs s.events = [ChanOp.send (some (v c0)), ChanOp.close]
      ∧ discards s.events = dropped v c0 s.n
  | AggPc.reforward _ => False
  | AggPc.panicking _ => False
  | AggPc.panicked => False

/-- A bound on the number of steps the goroutine of `AnyErr` still makes when a
receiver is always ready. -/
def AnyErr.stepsLeft (s : Agg (Nat → Chan ε) ε) : Nat :=
  match s.pc with
  | AggPc.first => 3 * s.n + 5
  | AggPc.forward _ => 3 * s.n + 4
  | AggPc.cancelling k => 2 * s.n + (s.n - k) + 3
  | AggPc.draining i =>
    if i < s.n then
      2 * (s.n - i) + 2 -
        (match s.kids i with
          | Chan.closed => 1
          | Chan.offering _ => 0)
    else 2
  | AggPc.closing => 1
  | AggPc.finished => 0
  | AggPc.reforward _ => 0
  | AggPc.panicking _ => 0
  | AggPc.panicked => 0

/-! ### Children that are supervised loops -/

/-- A child made by `InfiniteLoop(task)`: its goroutine and its context. -/
structure Kid (σ ε : Type) where
  task : Task σ ε
  /-- Whether `Cancel` has been called, that is, whether `ctx.Done()` is closed. -/
  cancelled : Bool
  /-- The error `ctx.Err()` returns once cancelled (`context.Canceled`). -/
  cause : ε
  loop : Loop σ ε

/-- The context of a child as its loop sees it at the moment. -/
def Kid.ctx (k : Kid σ ε) : Ctx ε :=
  { done := fun _ _ => k.cancelled, cause := k.cause }

/-- Replaces the element at a position of a list. -/
def modifyAt {α : Type} (f : α → α) : Nat → List α → List α
  | _, [] => []
  | 0, x :: xs => f x :: xs
  | i + 1, x :: xs => x :: modifyAt f i xs

/-- A step of the goroutine of a child on its own; at the send it keeps waiting. -/
def Kid.tick (k : Kid σ ε) : Kid σ ε :=
  { k with loop := doInfiniteLooping.step k.ctx k.task false k.loop }

/-- The send of a child completes because the aggregating goroutine receives. -/
def Kid.deliver (k : Kid σ ε) : Kid σ ε :=
  { k with loop := doInfiniteLooping.step k.ctx k.task true k.loop }

/-- Children that are supervised loops: a receive finds the value of a child that
waits at its send, or a closed channel once the child has returned. -/
def loopKids : Kids (List (Kid σ ε)) ε :=
  { peek := fun ks i =>
      match ks.get? i with
      | none => none
      | some k =>
        match k.loop.pc with
        | Pc.sending => some (Recv.value k.loop.err)
        | Pc.returned => some Recv.closed
        | Pc.looping => none
        | Pc.closing => none
    take := fun ks i => modifyAt Kid.deliver i ks
    cancel := fun ks i => modifyAt (fun k => { k with cancelled := true }) i ks }

/-- What the scheduler lets happen next: a step of a child, or a step of the
aggregating goroutine. -/
inductive Act where
  | tick (child : Nat)
  | agg (pick : Nat) (receiver : Bool)
  deriving DecidableEq, Repr

/-- One step of `AllErr` running together with its supervised loops. -/
def AllErr.system (act : Act) (s : Agg (List (Kid σ ε)) ε) : Agg (List (Kid σ ε)) ε :=
  match act with
  | Act.tick i => { s with kids := modifyAt Kid.tick i s.kids }
  | Act.agg pick receiver => AllErr.step loopKids pick receiver s

/-- `AllErr` and its supervised loops after `m` steps under the schedule `sched`. -/
def AllErr.systemRun (sched : Nat → Act) :
    Nat → Agg (List (Kid σ ε)) ε → Agg (List (Kid σ ε)) ε
  | 0, s => s
  | m + 1, s => AllErr.system (sched m) (AllErr.systemRun sched m s)

/-- One step of `AnyErr` running together with its supervised loops. -/
def AnyErr.system (act : Act) (s : Agg (List (Kid σ ε)) ε) : Agg (List (Kid σ ε)) ε :=
  match act with
  | Act.tick i => { s with kids := modifyAt Kid.tick i s.kids }
  | Act.agg pick receiver => AnyErr.step loopKids pick receiver s

/-- `AnyErr` and its supervised loops after `m` steps under the schedule `sched`. -/
def AnyErr.systemRun (sched : Nat → Act) :
    Nat → Agg (List (Kid σ ε)) ε → Agg (List (Kid σ ε)) ε
  | 0, s => s
  | m + 1, s => AnyErr.system (sched m) (AnyErr.systemRun sched m s)

/-- Every supervised loop named in the list has its context cancelled. -/
def Reached (L : List Nat) (ks : List (Kid σ ε)) : Prop :=
  ∀ c kid, c ∈ L → ks[c]? = some kid → kid.cancelled = true

/-- The child handle made by `InfiniteLoop(task)`: not yet cancelled, its goroutine at
the start. -/
def InfiniteLoop.kid (task : Task σ ε) (cause : ε) (w : World σ ε) : Kid σ ε :=
  { task := task, cancelled := false, cause := cause, loop := InfiniteLoop w }

/-- The schedule that lets child 0, child 1 and the aggregating goroutine step in
turn, the selection favouring another case each time and a receiver always
ready on `ret.Err`. -/
def roundRobin (k : Nat) : Act :=
  match k % 3 with
  | 0 => Act.tick 0
  | 1 => Act.tick 1
  | _ => Act.agg (k / 3) true

/-- The value of the child has been received: its goroutine is past the send. -/
def Delivered (k : Kid σ ε) : Prop :=
  k.loop.pc = Pc.closing ∨ k.loop.pc = Pc.returned

/-- The value of the child has not been received: its goroutine is in the loop or
waits at the send. -/
def Waiting (k : Kid σ ε) : Prop :=
  k.loop.pc = Pc.looping ∨ k.loop.pc = Pc.sending

/-- What holds of a supervised loop whose task always returns nil: it leaves the
loop only with the cancellation cause, and only after it was cancelled. -/
structure QuietKid (t0 : Task σ ε) (canceled : ε) (a : Kid σ ε) : Prop where
  task : a.task = t0
  cause : a.cause = canceled
  idle : a.cancelled = false → a.loop.pc = Pc.looping ∧ a.loop.err = none
  err : a.loop.err = none ∨ a.loop.err = some canceled
  left : a.loop.pc ≠ Pc.looping → a.loop.err = some canceled

/-- What holds of a supervised loop whose task fails with `E` in its first
invocation, as long as it is cancelled only after it has delivered. -/
structure FailingKid (t1 : Task σ ε) (w1 : World σ ε) (E : ε) (b : Kid σ ε) : Prop where
  task : b.task = t1
  fresh : b.loop.err = none → b.loop.pc = Pc.looping ∧ b.loop.world = w1 ∧ b.cancelled = false
  err : b.loop.err = none ∨ b.loop.err = some E
  left : b.loop.pc ≠ Pc.looping → b.loop.err = some E

/-- Where `AllErr` over the never-failing child `a` and the failing child `b` stands,
and what it has put on `ret.Err`. -/
def Phase17 (E canceled : ε) (s : Agg (List (Kid σ ε)) ε) (a b : Kid σ ε) : Prop :=
  match s.pc with
  | AggPc.first =>
    s.cases = [0, 1] ∧ outs s.events = [] ∧ a.cancelled = false ∧ b.cancelled = false
      ∧ Waiting b
  | AggPc.forward x =>
    x = some E ∧ s.cases = [0, 1] ∧ outs s.events = [] ∧ a.cancelled = false
      ∧ b.cancelled = false ∧ Delivered b
  | AggPc.cancelling k =>
    s.cases = [0, 1] ∧ outs s.events = [ChanOp.send (some E)] ∧ Delivered b ∧ Waiting a
      ∧ (1 ≤ k → a.cancelled = true)
  | AggPc.draining _ =>
    Delivered b ∧ a.cancelled = true ∧ (∀ c, c ∈ s.cases → c < 2)
      ∧ ((Waiting a ∧ outs s.events = [ChanOp.send (some E)] ∧ 0 ∈ s.cases)
        ∨ (Delivered a
          ∧ outs s.events = [ChanOp.send (some E), ChanOp.send (some canceled)]))
  | AggPc.reforward x =>
    x = some canceled ∧ Delivered a ∧ Delivered b ∧ a.cancelled = true
      ∧ (∀ c, c ∈ s.cases → c < 2) ∧ outs s.events = [ChanOp.send (some E)]
  | AggPc.closing =>
    outs s.events = [ChanOp.send (some E), ChanOp.send (some canceled)]
  | AggPc.finished =>
    outs s.events = [ChanOp.send (some E), ChanOp.send (some canceled), ChanOp.close]
  | AggPc.panicking _ => False
  | AggPc.panicked => False

/-- Invariant of `AllErr` running with a never-failing and a failing supervised
loop. -/
def Inv17 (t0 t1 : Task σ ε) (w1 : World σ ε) (E canceled : ε)
    (s : Agg (List (Kid σ ε)) ε) : Prop :=
  ∃ a b, s.kids = [a, b] ∧ s.n = 2 ∧ QuietKid t0 canceled a ∧ FailingKid t1 w1 E b
    ∧ Phase17 E canceled s a b

/-! ## Runs of the supervised loop -/

/-- The world after `j` invocations of `task` in a row, as the loop makes them. -/
def invokeN (task : Task σ ε) : Nat → World σ ε → World σ ε
  | 0, w => w
  | j + 1, w => (invoke task (invokeN task j w)).2

/-- The error returned by the invocation of `task` that follows `j` earlier ones. -/
def errAt (task : Task σ ε) (j : Nat) (w : World σ ε) : Option ε :=
  (invoke task (invokeN task j w)).1

/-- The context of a loop whose `Cancel` is called at clock reading `T`: a `select`
executed at or after `T` finds `ctx.Done()` closed, an earlier one does not. -/
def cancelAt (T : Int) (cause : ε) : Ctx ε :=
  { done := fun _ t => decide (T ≤ t), cause := cause }

/-! ## til_err.go -/

/-- Go `TilErr(funcs...)`: runs the functions in order and stops at the first
non-nil error; the named result `err` is nil when the list is exhausted. -/
def TilErr : List (Task σ ε) → World σ ε → Option ε × World σ ε
  | [], w => (none, w)
  | f :: fs, w =>
    if (invoke f w).1.isSome then ((invoke f w).1, (invoke f w).2)
    else TilErr fs (invoke f w).2

/-- The world after every function of the list has been invoked once, in order. -/
def invokeAll : List (Task σ ε) → World σ ε → World σ ε
  | [], w => w
  | f :: fs, w => invokeAll fs (invoke f w).2

/-- Whether every function of the list returns nil when they are invoked in order. -/
def allNil : List (Task σ ε) → World σ ε → Bool
  | [], _ => true
  | f :: fs, w => (invoke f w).1.isNone && allNil fs (invoke f w).2

/-! ## retry.go -/

/-- The closure returned by `Recorded(f)`, with the captured counter `tries` (a
`uint64`, starting at 0) passed in and out. -/
def Recorded (f : Nat → World σ ε → Option ε × World σ ε) (tries : Nat) (w : World σ ε) :
    Option ε × Nat × World σ ε :=
  ((f tries w).1, (tries + 1) % 2 ^ 64, (f tries w).2)

/-- The goroutine started by `Retry(f)`, for a closure `f` with captured state `τ`,
and a receiver that drains the channel: the operations completed on the channel
and the final state.  `none` when the fuel does not suffice. -/
def Retry {τ : Type} (f : τ → World σ ε → Option ε × τ × World σ ε) :
    Nat → τ → World σ ε → Option (List (ChanOp ε) × τ × World σ ε)
  | 0, _, _ => none
  | fuel + 1, st, w =>
    match (f st w).1 with
    | none => some ([ChanOp.close], (f st w).2.1, (f st w).2.2)
    | some e =>
      match Retry f fuel (f st w).2.1 (f st w).2.2 with
      | none => none
      | some r => some (ChanOp.send (some e) :: r.1, r.2)

/-- A task seen as a closure without captured state. -/
def plain (f : Task σ ε) (_ : Unit) (w : World σ ε) : Option ε × Unit × World σ ε :=
  ((invoke f w).1, (), (invoke f w).2)

/-- The function literal that `TriesAtMost(n, f)` hands to `Recorded`: it returns nil
without calling `f` once the index has reached `n`. -/
def TriesAtMost.attempt (n : Nat) (f : Task σ ε) (idx : Nat) (w : World σ ε) :
    Option ε × World σ ε :=
  if idx ≥ n then (none, w) else invoke f w

/-- Go `TriesAtMost(n, f)`: `Retry(Recorded(...))`, the counter of `Recorded` starting
at 0. -/
def TriesAtMost (n : Nat) (f : Task σ ε) (fuel : Nat) (w : World σ ε) :
    Option (List (ChanOp ε) × Nat × World σ ε) :=
  Retry (Recorded (TriesAtMost.attempt n f)) fuel 0 w

/-! ## Concrete inputs used to exercise the theorems -/

/-- A world whose clock reads `t`, with exact sleeps and an empty trace. -/
def World.fresh (t : Int) (env : σ) : World σ ε :=
  { now := t, env := env, oversleep := fun _ => 0, naps := 0, trace := [] }

/-- A task that runs for `took` nanoseconds and fails with `e` on its first `k`
invocations, succeeding afterwards; its private state counts the invocations. -/
def flaky (took : Nat) (k : Nat) (e : ε) : Task Nat ε :=
  fun _ n => { err := if n < k then some e else none, took := took, env := n + 1 }

/-- A task that takes no time and always succeeds. -/
def instantTask : Task Nat Unit := flaky 0 0 ()

/-- A task that takes 100ns and always succeeds. -/
def slowTask : Task Nat Unit := flaky 100 0 ()

/-- A task that takes no time and always fails. -/
def failingTask : Task Nat Unit := flaky 0 1000 ()

/-- A world whose clock reads 0, with exact sleeps and an empty trace. -/
def startWorld : World Nat Unit := World.fresh 0 0

/-- A context that is found cancelled from the second `select` on. -/
def cancelledAfterOne : Ctx Unit := { done := fun k _ => decide (1 ≤ k), cause := () }

/-- The task of `TestInfiniteLoop`: it sleeps 9ms and returns nil. -/
def nineMsTask : Task Nat Unit := flaky 9000000 0 ()

/-- The task of `TestInfiniteLoopCancelAfterDone`: three runs of 10ms that return nil,
then an error at once. -/
def jobTask : Task Nat Unit :=
  fun _ cnt =>
    if cnt ≥ 3 then { err := some (), took := 0, env := cnt }
    else { err := none, took := 10000000, env := cnt + 1 }

/-- Child `c` delivers the error `10 + c`. -/
def tenPlus : Nat → Nat := fun c => 10 + c

/-- A schedule for an aggregating goroutine on its own: the selection favours
another case each time and a receiver is always ready. -/
def favourInTurn : Nat → Nat × Bool := fun k => (k, true)

/-- The never-failing task of `TestAllErrWithCancel`, taking 9ms. -/
def okLoopTask : Task Nat Nat := flaky 9000000 0 0

/-- The task of `TestAllErrWithCancel` that fails with the error `7`, taking 10ms. -/
def badLoopTask : Task Nat Nat := flaky 10000000 1000 7

/-- Two children of which child 0 delivers a nil value and child 1 the error 11. -/
def nilFirst : Nat → Chan Nat := fun c => Chan.offering (if c = 0 then none else some (10 + c))

/-- The example in the doc comment of `OnceSuccessAtMost`: the limit is one second,
every run of the task takes 0.1s, the first two runs fail and the third
succeeds, and the closure is called three times right after construction, on a
clock that reads 0 at construction. -/
def docExample : List (Option Unit) × Int × World Nat Unit :=
  callSeq (OnceSuccessAtMost.call 1000000000 (flaky 100000000 2 ())) [0, 0, 0]
    (OnceSuccessAtMost 1000000000 (World.fresh 0 0 : World Nat Unit)) (World.fresh 0 0)

/-! ## Basic facts about traces -/

@[simp] theorem invocations_append (xs ys : List (Event ε)) :
    invocations (xs ++ ys) = invocations xs ++ invocations ys := by
  induction xs with
  | nil => rfl
  | cons x xs ih => cases x <;> simp [invocations, ih]

@[simp] theorem starts_append (xs ys : List (Event ε)) :
    starts (xs ++ ys) = starts xs ++ starts ys := by
  induction xs with
  | nil => rfl
  | cons x xs ih => cases x <;> simp [starts, ih]

@[simp] theorem finishes_append (xs ys : List (Event ε)) :
    finishes (xs ++ ys) = finishes xs ++ finishes ys := by
  induction xs with
  | nil => rfl
  | cons x xs ih => cases x <;> simp [finishes, ih]

@[simp] theorem sleeps_append (xs ys : List (Event ε)) :
    sleeps (xs ++ ys) = sleeps xs ++ sleeps ys := by
  induction xs with
  | nil => rfl
  | cons x xs ih => cases x <;> simp [sleeps, ih]

@[simp] theorem successStarts_append (xs ys : List (Event ε)) :
    successStarts (xs ++ ys) = successStarts xs ++ successStarts ys := by
  induction xs with
  | nil => rfl
  | cons x xs ih =>
    cases x with
    | ran s t e => cases e <;> simp [successStarts, ih]
    | slept x => simp [successStarts, ih]

@[simp] theorem timeSleep_successStarts (x : Int) (w : World σ ε) :
    successStarts (timeSleep x w).trace = successStarts w.trace := by
  unfold timeSleep; split <;> simp [successStarts]

@[simp] theorem timeSleep_invocations (x : Int) (w : World σ ε) :
    invocations (timeSleep x w).trace = invocations w.trace := by
  unfold timeSleep; split <;> simp [invocations]

@[simp] theorem timeSleep_starts (x : Int) (w : World σ ε) :
    starts (timeSleep x w).trace = starts w.trace := by
  unfold timeSleep; split <;> simp [starts]

@[simp] theorem timeSleep_finishes (x : Int) (w : World σ ε) :
    finishes (timeSleep x w).trace = finishes w.trace := by
  unfold timeSleep; split <;> simp [finishes]

@[simp] theorem timeSleep_sleeps (x : Int) (w : World σ ε) :
    sleeps (timeSleep x w).trace = sleeps w.trace ++ [x] := by
  unfold timeSleep; split <;> simp [sleeps]

@[simp] theorem timeSleep_env (x : Int) (w : World σ ε) :
    (timeSleep x w).env = w.env := by
  unfold timeSleep; split <;> rfl

theorem timeSleep_now_ge (x : Int) (w : World σ ε) :
    w.now ≤ (timeSleep x w).now ∧ w.now + x ≤ (timeSleep x w).now := by
  unfold timeSleep
  split
  · exact ⟨le_refl _, by show w.now + x ≤ w.now; omega⟩
  · constructor
    · show w.now ≤ w.now + x + (w.oversleep w.naps : Int); omega
    · show w.now + x ≤ w.now + x + (w.oversleep w.naps : Int); omega

theorem timeSleep_now_of_nonpos (x : Int) (w : World σ ε) (h : x ≤ 0) :
    (timeSleep x w).now = w.now := by
  unfold timeSleep; simp [h]

@[simp] theorem invoke_fst (f : Task σ ε) (w : World σ ε) :
    (invoke f w).1 = (f w.now w.env).err := rfl

@[simp] theorem invoke_now (f : Task σ ε) (w : World σ ε) :
    (invoke f w).2.now = w.now + ((f w.now w.env).took : Int) := rfl

@[simp] theorem invoke_trace (f : Task σ ε) (w : World σ ε) :
    (invoke f w).2.trace =
      w.trace ++ [Event.ran w.now (w.now + ((f w.now w.env).took : Int)) (f w.now w.env).err] :=
  rfl

@[simp] theorem invoke_env (f : Task σ ε) (w : World σ ε) :
    (invoke f w).2.env = (f w.now w.env).env := rfl

/-! ## C1: the wrappers pass the task's error through -/

/-- C1: one call of the closure returned by `RunAtLeast`, `RunSuccessAtLeast`,
`RunFailedAtLeast`, `OnceAtMost` or `OnceSuccessAtMost` adds exactly one task
invocation to the trace, and returns exactly the error of that invocation. -/
theorem C1_wrappers_invoke_once_and_return_task_error
    (dur : Int) (f : Task σ ε) (last : Int) (w : World σ ε) :
    (invocations (RunAtLeast dur f w).2.trace =
        invocations w.trace ++
          [Event.ran w.now (w.now + ((f w.now w.env).took : Int)) (f w.now w.env).err]
      ∧ (RunAtLeast dur f w).1 = (f w.now w.env).err)
    ∧ (invocations (RunSuccessAtLeast dur f w).2.trace =
        invocations w.trace ++
          [Event.ran w.now (w.now + ((f w.now w.env).took : Int)) (f w.now w.env).err]
      ∧ (RunSuccessAtLeast dur f w).1 = (f w.now w.env).err)
    ∧ (invocations (RunFailedAtLeast dur f w).2.trace =
        invocations w.trace ++
          [Event.ran w.now (w.now + ((f w.now w.env).took : Int)) (f w.now w.env).err]
      ∧ (RunFailedAtLeast dur f w).1 = (f w.now w.env).err)
    ∧ (∃ s : Int, w.now ≤ s
      ∧ invocations (OnceAtMost.call dur f last w).2.2.trace =
        invocations w.trace ++
          [Event.ran s (s + ((f s w.env).took : Int)) (f s w.env).err]
      ∧ (OnceAtMost.call dur f last w).1 = (f s w.env).err)
    ∧ (∃ s : Int, w.now ≤ s
      ∧ invocations (OnceSuccessAtMost.call dur f last w).2.2.trace =
        invocations w.trace ++
          [Event.ran s (s + ((f s w.env).took : Int)) (f s w.env).err]
      ∧ (OnceSuccessAtMost.call dur f last w).1 = (f s w.env).err) := by
  refine ⟨?_, ?_, ?_, ?_, ?_⟩
  · simp only [RunAtLeast]
    split <;> simp [invocations]
  · simp only [RunSuccessAtLeast]
    split <;> simp [invocations]
  · simp only [RunFailedAtLeast]
    split <;> simp [invocations]
  · unfold OnceAtMost.call
    by_cases h : timeSince last w ≤ dur
    · refine ⟨(timeSleep (dur - timeSince last w) w).now, (timeSleep_now_ge _ w).1, ?_⟩
      simp [h, invocations]
    · exact ⟨w.now, le_refl _, by simp [h, invocations]⟩
  · unfold OnceSuccessAtMost.call
    by_cases h : timeSince last w ≤ dur
    · refine ⟨(timeSleep (dur - timeSince last w) w).now, (timeSleep_now_ge _ w).1, ?_⟩
      simp only [h, if_true]
      split <;> simp [invocations]
    · refine ⟨w.now, le_refl _, ?_⟩
      simp only [h, if_false]
      split <;> simp [invocations]

/-! ## C2, C3: the floor wrappers -/

/-- C2: whatever the task does and however long it runs, one call of the closure
returned by `RunAtLeast(dur, f)` returns no earlier than `dur` after it was
entered. -/
theorem C2_RunAtLeast_span_ge (dur : Int) (f : Task σ ε) (w : World σ ε) :
    dur ≤ (RunAtLeast dur f w).2.now - w.now := by
  simp only [RunAtLeast, timeSince, timeNow]
  split
  · have h := (timeSleep_now_ge (dur - ((invoke f w).2.now - w.now)) (invoke f w).2).2
    simp only [] at h ⊢
    omega
  · rename_i h
    simp only [invoke_now] at h ⊢
    omega

/-- C3: with `elapsed` the running time of `f`, each floor wrapper calls
`time.Sleep(dur - elapsed)` (and so returns no earlier than `dur` after entry)
when its condition holds for the outcome of `f` and `elapsed ≤ dur`; otherwise it
does not sleep and the span of the call is exactly `elapsed`.  The condition is
always true for `RunAtLeast`, "`f` returned nil" for `RunSuccessAtLeast` and
"`f` returned a non-nil error" for `RunFailedAtLeast`. -/
theorem C3_floor_wrappers_sleep_exactly_when (dur : Int) (f : Task σ ε) (w : World σ ε) :
    (((f w.now w.env).took : Int) ≤ dur →
        sleeps (RunAtLeast dur f w).2.trace =
          sleeps w.trace ++ [dur - ((f w.now w.env).took : Int)]
        ∧ dur ≤ (RunAtLeast dur f w).2.now - w.now)
    ∧ (¬ ((f w.now w.env).took : Int) ≤ dur →
        sleeps (RunAtLeast dur f w).2.trace = sleeps w.trace
        ∧ (RunAtLeast dur f w).2.now - w.now = ((f w.now w.env).took : Int))
    ∧ ((f w.now w.env).err = none ∧ ((f w.now w.env).took : Int) ≤ dur →
        sleeps (RunSuccessAtLeast dur f w).2.trace =
          sleeps w.trace ++ [dur - ((f w.now w.env).took : Int)]
        ∧ dur ≤ (RunSuccessAtLeast dur f w).2.now - w.now)
    ∧ (¬ ((f w.now w.env).err = none ∧ ((f w.now w.env).took : Int) ≤ dur) →
        sleeps (RunSuccessAtLeast dur f w).2.trace = sleeps w.trace
        ∧ (RunSuccessAtLeast dur f w).2.now - w.now = ((f w.now w.env).took : Int))
    ∧ ((f w.now w.env).err ≠ none ∧ ((f w.now w.env).took : Int) ≤ dur →
        sleeps (RunFailedAtLeast dur f w).2.trace =
          sleeps w.trace ++ [dur - ((f w.now w.env).took : Int)]
        ∧ dur ≤ (RunFailedAtLeast dur f w).2.now - w.now)
    ∧ (¬ ((f w.now w.env).err ≠ none ∧ ((f w.now w.env).took : Int) ≤ dur) →
        sleeps (RunFailedAtLeast dur f w).2.trace = sleeps w.trace
        ∧ (RunFailedAtLeast dur f w).2.now - w.now = ((f w.now w.env).took : Int)) := by
  have key : timeSince w.now (invoke f w).2 = ((f w.now w.env).took : Int) := by
    simp [timeSince, timeNow]
  have slp := (timeSleep_now_ge (dur - ((f w.now w.env).took : Int)) (invoke f w).2).2
  simp only [invoke_now] at slp
  refine ⟨?_, ?_, ?_, ?_, ?_, ?_⟩
  · intro h
    simp only [RunAtLeast, timeNow, key, h, if_true]
    refine ⟨by simp [sleeps], ?_⟩
    omega
  · intro h
    simp only [RunAtLeast, timeNow, key, h, if_false]
    simp [sleeps]
  · intro h
    have h1 : ((invoke f w).1.isNone = true ∧ ((f w.now w.env).took : Int) ≤ dur) := by
      simpa using h
    simp only [RunSuccessAtLeast, timeNow, key, h1, and_self, if_true]
    refine ⟨by simp [sleeps], ?_⟩
    omega
  · intro h
    have h1 : ¬ ((invoke f w).1.isNone = true ∧ ((f w.now w.env).took : Int) ≤ dur) := by
      simpa using h
    simp only [RunSuccessAtLeast, timeNow, key, h1, if_false]
    simp [sleeps]
  · intro h
    have h1 : ((invoke f w).1.isSome = true ∧ ((f w.now w.env).took : Int) ≤ dur) := by
      simpa [Option.isSome_iff_ne_none] using h
    simp only [RunFailedAtLeast, timeNow, key, h1, and_self, if_true]
    refine ⟨by simp [sleeps], ?_⟩
    omega
  · intro h
    have h1 : ¬ ((invoke f w).1.isSome = true ∧ ((f w.now w.env).took : Int) ≤ dur) := by
      simpa [Option.isSome_iff_ne_none] using h
    simp only [RunFailedAtLeast, timeNow, key, h1, if_false]
    simp [sleeps]

/-! ## C4: the blocking rate limiter -/

/-- One call of the `OnceAtMost` closure starts the task once, at the clock reading
it stores in `last`, which is at least `dur` after the previous `last`. -/
theorem OnceAtMost_call_start (dur : Int) (f : Task σ ε) (last : Int) (w : World σ ε) :
    starts (OnceAtMost.call dur f last w).2.2.trace =
        starts w.trace ++ [(OnceAtMost.call dur f last w).2.1]
    ∧ last + dur ≤ (OnceAtMost.call dur f last w).2.1
    ∧ w.now ≤ (OnceAtMost.call dur f last w).2.1 := by
  simp only [OnceAtMost.call, timeSince, timeNow]
  split
  · have h := timeSleep_now_ge (dur - (w.now - last)) w
    refine ⟨by simp [starts], ?_, h.1⟩
    have h2 := h.2
    omega
  · rename_i h
    refine ⟨by simp [starts], ?_, le_refl _⟩
    omega

/-- The starts of the task under sequential calls of the `OnceAtMost` closure form
a chain, beginning at `last`, in which each element is at least `dur` after the
one before. -/
theorem OnceAtMost_callSeq_chain (dur : Int) (f : Task σ ε) (gaps : List Nat) :
    ∀ (last : Int) (w : World σ ε),
      ∃ L : List Int,
        starts (callSeq (OnceAtMost.call dur f) gaps last w).2.2.trace = starts w.trace ++ L
        ∧ L.length = gaps.length
        ∧ List.Chain (fun a b => a + dur ≤ b) last L := by
  induction gaps with
  | nil => intro last w; exact ⟨[], by simp [callSeq], rfl, List.Chain.nil⟩
  | cons g gs ih =>
    intro last w
    obtain ⟨h1, h2, _⟩ := OnceAtMost_call_start dur f last (idle g w)
    obtain ⟨L, hL, hlen, hch⟩ :=
      ih (OnceAtMost.call dur f last (idle g w)).2.1 (OnceAtMost.call dur f last (idle g w)).2.2
    refine ⟨(OnceAtMost.call dur f last (idle g w)).2.1 :: L, ?_, by simp [hlen], ?_⟩
    · simp only [callSeq]
      rw [hL, h1]
      simp [idle]
    · exact List.Chain.cons h2 hch

/-- In a chain with step `dur`, neighbours are at least `dur` apart. -/
theorem chain_step_getD (dur : Int) :
    ∀ (L : List Int) (a : Int), List.Chain (fun x y => x + dur ≤ y) a L →
      ∀ i, i < L.length → (a :: L).getD i 0 + dur ≤ (a :: L).getD (i + 1) 0 := by
  intro L
  induction L with
  | nil => intro a _ i hi; simp at hi
  | cons b L ih =>
    intro a h i hi
    cases h with
    | cons hab hrest =>
      cases i with
      | zero => simpa using hab
      | succ j =>
        have := ih b hrest j (by simpa using hi)
        simpa using this

/-- In a list whose neighbours are at least `dur` apart, the element at index `i`
is at least `i * dur` after the first. -/
theorem far_apart_of_steps (dur : Int) (L : List Int)
    (h : ∀ i, i + 1 < L.length → L.getD i 0 + dur ≤ L.getD (i + 1) 0) :
    ∀ i, i < L.length → L.getD 0 0 + (i : Int) * dur ≤ L.getD i 0 := by
  intro i
  induction i with
  | zero => intro _; simp
  | succ j ih =>
    intro hj
    have h1 := ih (by omega)
    have h2 := h j hj
    have : ((j + 1 : Nat) : Int) * dur = (j : Int) * dur + dur := by push_cast; ring
    rw [this]
    omega

/-- C4: when the closure returned by `OnceAtMost(dur, f)` is called `N ≥ 1` times in
sequence (after arbitrary pauses of the caller, with a task of arbitrary
running time), the task is started `N` times, consecutive starts are at least
`dur` apart, and the start in call `N` is at least `(N-1) * dur` after the start in
call 1.  The sign of `dur` plays no role. -/
theorem C4_OnceAtMost_starts_spaced (dur : Int) (f : Task σ ε) (w : World σ ε)
    (N : Nat) (hN : 1 ≤ N) (gaps : List Nat) (hlen : gaps.length = N) :
    ((starts (callSeq (OnceAtMost.call dur f) gaps (OnceAtMost dur w) w).2.2.trace).drop
        (starts w.trace).length).length = N
    ∧ (∀ i, i + 1 < N →
        ((starts (callSeq (OnceAtMost.call dur f) gaps (OnceAtMost dur w) w).2.2.trace).drop
            (starts w.trace).length).getD i 0 + dur ≤
          ((starts (callSeq (OnceAtMost.call dur f) gaps (OnceAtMost dur w) w).2.2.trace).drop
            (starts w.trace).length).getD (i + 1) 0)
    ∧ ((starts (callSeq (OnceAtMost.call dur f) gaps (OnceAtMost dur w) w).2.2.trace).drop
          (starts w.trace).length).getD 0 0 + ((N : Int) - 1) * dur ≤
        ((starts (callSeq (OnceAtMost.call dur f) gaps (OnceAtMost dur w) w).2.2.trace).drop
          (starts w.trace).length).getD (N - 1) 0 := by
  obtain ⟨L, hL, hLlen, hch⟩ := OnceAtMost_callSeq_chain dur f gaps (OnceAtMost dur w) w
  rw [hL, List.drop_left]
  have hstep : ∀ i, i + 1 < L.length → L.getD i 0 + dur ≤ L.getD (i + 1) 0 := by
    intro i hi
    cases L with
    | nil => simp at hi
    | cons a L =>
      cases hch with
      | cons _ hrest =>
        exact chain_step_getD dur L a hrest i (by simpa using hi)
  refine ⟨by omega, fun i hi => hstep i (by omega), ?_⟩
  have h := far_apart_of_steps dur L hstep (N - 1) (by omega)
  have hc : ((N - 1 : Nat) : Int) = (N : Int) - 1 := by omega
  rw [hc] at h
  exact h

/-! ## C5, C6, C7: the dropping rate limiter -/

/-- A call of the `OnceWithin` closure that arrives no later than `dur` after `last`
does nothing at all. -/
theorem OnceWithin_call_drop (dur : Int) (f : Task σ ε) (last : Int) (w : World σ ε)
    (h : w.now - last ≤ dur) : OnceWithin.call dur f last w = (none, last, w) := by
  simp [OnceWithin.call, timeSince, timeNow, h]

/-- A call of the `OnceWithin` closure that arrives later than `dur` after `last`
stores the arrival time in `last` and runs the task. -/
theorem OnceWithin_call_run (dur : Int) (f : Task σ ε) (last : Int) (w : World σ ε)
    (h : dur < w.now - last) :
    OnceWithin.call dur f last w = ((f w.now w.env).err, w.now, (invoke f w).2) := by
  have h1 : ¬ (w.now - last ≤ dur) := by omega
  simp [OnceWithin.call, timeSince, timeNow, h1]

/-- A call of the `OnceSuccessWithin` closure that arrives no later than `dur` after
`last` does nothing at all. -/
theorem OnceSuccessWithin_call_drop (dur : Int) (f : Task σ ε) (last : Int) (w : World σ ε)
    (h : w.now - last ≤ dur) : OnceSuccessWithin.call dur f last w = (none, last, w) := by
  simp [OnceSuccessWithin.call, timeSince, timeNow, h]

/-- A call of the `OnceSuccessWithin` closure that arrives later than `dur` after
`last` runs the task, and stores the arrival time in `last` when the task succeeds. -/
theorem OnceSuccessWithin_call_run (dur : Int) (f : Task σ ε) (last : Int) (w : World σ ε)
    (h : dur < w.now - last) :
    OnceSuccessWithin.call dur f last w =
      ((f w.now w.env).err, (if (f w.now w.env).err.isNone then w.now else last),
        (invoke f w).2) := by
  have h1 : ¬ (w.now - last ≤ dur) := by omega
  simp only [OnceSuccessWithin.call, timeSince, timeNow, h1, if_false, invoke_fst]
  split <;> rfl

/-- C5 (evaluation at the failing input): a wrapper built by `OnceWithin` or
`OnceSuccessWithin` with `dur` = 50ms and called for the first time while the
clock still shows the reading taken by the constructor returns nil without
invoking the task. -/
theorem C5_first_call_at_construction_instant_is_dropped :
    (OnceWithin.call 50000000 (flaky 0 0 ())
        (OnceWithin 50000000 (World.fresh 0 0 : World Nat Unit)) (World.fresh 0 0)).1 = none
    ∧ invocations (OnceWithin.call 50000000 (flaky 0 0 ())
        (OnceWithin 50000000 (World.fresh 0 0 : World Nat Unit)) (World.fresh 0 0)).2.2.trace = []
    ∧ (OnceSuccessWithin.call 50000000 (flaky 0 0 ())
        (OnceSuccessWithin 50000000 (World.fresh 0 0 : World Nat Unit)) (World.fresh 0 0)).1 = none
    ∧ invocations (OnceSuccessWithin.call 50000000 (flaky 0 0 ())
        (OnceSuccessWithin 50000000 (World.fresh 0 0 : World Nat Unit))
        (World.fresh 0 0)).2.2.trace = [] := by
  have h : (World.fresh 0 0 : World Nat Unit).now -
      OnceWithin 50000000 (World.fresh 0 0 : World Nat Unit) ≤ 50000000 := by
    simp [OnceWithin, timeNow, World.fresh]
  have h2 : (World.fresh 0 0 : World Nat Unit).now -
      OnceSuccessWithin 50000000 (World.fresh 0 0 : World Nat Unit) ≤ 50000000 := by
    simp [OnceSuccessWithin, timeNow, World.fresh]
  rw [OnceWithin_call_drop _ _ _ _ h, OnceSuccessWithin_call_drop _ _ _ _ h2]
  simp [World.fresh, invocations]

/-- C6: a call of the closure returned by `OnceWithin` or `OnceSuccessWithin` that
arrives while `now - last ≤ dur` returns nil and leaves `last` and the whole world
(clock, task state, trace of invocations and sleeps) as they were. -/
theorem C6_call_within_window_is_a_no_op (dur : Int) (f : Task σ ε) (last : Int)
    (w : World σ ε) (h : w.now - last ≤ dur) :
    OnceWithin.call dur f last w = (none, last, w)
    ∧ OnceSuccessWithin.call dur f last w = (none, last, w) :=
  ⟨OnceWithin_call_drop dur f last w h, OnceSuccessWithin_call_drop dur f last w h⟩

/-- Under sequential calls of the `OnceWithin` closure, `last` is the start of the
most recent invocation of the task, as soon as there is one. -/
theorem OnceWithin_callSeq_last (dur : Int) (f : Task σ ε) (gaps : List Nat) :
    ∀ (last : Int) (w : World σ ε),
      ∃ L : List Int,
        starts (callSeq (OnceWithin.call dur f) gaps last w).2.2.trace = starts w.trace ++ L
        ∧ (L = [] → (callSeq (OnceWithin.call dur f) gaps last w).2.1 = last)
        ∧ (∀ s, L.getLast? = some s →
            (callSeq (OnceWithin.call dur f) gaps last w).2.1 = s) := by
  induction gaps with
  | nil => intro last w; exact ⟨[], by simp [callSeq], fun _ => rfl, by simp⟩
  | cons g gs ih =>
    intro last w
    by_cases h : (idle g w).now - last ≤ dur
    · obtain ⟨L, hL, hnil, hlast⟩ := ih last (idle g w)
      refine ⟨L, ?_, ?_, ?_⟩
      · simp only [callSeq, OnceWithin_call_drop dur f last (idle g w) h]
        simpa [idle] using hL
      · simpa only [callSeq, OnceWithin_call_drop dur f last (idle g w) h] using hnil
      · simpa only [callSeq, OnceWithin_call_drop dur f last (idle g w) h] using hlast
    · have h1 : dur < (idle g w).now - last := by omega
      obtain ⟨L, hL, hnil, hlast⟩ := ih (idle g w).now (invoke f (idle g w)).2
      refine ⟨(idle g w).now :: L, ?_, by simp, ?_⟩
      · simp only [callSeq, OnceWithin_call_run dur f last (idle g w) h1]
        rw [hL]
        simp [idle, starts]
      · intro s hs
        simp only [callSeq, OnceWithin_call_run dur f last (idle g w) h1]
        cases L with
        | nil =>
          simp at hs
          rw [← hs]
          exact hnil rfl
        | cons a L =>
          rw [List.getLast?_cons_cons] at hs
          exact hlast s hs

/-- When every run of the task takes longer than `dur`, sequential calls of the
`OnceWithin` closure that begin later than `dur` after `last` all run the task. -/
theorem OnceWithin_callSeq_slow_task (dur : Int) (f : Task σ ε)
    (hslow : ∀ t n, dur < ((f t n).took : Int)) (gaps : List Nat) :
    ∀ (last : Int) (w : World σ ε), dur < w.now - last →
      (invocations (callSeq (OnceWithin.call dur f) gaps last w).2.2.trace).length =
        (invocations w.trace).length + gaps.length := by
  induction gaps with
  | nil => intro last w _; simp [callSeq]
  | cons g gs ih =>
    intro last w h
    have h1 : dur < (idle g w).now - last := by
      show dur < w.now + (g : Int) - last
      omega
    simp only [callSeq, OnceWithin_call_run dur f last (idle g w) h1]
    rw [ih (idle g w).now (invoke f (idle g w)).2
      (by have := hslow (idle g w).now (idle g w).env; simp only [invoke_now]; omega)]
    simp [idle, invocations]
    omega

/-- Away from the construction instant, for the closure returned by
`OnceWithin(dur, f)`, called sequentially: (a) once the task has been invoked, a further call invokes it if and only if it
arrives more than `dur` after the start of the most recent invocation, and is a
no-op otherwise; (b) with a task that takes no time and a first call made after
the clock has advanced past the constructor's reading, calls at `t`, `t + e`,
`t + e` and `t + d + e` with `0 < e ≤ d` invoke the task exactly twice, in the
first and the last call; (c) with a task whose every run takes longer than
`dur`, all four of four sequential calls invoke it. -/
theorem OnceWithin_window_from_invocation_start (f : Task σ ε) (w : World σ ε) :
    (∀ (dur : Int) (gaps : List Nat) (g : Nat) (s : Int),
        ((starts (callSeq (OnceWithin.call dur f) gaps (OnceWithin dur w) w).2.2.trace).drop
          (starts w.trace).length).getLast? = some s →
        ((invocations (OnceWithin.call dur f
              (callSeq (OnceWithin.call dur f) gaps (OnceWithin dur w) w).2.1
              (idle g (callSeq (OnceWithin.call dur f) gaps (OnceWithin dur w) w).2.2)).2.2.trace).length
            = (invocations
                (callSeq (OnceWithin.call dur f) gaps (OnceWithin dur w) w).2.2.trace).length + 1
          ↔ dur < (idle g (callSeq (OnceWithin.call dur f) gaps (OnceWithin dur w) w).2.2).now - s)
        ∧ (¬ dur < (idle g (callSeq (OnceWithin.call dur f) gaps (OnceWithin dur w) w).2.2).now - s →
            OnceWithin.call dur f
              (callSeq (OnceWithin.call dur f) gaps (OnceWithin dur w) w).2.1
              (idle g (callSeq (OnceWithin.call dur f) gaps (OnceWithin dur w) w).2.2)
            = (none, (callSeq (OnceWithin.call dur f) gaps (OnceWithin dur w) w).2.1,
                idle g (callSeq (OnceWithin.call dur f) gaps (OnceWithin dur w) w).2.2)))
    ∧ (∀ (d e g0 : Nat), 0 < g0 → 0 < e → e ≤ d → (∀ t n, (f t n).took = 0) →
        (starts (callSeq (OnceWithin.call (d : Int) f) [g0, e, 0, d]
            (OnceWithin (d : Int) w) w).2.2.trace).drop (starts w.trace).length
          = [w.now + (g0 : Int), w.now + (g0 : Int) + (d : Int) + (e : Int)]
        ∧ (invocations (callSeq (OnceWithin.call (d : Int) f) [g0, e, 0, d]
            (OnceWithin (d : Int) w) w).2.2.trace).length = (invocations w.trace).length + 2)
    ∧ (∀ (dur : Int) (g0 g1 g2 g3 : Nat), 0 < g0 → (∀ t n, dur < ((f t n).took : Int)) →
        (invocations (callSeq (OnceWithin.call dur f) [g0, g1, g2, g3]
            (OnceWithin dur w) w).2.2.trace).length = (invocations w.trace).length + 4) := by
  refine ⟨?_, ?_, ?_⟩
  · intro dur gaps g s hs
    obtain ⟨L, hL, _, hlast⟩ := OnceWithin_callSeq_last dur f gaps (OnceWithin dur w) w
    rw [hL, List.drop_left] at hs
    have hl := hlast s hs
    rw [hl]
    by_cases h : dur < (idle g (callSeq (OnceWithin.call dur f) gaps
        (OnceWithin dur w) w).2.2).now - s
    · refine ⟨?_, fun hn => absurd h hn⟩
      rw [OnceWithin_call_run dur f s _ h]
      have h2 := h
      simp only [idle] at h2
      simp [idle, invocations]
      omega
    · have h1 : (idle g (callSeq (OnceWithin.call dur f) gaps
          (OnceWithin dur w) w).2.2).now - s ≤ dur := by omega
      refine ⟨?_, fun _ => OnceWithin_call_drop dur f s _ h1⟩
      rw [OnceWithin_call_drop dur f s _ h1]
      have h2 := h1
      simp only [idle] at h2
      simp [idle]
      omega
  · intro d e g0 hg he hed hinst
    have c1 : (d : Int) < (idle g0 w).now - OnceWithin (d : Int) w := by
      show (d : Int) < w.now + (g0 : Int) - (w.now + (0 - (d : Int)))
      omega
    have n1 : (invoke f (idle g0 w)).2.now = w.now + (g0 : Int) := by
      simp [idle, hinst]
    have c2 : (idle e (invoke f (idle g0 w)).2).now - (idle g0 w).now ≤ (d : Int) := by
      show (invoke f (idle g0 w)).2.now + (e : Int) - (w.now + (g0 : Int)) ≤ (d : Int)
      omega
    have c3 : (idle 0 (idle e (invoke f (idle g0 w)).2)).now - (idle g0 w).now ≤ (d : Int) := by
      show (invoke f (idle g0 w)).2.now + (e : Int) + ((0 : Nat) : Int) - (w.now + (g0 : Int))
        ≤ (d : Int)
      omega
    have c4 : (d : Int) <
        (idle d (idle 0 (idle e (invoke f (idle g0 w)).2))).now - (idle g0 w).now := by
      show (d : Int) < (invoke f (idle g0 w)).2.now + (e : Int) + ((0 : Nat) : Int) + (d : Int)
        - (w.now + (g0 : Int))
      omega
    simp only [callSeq, OnceWithin_call_run _ f _ _ c1, OnceWithin_call_drop _ f _ _ c2,
      OnceWithin_call_drop _ f _ _ c3, OnceWithin_call_run _ f _ _ c4]
    constructor
    · simp [idle, starts, hinst]
      omega
    · simp [idle, invocations]
  · intro dur g0 g1 g2 g3 hg hslow
    have c1 : dur < (idle g0 w).now - OnceWithin dur w := by
      show dur < w.now + (g0 : Int) - (w.now + (0 - dur))
      omega
    have h := OnceWithin_callSeq_slow_task dur f hslow [g1, g2, g3] (idle g0 w).now
      (invoke f (idle g0 w)).2
      (by have := hslow (idle g0 w).now (idle g0 w).env; simp only [invoke_now]; omega)
    rw [callSeq]
    simp only [OnceWithin_call_run _ f _ _ c1]
    rw [h]
    simp [idle, invocations]

/-- C7 (evaluation at the failing input): `OnceWithin` with `dur` = 50ms, the first
call made while the clock still shows the reading taken by the constructor.
With a task that takes no time and calls at 0, 5ms, 5ms and 55ms every call
returns nil and the task is invoked once only, in the second call at 5ms: the
first call is dropped, and the last one falls into the window opened at 5ms.
With a task that runs for 100ms, four calls in a row invoke it not at all while
the clock stands still, and three times when it advances by 1ns after the
first call. -/
theorem C7_first_call_at_construction_instant_shifts_the_window :
    starts (callSeq (OnceWithin.call 50000000 instantTask) [0, 5000000, 0, 50000000]
        (OnceWithin 50000000 startWorld) startWorld).2.2.trace = [5000000]
    ∧ (callSeq (OnceWithin.call 50000000 instantTask) [0, 5000000, 0, 50000000]
        (OnceWithin 50000000 startWorld) startWorld).1 = [none, none, none, none]
    ∧ (invocations (callSeq (OnceWithin.call 50000000 instantTask) [0, 5000000, 0, 50000000]
        (OnceWithin 50000000 startWorld) startWorld).2.2.trace).length = 1
    ∧ (invocations (callSeq (OnceWithin.call 50000000 (flaky 100000000 0 ())) [0, 0, 0, 0]
        (OnceWithin 50000000 startWorld) startWorld).2.2.trace).length = 0
    ∧ (invocations (callSeq (OnceWithin.call 50000000 (flaky 100000000 0 ())) [0, 1, 0, 0]
        (OnceWithin 50000000 startWorld) startWorld).2.2.trace).length = 3 := by
  decide

/-! ## C8: the success-conditioned rate limiters -/

/-- What one call of the `OnceSuccessAtMost` closure does: it sleeps when it
arrives no later than `dur` after `last`, then runs the task at a clock reading
`s` that is at least `dur` after `last`, and stores `s` in `last` when the task
succeeds. -/
theorem OnceSuccessAtMost_call_spec (dur : Int) (f : Task σ ε) (last : Int) (w : World σ ε) :
    ∃ s : Int, w.now ≤ s ∧ last + dur ≤ s
      ∧ (dur ≤ w.now - last → s = w.now)
      ∧ (OnceSuccessAtMost.call dur f last w).2.2.trace =
          (if w.now - last ≤ dur then w.trace ++ [Event.slept (dur - (w.now - last))]
            else w.trace)
          ++ [Event.ran s (s + ((f s w.env).took : Int)) (f s w.env).err]
      ∧ (OnceSuccessAtMost.call dur f last w).1 = (f s w.env).err
      ∧ (OnceSuccessAtMost.call dur f last w).2.1 = (if (f s w.env).err.isNone then s else last)
      ∧ (OnceSuccessAtMost.call dur f last w).2.2.now = s + ((f s w.env).took : Int) := by
  by_cases h : w.now - last ≤ dur
  · have hs := timeSleep_now_ge (dur - (w.now - last)) w
    have htr : (timeSleep (dur - (w.now - last)) w).trace =
        w.trace ++ [Event.slept (dur - (w.now - last))] := by
      unfold timeSleep; split <;> rfl
    refine ⟨(timeSleep (dur - (w.now - last)) w).now, hs.1, by have := hs.2; omega, ?_, ?_⟩
    · intro h2
      exact timeSleep_now_of_nonpos _ w (by omega)
    · simp only [OnceSuccessAtMost.call, timeSince, timeNow, h, if_true]
      split <;> simp_all
  · refine ⟨w.now, le_refl _, by omega, fun _ => rfl, ?_⟩
    simp only [OnceSuccessAtMost.call, timeSince, timeNow, h, if_false]
    split <;> simp_all

/-- A caller whose every call either leaves `last` and the successful starts alone,
or records one successful start and stores it in `last`, keeps `last` equal to the
most recent successful start. -/
theorem callSeq_last_success (call : Int → World σ ε → Option ε × Int × World σ ε)
    (hcall : ∀ last w,
      (successStarts (call last w).2.2.trace = successStarts w.trace
        ∧ (call last w).2.1 = last)
      ∨ successStarts (call last w).2.2.trace = successStarts w.trace ++ [(call last w).2.1])
    (gaps : List Nat) :
    ∀ (last : Int) (w : World σ ε),
      ∃ L : List Int,
        successStarts (callSeq call gaps last w).2.2.trace = successStarts w.trace ++ L
        ∧ (L = [] → (callSeq call gaps last w).2.1 = last)
        ∧ (∀ s, L.getLast? = some s → (callSeq call gaps last w).2.1 = s) := by
  induction gaps with
  | nil => intro last w; exact ⟨[], by simp [callSeq], fun _ => rfl, by simp⟩
  | cons g gs ih =>
    intro last w
    obtain ⟨L, hL, hnil, hlast⟩ := ih (call last (idle g w)).2.1 (call last (idle g w)).2.2
    rcases hcall last (idle g w) with ⟨h1, h2⟩ | h1
    · refine ⟨L, ?_, ?_, ?_⟩
      · simp only [callSeq]
        rw [hL, h1]
        simp [idle]
      · intro hn
        simp only [callSeq]
        rw [hnil hn, h2]
      · intro s hs
        simp only [callSeq]
        exact hlast s hs
    · refine ⟨(call last (idle g w)).2.1 :: L, ?_, by simp, ?_⟩
      · simp only [callSeq]
        rw [hL, h1]
        simp [idle]
      · intro s hs
        simp only [callSeq]
        cases L with
        | nil =>
          simp at hs
          rw [← hs]
          exact hnil rfl
        | cons a L =>
          rw [List.getLast?_cons_cons] at hs
          exact hlast s hs

/-- The `OnceSuccessAtMost` closure satisfies the premise of `callSeq_last_success`. -/
theorem OnceSuccessAtMost_call_last (dur : Int) (f : Task σ ε) (last : Int) (w : World σ ε) :
    (successStarts (OnceSuccessAtMost.call dur f last w).2.2.trace = successStarts w.trace
      ∧ (OnceSuccessAtMost.call dur f last w).2.1 = last)
    ∨ successStarts (OnceSuccessAtMost.call dur f last w).2.2.trace =
        successStarts w.trace ++ [(OnceSuccessAtMost.call dur f last w).2.1] := by
  obtain ⟨s, _, _, _, htr, _, hl, _⟩ := OnceSuccessAtMost_call_spec dur f last w
  rw [htr, hl]
  cases he : (f s w.env).err with
  | none => right; split <;> simp [successStarts]
  | some e => left; split <;> simp [successStarts]

/-- The `OnceSuccessWithin` closure satisfies the premise of `callSeq_last_success`. -/
theorem OnceSuccessWithin_call_last (dur : Int) (f : Task σ ε) (last : Int) (w : World σ ε) :
    (successStarts (OnceSuccessWithin.call dur f last w).2.2.trace = successStarts w.trace
      ∧ (OnceSuccessWithin.call dur f last w).2.1 = last)
    ∨ successStarts (OnceSuccessWithin.call dur f last w).2.2.trace =
        successStarts w.trace ++ [(OnceSuccessWithin.call dur f last w).2.1] := by
  by_cases h : w.now - last ≤ dur
  · left
    rw [OnceSuccessWithin_call_drop dur f last w h]
    exact ⟨rfl, rfl⟩
  · rw [OnceSuccessWithin_call_run dur f last w (by omega)]
    cases he : (f w.now w.env).err with
    | none => right; simp [successStarts, he]
    | some e => left; simp [successStarts, he]

/-- C8: for the closures returned by `OnceSuccessAtMost` and `OnceSuccessWithin`:
(1) a run of the task that fails leaves `last` as it was, and a run that
succeeds sets `last` to the clock reading at which that run was started;
(2) the call that follows a failed run starts the task at the very moment it
arrives: it is neither delayed nor dropped; (3) in any sequence of calls, a call
that arrives no later than `dur` after the start `s` of the most recent
successful run is delayed until `s + dur` by sleeping for the remainder
(`OnceSuccessAtMost`), or is a no-op (`OnceSuccessWithin`). -/
theorem C8_success_conditioned_last (dur : Int) (f : Task σ ε) :
    (∀ (last : Int) (w : World σ ε),
        ((OnceSuccessAtMost.call dur f last w).1 ≠ none →
          (OnceSuccessAtMost.call dur f last w).2.1 = last)
        ∧ ((OnceSuccessAtMost.call dur f last w).1 = none →
          starts (OnceSuccessAtMost.call dur f last w).2.2.trace =
            starts w.trace ++ [(OnceSuccessAtMost.call dur f last w).2.1]))
    ∧ (∀ (last : Int) (w : World σ ε), dur < w.now - last →
        ((OnceSuccessWithin.call dur f last w).1 ≠ none →
          (OnceSuccessWithin.call dur f last w).2.1 = last)
        ∧ ((OnceSuccessWithin.call dur f last w).1 = none →
          (OnceSuccessWithin.call dur f last w).2.1 = w.now
          ∧ starts (OnceSuccessWithin.call dur f last w).2.2.trace = starts w.trace ++ [w.now]))
    ∧ (∀ (last : Int) (w : World σ ε) (g : Nat),
        (OnceSuccessAtMost.call dur f last w).1 ≠ none →
        starts (thenCall (OnceSuccessAtMost.call dur f) g
            (OnceSuccessAtMost.call dur f last w)).2.2.trace =
          starts (OnceSuccessAtMost.call dur f last w).2.2.trace ++
            [(OnceSuccessAtMost.call dur f last w).2.2.now + (g : Int)])
    ∧ (∀ (last : Int) (w : World σ ε) (g : Nat),
        (OnceSuccessWithin.call dur f last w).1 ≠ none →
        starts (thenCall (OnceSuccessWithin.call dur f) g
            (OnceSuccessWithin.call dur f last w)).2.2.trace =
          starts (OnceSuccessWithin.call dur f last w).2.2.trace ++
            [(OnceSuccessWithin.call dur f last w).2.2.now + (g : Int)])
    ∧ (∀ (w : World σ ε) (gaps : List Nat) (g : Nat) (s : Int),
        ((successStarts (callSeq (OnceSuccessAtMost.call dur f) gaps
            (OnceSuccessAtMost dur w) w).2.2.trace).drop
          (successStarts w.trace).length).getLast? = some s →
        (callSeq (OnceSuccessAtMost.call dur f) gaps (OnceSuccessAtMost dur w) w).2.2.now
          + (g : Int) - s ≤ dur →
        sleeps (thenCall (OnceSuccessAtMost.call dur f) g
            (callSeq (OnceSuccessAtMost.call dur f) gaps
              (OnceSuccessAtMost dur w) w)).2.2.trace =
          sleeps (callSeq (OnceSuccessAtMost.call dur f) gaps
              (OnceSuccessAtMost dur w) w).2.2.trace ++
            [dur - ((callSeq (OnceSuccessAtMost.call dur f) gaps
              (OnceSuccessAtMost dur w) w).2.2.now + (g : Int) - s)]
        ∧ ∃ s2 : Int, s + dur ≤ s2
          ∧ starts (thenCall (OnceSuccessAtMost.call dur f) g
              (callSeq (OnceSuccessAtMost.call dur f) gaps
                (OnceSuccessAtMost dur w) w)).2.2.trace =
            starts (callSeq (OnceSuccessAtMost.call dur f) gaps
                (OnceSuccessAtMost dur w) w).2.2.trace ++ [s2])
    ∧ (∀ (w : World σ ε) (gaps : List Nat) (g : Nat) (s : Int),
        ((successStarts (callSeq (OnceSuccessWithin.call dur f) gaps
            (OnceSuccessWithin dur w) w).2.2.trace).drop
          (successStarts w.trace).length).getLast? = some s →
        (callSeq (OnceSuccessWithin.call dur f) gaps (OnceSuccessWithin dur w) w).2.2.now
          + (g : Int) - s ≤ dur →
        thenCall (OnceSuccessWithin.call dur f) g
            (callSeq (OnceSuccessWithin.call dur f) gaps (OnceSuccessWithin dur w) w) =
          (none, s,
            idle g (callSeq (OnceSuccessWithin.call dur f) gaps
              (OnceSuccessWithin dur w) w).2.2)) := by
  refine ⟨?_, ?_, ?_, ?_, ?_, ?_⟩
  · intro last w
    obtain ⟨s, _, _, _, htr, he, hl, _⟩ := OnceSuccessAtMost_call_spec dur f last w
    rw [htr, hl, he]
    constructor
    · intro h
      cases hx : (f s w.env).err with
      | none => exact absurd hx h
      | some e => simp
    · intro h
      rw [h]
      split <;> simp [starts]
  · intro last w h
    rw [OnceSuccessWithin_call_run dur f last w h]
    constructor
    · intro hne
      cases hx : (f w.now w.env).err with
      | none => exact absurd hx hne
      | some e => simp
    · intro hn
      simp only [] at hn
      simp [hn, starts]
  · intro last w g hne
    obtain ⟨s, _, hs, _, _, he, hl, hnow⟩ := OnceSuccessAtMost_call_spec dur f last w
    have hlast : (OnceSuccessAtMost.call dur f last w).2.1 = last := by
      rw [hl]
      cases hx : (f s w.env).err with
      | none => rw [he] at hne; exact absurd hx hne
      | some e => simp
    obtain ⟨s2, _, _, hs2, htr2, _, _, _⟩ := OnceSuccessAtMost_call_spec dur f
      (OnceSuccessAtMost.call dur f last w).2.1 (idle g (OnceSuccessAtMost.call dur f last w).2.2)
    have hidle : (idle g (OnceSuccessAtMost.call dur f last w).2.2).now =
        (OnceSuccessAtMost.call dur f last w).2.2.now + (g : Int) := rfl
    have hs2v : s2 = (OnceSuccessAtMost.call dur f last w).2.2.now + (g : Int) := by
      rw [← hidle]
      apply hs2
      rw [hidle, hlast, hnow]
      omega
    simp only [thenCall]
    rw [htr2, ← hs2v]
    split <;> simp [starts, idle]
  · intro last w g hne
    have hrun : dur < w.now - last := by
      by_contra hc
      rw [OnceSuccessWithin_call_drop dur f last w (by omega)] at hne
      exact hne rfl
    have hne2 := hne
    rw [OnceSuccessWithin_call_run dur f last w hrun] at hne2
    simp only [ne_eq] at hne2
    have hsome : (f w.now w.env).err.isNone = false := by
      cases hx : (f w.now w.env).err with
      | none => exact absurd hx hne2
      | some e => rfl
    simp only [thenCall]
    rw [OnceSuccessWithin_call_run dur f last w hrun]
    simp only [hsome, Bool.false_eq_true, if_false]
    rw [OnceSuccessWithin_call_run dur f last _
      (by show dur < (invoke f w).2.now + (g : Int) - last
          simp only [invoke_now]; omega)]
    simp [idle, starts]
  · intro w gaps g s hs hwin
    obtain ⟨L, hL, _, hlast⟩ := callSeq_last_success (OnceSuccessAtMost.call dur f)
      (OnceSuccessAtMost_call_last dur f) gaps (OnceSuccessAtMost dur w) w
    rw [hL, List.drop_left] at hs
    have hl := hlast s hs
    obtain ⟨s2, _, hs2, _, htr2, _, _, _⟩ := OnceSuccessAtMost_call_spec dur f
      (callSeq (OnceSuccessAtMost.call dur f) gaps (OnceSuccessAtMost dur w) w).2.1
      (idle g (callSeq (OnceSuccessAtMost.call dur f) gaps (OnceSuccessAtMost dur w) w).2.2)
    rw [hl] at hs2 htr2
    have hidle : (idle g (callSeq (OnceSuccessAtMost.call dur f) gaps
        (OnceSuccessAtMost dur w) w).2.2).now =
        (callSeq (OnceSuccessAtMost.call dur f) gaps (OnceSuccessAtMost dur w) w).2.2.now
          + (g : Int) := rfl
    rw [hidle] at htr2
    simp only [thenCall]
    rw [hl, htr2]
    simp only [hwin, if_true]
    refine ⟨by simp [sleeps, idle], s2, hs2, by simp [starts, idle]⟩
  · intro w gaps g s hs hwin
    obtain ⟨L, hL, _, hlast⟩ := callSeq_last_success (OnceSuccessWithin.call dur f)
      (OnceSuccessWithin_call_last dur f) gaps (OnceSuccessWithin dur w) w
    rw [hL, List.drop_left] at hs
    have hl := hlast s hs
    simp only [thenCall]
    rw [hl]
    exact OnceSuccessWithin_call_drop dur f s _ hwin

/-! ## C9: the example in the doc comment of `OnceSuccessAtMost` -/

/-- C9 (counterexample): in the doc comment's example the three runs of the task
do not complete at 0.1s, 0.2s and 1.2s. -/
theorem C9_docExample_not_at_1200ms :
    finishes docExample.2.2.trace ≠ [100000000, 200000000, 1200000000] := by
  decide

/-- A call of the `OnceSuccessAtMost` closure that arrives at least `dur` after
`last` runs the task at once. -/
theorem OnceSuccessAtMost_call_nodelay (dur : Int) (f : Task σ ε) (last : Int)
    (w : World σ ε) (h : dur ≤ w.now - last) :
    (OnceSuccessAtMost.call dur f last w).1 = (f w.now w.env).err
    ∧ (OnceSuccessAtMost.call dur f last w).2.1 =
        (if (f w.now w.env).err.isNone then w.now else last)
    ∧ (OnceSuccessAtMost.call dur f last w).2.2.now = w.now + ((f w.now w.env).took : Int)
    ∧ (OnceSuccessAtMost.call dur f last w).2.2.env = (f w.now w.env).env
    ∧ finishes (OnceSuccessAtMost.call dur f last w).2.2.trace =
        finishes w.trace ++ [w.now + ((f w.now w.env).took : Int)] := by
  by_cases hd : timeSince last w ≤ dur
  · have hnow : (timeSleep (dur - timeSince last w) w).now = w.now :=
      timeSleep_now_of_nonpos _ w (by simp only [timeSince, timeNow]; omega)
    simp only [OnceSuccessAtMost.call, hd, if_true, timeNow, invoke_fst, hnow, timeSleep_env]
    split <;> simp [finishes, hnow]
  · simp only [OnceSuccessAtMost.call, hd, if_false, timeNow, invoke_fst]
    split <;> simp [finishes]

/-- Three calls in a row of the `OnceSuccessAtMost` closure, the first arriving at
least `dur` after `last`, with a task that fails twice and then succeeds: no call
is delayed. -/
theorem OnceSuccessAtMost_fail_fail_ok (dur : Int) (took : Nat) (e : ε) (last : Int)
    (w : World Nat ε) (hw : w.env = 0) (h : dur ≤ w.now - last) :
    finishes (callSeq (OnceSuccessAtMost.call dur (flaky took 2 e)) [0, 0, 0] last w).2.2.trace
      = finishes w.trace ++
          [w.now + (took : Int), w.now + (took : Int) + (took : Int),
            w.now + (took : Int) + (took : Int) + (took : Int)]
    ∧ (callSeq (OnceSuccessAtMost.call dur (flaky took 2 e)) [0, 0, 0] last w).1
      = [some e, some e, none] := by
  simp only [callSeq]
  have A := OnceSuccessAtMost_call_nodelay dur (flaky took 2 e) last (idle 0 w)
    (by show dur ≤ w.now + ((0 : Nat) : Int) - last; omega)
  generalize OnceSuccessAtMost.call dur (flaky took 2 e) last (idle 0 w) = r1 at A ⊢
  obtain ⟨a1, a2, a3, a4, a5⟩ := A
  simp [idle, flaky, hw] at a1 a2 a3 a4 a5
  have B := OnceSuccessAtMost_call_nodelay dur (flaky took 2 e) r1.2.1 (idle 0 r1.2.2)
    (by show dur ≤ r1.2.2.now + ((0 : Nat) : Int) - r1.2.1; omega)
  generalize OnceSuccessAtMost.call dur (flaky took 2 e) r1.2.1 (idle 0 r1.2.2) = r2 at B ⊢
  obtain ⟨b1, b2, b3, b4, b5⟩ := B
  simp [idle, flaky, a4] at b1 b2 b3 b4 b5
  have C := OnceSuccessAtMost_call_nodelay dur (flaky took 2 e) r2.2.1 (idle 0 r2.2.2)
    (by show dur ≤ r2.2.2.now + ((0 : Nat) : Int) - r2.2.1; omega)
  generalize OnceSuccessAtMost.call dur (flaky took 2 e) r2.2.1 (idle 0 r2.2.2) = r3 at C ⊢
  obtain ⟨c1, _, _, _, c5⟩ := C
  simp [idle, flaky, b4] at c1 c5
  refine ⟨?_, ?_⟩
  · rw [c5, b5, a5, b3, a3]
    simp
  · rw [a1, b1, c1]

/-- C9 (amended): with a limit of one second and a task whose every run takes
0.1s and whose first two runs fail while the third succeeds, three calls made
right after construction run the task so that it completes 0.1s, 0.2s and 0.3s
after construction: the call after a failed run is not delayed. -/
theorem C9_three_runs_complete_100ms_apart (e : ε) (c : Int) (over : Nat → Nat) (k : Nat)
    (tr : List (Event ε)) :
    finishes (callSeq (OnceSuccessAtMost.call 1000000000 (flaky 100000000 2 e)) [0, 0, 0]
        (OnceSuccessAtMost 1000000000
          ({ now := c, env := 0, oversleep := over, naps := k, trace := tr } : World Nat ε))
        { now := c, env := 0, oversleep := over, naps := k, trace := tr }).2.2.trace
      = finishes tr ++ [c + 100000000, c + 200000000, c + 300000000]
    ∧ (callSeq (OnceSuccessAtMost.call 1000000000 (flaky 100000000 2 e)) [0, 0, 0]
        (OnceSuccessAtMost 1000000000
          ({ now := c, env := 0, oversleep := over, naps := k, trace := tr } : World Nat ε))
        { now := c, env := 0, oversleep := over, naps := k, trace := tr }).1
      = [some e, some e, none] := by
  have h := OnceSuccessAtMost_fail_fail_ok 1000000000 100000000 e
    (OnceSuccessAtMost 1000000000
      ({ now := c, env := 0, oversleep := over, naps := k, trace := tr } : World Nat ε))
    { now := c, env := 0, oversleep := over, naps := k, trace := tr } rfl
    (by show (1000000000 : Int) ≤ c - (c + (0 - 1000000000)); omega)
  refine ⟨?_, h.2⟩
  rw [h.1]
  simp only [Nat.cast_ofNat]
  congr 1
  simp only [List.cons.injEq, and_true]
  refine ⟨trivial, ?_, ?_⟩ <;> omega

/-! ## C10: the supervised loop reports exactly one terminal cause -/

/-- What has happened on `errchan` at each point of `doInfiniteLooping`. -/
theorem doInfiniteLooping_errchan (ctx : Ctx ε) (task : Task σ ε) (receiver : Nat → Bool)
    (w : World σ ε) (n : Nat) :
    ((doInfiniteLooping ctx task receiver n (InfiniteLoop w)).pc = Pc.looping →
      (doInfiniteLooping ctx task receiver n (InfiniteLoop w)).errchan = [])
    ∧ ((doInfiniteLooping ctx task receiver n (InfiniteLoop w)).pc = Pc.sending →
      (doInfiniteLooping ctx task receiver n (InfiniteLoop w)).errchan = []
      ∧ ∃ e, (doInfiniteLooping ctx task receiver n (InfiniteLoop w)).err = some e)
    ∧ ((doInfiniteLooping ctx task receiver n (InfiniteLoop w)).pc = Pc.closing →
      ∃ e, (doInfiniteLooping ctx task receiver n (InfiniteLoop w)).errchan =
        [ChanOp.send (some e)])
    ∧ ((doInfiniteLooping ctx task receiver n (InfiniteLoop w)).pc = Pc.returned →
      ∃ e, (doInfiniteLooping ctx task receiver n (InfiniteLoop w)).errchan =
        [ChanOp.send (some e), ChanOp.close]) := by
  induction n with
  | zero => simp [doInfiniteLooping, InfiniteLoop]
  | succ n ih =>
    simp only [doInfiniteLooping]
    generalize doInfiniteLooping ctx task receiver n (InfiniteLoop w) = s at ih ⊢
    obtain ⟨h1, h2, h3, h4⟩ := ih
    unfold doInfiniteLooping.step
    cases hpc : s.pc with
    | looping =>
      have hc := h1 hpc
      simp only []
      by_cases he : s.err.isNone = true
      · simp only [he, if_true]
        by_cases hd : ctx.done s.checks s.world.now = true
        · simp [hd, hpc, hc]
        · simp [hd, hpc, hc]
      · simp only [he, if_false]
        have : ∃ e, s.err = some e := by
          cases hx : s.err with
          | none => simp [hx] at he
          | some e => exact ⟨e, rfl⟩
        simp [hc, this]
    | sending =>
      obtain ⟨hc, e, hs⟩ := h2 hpc
      simp only []
      by_cases hr : receiver n = true
      · simp [hr, hc, hs]
      · simp [hr, hpc, hc, hs]
    | closing =>
      obtain ⟨e, hc⟩ := h3 hpc
      simp [hc]
    | returned =>
      simpa [hpc] using h4 hpc

/-- C10: at every point of the run of the loop started by `InfiniteLoop(task)`: while
the goroutine is still in the `for` loop (or waits at the send) nothing has been sent
on `Err`; once it has returned, exactly one value has been sent on `Err`, that value
is non-nil, and the close of the channel follows that send directly.  The loop does
return two steps after a receiver is ready at the send. -/
theorem C10_loop_sends_one_nonnil_value_then_closes (ctx : Ctx ε) (task : Task σ ε)
    (receiver : Nat → Bool) (w : World σ ε) (n : Nat) :
    ((doInfiniteLooping ctx task receiver n (InfiniteLoop w)).pc = Pc.returned →
      ∃ e, (doInfiniteLooping ctx task receiver n (InfiniteLoop w)).errchan =
        [ChanOp.send (some e), ChanOp.close])
    ∧ ((doInfiniteLooping ctx task receiver n (InfiniteLoop w)).pc = Pc.looping →
      (doInfiniteLooping ctx task receiver n (InfiniteLoop w)).errchan = [])
    ∧ ((doInfiniteLooping ctx task receiver n (InfiniteLoop w)).pc = Pc.sending →
      (doInfiniteLooping ctx task receiver n (InfiniteLoop w)).errchan = [])
    ∧ ((doInfiniteLooping ctx task receiver n (InfiniteLoop w)).pc = Pc.sending →
      receiver n = true →
      (doInfiniteLooping ctx task receiver (n + 2) (InfiniteLoop w)).pc = Pc.returned) := by
  obtain ⟨h1, h2, _, h4⟩ := doInfiniteLooping_errchan ctx task receiver w n
  refine ⟨h4, h1, fun h => (h2 h).1, ?_⟩
  intro hpc hr
  simp only [doInfiniteLooping]
  generalize doInfiniteLooping ctx task receiver n (InfiniteLoop w) = s at hpc ⊢
  simp [doInfiniteLooping.step, hpc, hr]

/-! ## C11, C12: the terminal cause of the supervised loop -/

/-- After `j` invocations the trace holds `j` more invocations. -/
theorem invokeN_invocations (task : Task σ ε) (w : World σ ε) (j : Nat) :
    (invocations (invokeN task j w).trace).length = (invocations w.trace).length + j := by
  induction j with
  | zero => rfl
  | succ j ih =>
    simp only [invokeN, invoke_trace, invocations_append, List.length_append, ih]
    simp [invocations]
    omega

/-- While no check observes a cancellation and the task returns nil, the loop keeps
looping: after `j` steps it has made `j` checks and `j` invocations. -/
theorem doInfiniteLooping_prefix (ctx : Ctx ε) (task : Task σ ε) (receiver : Nat → Bool)
    (w : World σ ε) (j : Nat)
    (hnot : ∀ i, i < j → ctx.done i (invokeN task i w).now = false)
    (hnil : ∀ i, i < j → errAt task i w = none) :
    doInfiniteLooping ctx task receiver j (InfiniteLoop w) =
      { pc := Pc.looping, err := none, checks := j, world := invokeN task j w, errchan := [] } := by
  induction j with
  | zero => rfl
  | succ j ih =>
    have h1 := ih (fun i hi => hnot i (by omega)) (fun i hi => hnil i (by omega))
    have h2 := hnot j (by omega)
    have h3 := hnil j (by omega)
    simp only [errAt] at h3
    simp only [doInfiniteLooping, h1, doInfiniteLooping.step, Option.isNone_none, if_true, h2,
      Bool.false_eq_true, if_false, h3, invokeN]

/-- Once the local variable `err` holds a non-nil error, a step of the loop changes
neither `err` nor the world nor the number of checks; it only moves on towards
the send and the close. -/
theorem doInfiniteLooping_step_settled (ctx : Ctx ε) (task : Task σ ε) (r : Bool)
    (s : Loop σ ε) (e : ε) (he : s.err = some e) :
    (doInfiniteLooping.step ctx task r s).err = some e
    ∧ (doInfiniteLooping.step ctx task r s).world = s.world
    ∧ (doInfiniteLooping.step ctx task r s).checks = s.checks
    ∧ (doInfiniteLooping.step ctx task r s).pc ≠ Pc.looping
    ∧ (s.pc = Pc.looping → (doInfiniteLooping.step ctx task r s).pc = Pc.sending
        ∧ (doInfiniteLooping.step ctx task r s).errchan = s.errchan)
    ∧ (s.pc = Pc.sending → r = false → (doInfiniteLooping.step ctx task r s).pc = Pc.sending
        ∧ (doInfiniteLooping.step ctx task r s).errchan = s.errchan)
    ∧ (s.pc = Pc.sending → r = true → (doInfiniteLooping.step ctx task r s).pc = Pc.closing
        ∧ (doInfiniteLooping.step ctx task r s).errchan = s.errchan ++ [ChanOp.send (some e)])
    ∧ (s.pc = Pc.closing → (doInfiniteLooping.step ctx task r s).pc = Pc.returned
        ∧ (doInfiniteLooping.step ctx task r s).errchan = s.errchan ++ [ChanOp.close])
    ∧ (s.pc = Pc.returned → doInfiniteLooping.step ctx task r s = s) := by
  unfold doInfiniteLooping.step
  cases hpc : s.pc <;> cases r <;> simp [he, hpc]

/-- From a state reached with a non-nil `err` still inside the loop, every later
state has the same `err`, world and number of checks, and its channel holds
what the program counter says. -/
theorem doInfiniteLooping_settled (ctx : Ctx ε) (task : Task σ ε) (receiver : Nat → Bool)
    (s0 : Loop σ ε) (m : Nat) (e : ε)
    (hpc : (doInfiniteLooping ctx task receiver m s0).pc = Pc.looping)
    (he : (doInfiniteLooping ctx task receiver m s0).err = some e)
    (hch : (doInfiniteLooping ctx task receiver m s0).errchan = []) :
    ∀ n, m ≤ n →
      (doInfiniteLooping ctx task receiver n s0).err = some e
      ∧ (doInfiniteLooping ctx task receiver n s0).world =
          (doInfiniteLooping ctx task receiver m s0).world
      ∧ (doInfiniteLooping ctx task receiver n s0).checks =
          (doInfiniteLooping ctx task receiver m s0).checks
      ∧ (m < n → (doInfiniteLooping ctx task receiver n s0).pc ≠ Pc.looping)
      ∧ ((doInfiniteLooping ctx task receiver n s0).pc = Pc.looping →
          (doInfiniteLooping ctx task receiver n s0).errchan = [])
      ∧ ((doInfiniteLooping ctx task receiver n s0).pc = Pc.sending →
          (doInfiniteLooping ctx task receiver n s0).errchan = [])
      ∧ ((doInfiniteLooping ctx task receiver n s0).pc = Pc.closing →
          (doInfiniteLooping ctx task receiver n s0).errchan = [ChanOp.send (some e)])
      ∧ ((doInfiniteLooping ctx task receiver n s0).pc = Pc.returned →
          (doInfiniteLooping ctx task receiver n s0).errchan =
            [ChanOp.send (some e), ChanOp.close]) := by
  intro n hn
  induction n with
  | zero =>
    have : m = 0 := by omega
    subst this
    refine ⟨he, rfl, rfl, fun h => absurd h (by omega), fun _ => hch, ?_, ?_, ?_⟩ <;>
      intro h <;> rw [hpc] at h <;> cases h
  | succ n ih =>
    by_cases hmn : m = n + 1
    · subst hmn
      refine ⟨he, rfl, rfl, fun h => absurd h (by omega), fun _ => hch, ?_, ?_, ?_⟩ <;>
        intro h <;> rw [hpc] at h <;> cases h
    · obtain ⟨i1, i2, i3, _, i5, i6, i7, i8⟩ := ih (by omega)
      simp only [doInfiniteLooping]
      generalize doInfiniteLooping ctx task receiver n s0 = s at i1 i2 i3 i5 i6 i7 i8 ⊢
      generalize receiver n = r
      obtain ⟨a1, a2, a3, a4, a5, a6, a7, a8, a9⟩ :=
        doInfiniteLooping_step_settled ctx task r s e i1
      refine ⟨a1, by rw [a2, i2], by rw [a3, i3], fun _ => a4, fun h => absurd h a4, ?_, ?_, ?_⟩
      · intro h
        cases hs : s.pc with
        | looping => rw [(a5 hs).2]; exact i5 hs
        | sending =>
          cases r with
          | false => rw [(a6 hs rfl).2]; exact i6 hs
          | true => rw [(a7 hs rfl).1] at h; cases h
        | closing => rw [(a8 hs).1] at h; cases h
        | returned => rw [a9 hs] at h; rw [hs] at h; cases h
      · intro h
        cases hs : s.pc with
        | looping => rw [(a5 hs).1] at h; cases h
        | sending =>
          cases r with
          | false => rw [(a6 hs rfl).1] at h; cases h
          | true => rw [(a7 hs rfl).2, i6 hs]; rfl
        | closing => rw [(a8 hs).1] at h; cases h
        | returned => rw [a9 hs] at h; rw [hs] at h; cases h
      · intro h
        cases hs : s.pc with
        | looping => rw [(a5 hs).1] at h; cases h
        | sending =>
          cases r with
          | false => rw [(a6 hs rfl).1] at h; cases h
          | true => rw [(a7 hs rfl).1] at h; cases h
        | closing => rw [(a8 hs).2, i7 hs]; rfl
        | returned => rw [a9 hs]; exact i8 hs

/-- Once `err` is non-nil, the loop has returned two steps after any step at which
a receiver is ready on the channel, and stays so. -/
theorem doInfiniteLooping_returns (ctx : Ctx ε) (task : Task σ ε) (receiver : Nat → Bool)
    (s0 : Loop σ ε) (m : Nat) (e : ε)
    (hpc : (doInfiniteLooping ctx task receiver m s0).pc = Pc.looping)
    (he : (doInfiniteLooping ctx task receiver m s0).err = some e)
    (hch : (doInfiniteLooping ctx task receiver m s0).errchan = [])
    (r : Nat) (hr : m + 1 ≤ r) (hready : receiver r = true) :
    ∀ n, r + 2 ≤ n → (doInfiniteLooping ctx task receiver n s0).pc = Pc.returned := by
  have hset := doInfiniteLooping_settled ctx task receiver s0 m e hpc he hch
  have h2 : (doInfiniteLooping ctx task receiver (r + 2) s0).pc = Pc.returned := by
    obtain ⟨i1, _, _, i4, _⟩ := hset r (by omega)
    have i4 := i4 (by omega)
    simp only [doInfiniteLooping, hready]
    generalize doInfiniteLooping ctx task receiver r s0 = s at i1 i4 ⊢
    generalize receiver (r + 1) = r1
    cases hs : s.pc <;> cases r1 <;> simp_all [doInfiniteLooping.step]
  intro n hn
  induction n with
  | zero => omega
  | succ n ih =>
    by_cases hnr : n + 1 = r + 2
    · rw [hnr]; exact h2
    · have := ih (by omega)
      simp only [doInfiniteLooping]
      generalize doInfiniteLooping ctx task receiver n s0 = s at this ⊢
      simp [doInfiniteLooping.step, this]

/-- C11: if the `k`-th invocation of the task is the first to return a non-nil error
`e`, and none of the `k` checks made before these invocations observes a
cancellation, then from step `k` on the task has been invoked exactly `k` times
and `err` is `e`; whenever the loop has returned, `Err` carries exactly `e` and the
close; and the loop does return once a receiver is ready.  Nothing is assumed
about what the context shows at later checks or clock readings, so a `Cancel`
during or after the `k`-th invocation changes nothing. -/
theorem C11_first_task_error_is_the_terminal_cause (ctx : Ctx ε) (task : Task σ ε)
    (receiver : Nat → Bool) (w : World σ ε) (k : Nat) (e : ε) (hk : 1 ≤ k)
    (hnil : ∀ i, i + 1 < k → errAt task i w = none)
    (herr : errAt task (k - 1) w = some e)
    (hnot : ∀ i, i < k → ctx.done i (invokeN task i w).now = false) :
    (∀ n, k ≤ n →
      (invocations (doInfiniteLooping ctx task receiver n (InfiniteLoop w)).world.trace).length
        = (invocations w.trace).length + k
      ∧ (doInfiniteLooping ctx task receiver n (InfiniteLoop w)).checks = k
      ∧ (doInfiniteLooping ctx task receiver n (InfiniteLoop w)).err = some e)
    ∧ (∀ n, (doInfiniteLooping ctx task receiver n (InfiniteLoop w)).pc = Pc.returned →
      (doInfiniteLooping ctx task receiver n (InfiniteLoop w)).errchan =
        [ChanOp.send (some e), ChanOp.close])
    ∧ (∀ r, k + 1 ≤ r → receiver r = true → ∀ n, r + 2 ≤ n →
      (doInfiniteLooping ctx task receiver n (InfiniteLoop w)).pc = Pc.returned) := by
  obtain ⟨m, rfl⟩ : ∃ m, k = m + 1 := ⟨k - 1, by omega⟩
  have hpre := doInfiniteLooping_prefix ctx task receiver w m
    (fun i hi => hnot i (by omega)) (fun i hi => hnil i (by omega))
  have hd := hnot m (by omega)
  have he : errAt task m w = some e := by simpa using herr
  simp only [errAt] at he
  have hk1 : doInfiniteLooping ctx task receiver (m + 1) (InfiniteLoop w) =
      { pc := Pc.looping, err := some e, checks := m + 1, world := invokeN task (m + 1) w,
        errchan := [] } := by
    simp only [doInfiniteLooping, hpre, doInfiniteLooping.step, Option.isNone_none, if_true, hd,
      Bool.false_eq_true, if_false, he, invokeN]
  have hset := doInfiniteLooping_settled ctx task receiver (InfiniteLoop w) (m + 1) e
    (by rw [hk1]) (by rw [hk1]) (by rw [hk1])
  refine ⟨?_, ?_, ?_⟩
  · intro n hn
    obtain ⟨i1, i2, i3, _⟩ := hset n hn
    rw [i2, i3, hk1]
    exact ⟨invokeN_invocations task w (m + 1), rfl, i1⟩
  · intro n hret
    by_cases hn : m + 1 ≤ n
    · exact (hset n hn).2.2.2.2.2.2.2 hret
    · have hpre2 := doInfiniteLooping_prefix ctx task receiver w n
        (fun i hi => hnot i (by omega)) (fun i hi => hnil i (by omega))
      rw [hpre2] at hret
      cases hret
  · intro r hr hready
    exact doInfiniteLooping_returns ctx task receiver (InfiniteLoop w) (m + 1) e
      (by rw [hk1]) (by rw [hk1]) (by rw [hk1]) r (by omega) hready

/-- C12: for a loop whose `Cancel` is called at clock reading `T`, with a task that
returns nil in each of the `m` invocations started before `T`: the invocation in
progress at `T` is completed (the loop's world is the one after all `m`
invocations, the last of which ends at or after `T`), the check that follows
observes the cancellation, the task is never invoked again (from step `m + 1` on
the trace holds exactly `m` invocations after `m + 1` checks), and whenever the
loop has returned `Err` carries exactly the cancellation cause and the close;
the loop does return once a receiver is ready. -/
theorem C12_cancel_gates_the_next_iteration (T : Int) (cause : ε) (task : Task σ ε)
    (receiver : Nat → Bool) (w : World σ ε) (m : Nat)
    (hnil : ∀ i, i < m → errAt task i w = none)
    (hbefore : ∀ i, i < m → (invokeN task i w).now < T)
    (hafter : T ≤ (invokeN task m w).now) :
    (∀ n, m + 1 ≤ n →
      (doInfiniteLooping (cancelAt T cause) task receiver n (InfiniteLoop w)).world =
        invokeN task m w
      ∧ (invocations
          (doInfiniteLooping (cancelAt T cause) task receiver n (InfiniteLoop w)).world.trace).length
        = (invocations w.trace).length + m
      ∧ (doInfiniteLooping (cancelAt T cause) task receiver n (InfiniteLoop w)).checks = m + 1
      ∧ (doInfiniteLooping (cancelAt T cause) task receiver n (InfiniteLoop w)).err = some cause)
    ∧ (∀ n, (doInfiniteLooping (cancelAt T cause) task receiver n (InfiniteLoop w)).pc
        = Pc.returned →
      (doInfiniteLooping (cancelAt T cause) task receiver n (InfiniteLoop w)).errchan =
        [ChanOp.send (some cause), ChanOp.close])
    ∧ (∀ r, m + 2 ≤ r → receiver r = true → ∀ n, r + 2 ≤ n →
      (doInfiniteLooping (cancelAt T cause) task receiver n (InfiniteLoop w)).pc = Pc.returned) := by
  have hnot : ∀ i, i < m → (cancelAt T cause).done i (invokeN task i w).now = false := by
    intro i hi
    have := hbefore i hi
    simp only [cancelAt, decide_eq_false_iff_not]
    omega
  have hd : (cancelAt T cause).done m (invokeN task m w).now = true := by
    simp only [cancelAt, decide_eq_true_eq]
    exact hafter
  have hpre := doInfiniteLooping_prefix (cancelAt T cause) task receiver w m hnot hnil
  have hk1 : doInfiniteLooping (cancelAt T cause) task receiver (m + 1) (InfiniteLoop w) =
      { pc := Pc.looping, err := some cause, checks := m + 1, world := invokeN task m w,
        errchan := [] } := by
    simp only [doInfiniteLooping, hpre, doInfiniteLooping.step, Option.isNone_none, if_true, hd]
    rfl
  have hset := doInfiniteLooping_settled (cancelAt T cause) task receiver (InfiniteLoop w)
    (m + 1) cause (by rw [hk1]) (by rw [hk1]) (by rw [hk1])
  refine ⟨?_, ?_, ?_⟩
  · intro n hn
    obtain ⟨i1, i2, i3, _⟩ := hset n hn
    rw [i2, i3, hk1]
    exact ⟨rfl, invokeN_invocations task w m, rfl, i1⟩
  · intro n hret
    by_cases hn : m + 1 ≤ n
    · exact (hset n hn).2.2.2.2.2.2.2 hret
    · have hpre2 := doInfiniteLooping_prefix (cancelAt T cause) task receiver w n
        (fun i hi => hnot i (by omega)) (fun i hi => hnil i (by omega))
      rw [hpre2] at hret
      cases hret
  · intro r hr hready
    exact doInfiniteLooping_returns (cancelAt T cause) task receiver (InfiniteLoop w) (m + 1)
      cause (by rw [hk1]) (by rw [hk1]) (by rw [hk1]) r (by omega) hready

/-! ## C18: `TilErr` -/

/-- Invoking every function of a list once adds one invocation per function. -/
theorem invokeAll_invocations (fs : List (Task σ ε)) :
    ∀ w : World σ ε,
      (invocations (invokeAll fs w).trace).length = (invocations w.trace).length + fs.length := by
  induction fs with
  | nil => intro w; rfl
  | cons f fs ih =>
    intro w
    simp only [invokeAll, ih, invoke_trace, invocations_append, List.length_append,
      List.length_cons]
    simp [invocations]
    omega

/-- Invoking the functions of `pre ++ post` in order is invoking those of `pre` and
then those of `post`. -/
theorem invokeAll_append (pre post : List (Task σ ε)) :
    ∀ w : World σ ε, invokeAll (pre ++ post) w = invokeAll post (invokeAll pre w) := by
  induction pre with
  | nil => intro w; rfl
  | cons f pre ih => intro w; exact ih (invoke f w).2

/-- When every function returns nil, `TilErr` invokes them all and returns nil. -/
theorem TilErr_of_allNil (fs : List (Task σ ε)) :
    ∀ w : World σ ε, allNil fs w = true → TilErr fs w = (none, invokeAll fs w) := by
  induction fs with
  | nil => intro w _; rfl
  | cons f fs ih =>
    intro w h
    simp only [allNil, Bool.and_eq_true] at h
    have h1 : (invoke f w).1.isSome = false := by
      cases hx : (invoke f w).1 with
      | none => rfl
      | some e => rw [hx] at h; simp at h
    simp only [TilErr, h1, Bool.false_eq_true, if_false, invokeAll]
    exact ih _ h.2

/-- When `f` is the first function to return a non-nil error, `TilErr` stops right
after invoking it and returns that error. -/
theorem TilErr_first_error (pre : List (Task σ ε)) (f : Task σ ε) (post : List (Task σ ε))
    (e : ε) :
    ∀ w : World σ ε, allNil pre w = true → (invoke f (invokeAll pre w)).1 = some e →
      TilErr (pre ++ f :: post) w = (some e, (invoke f (invokeAll pre w)).2) := by
  induction pre with
  | nil =>
    intro w _ he
    simp only [invokeAll] at he
    simp only [List.nil_append, TilErr, he, Option.isSome_some, if_true, invokeAll]
  | cons g pre ih =>
    intro w h he
    simp only [allNil, Bool.and_eq_true] at h
    have h1 : (invoke g w).1.isSome = false := by
      cases hx : (invoke g w).1 with
      | none => rfl
      | some e => rw [hx] at h; simp at h
    simp only [List.cons_append, TilErr, h1, Bool.false_eq_true, if_false]
    exact ih _ h.2 he

/-- C18: `TilErr(f1, ..., fn)` invokes the functions one by one in list order.  If `f` is
the first to return a non-nil error `e` (the functions before it, `pre`, all return
nil), then `TilErr` returns exactly `e`, the world is the one in which `pre` and `f`
have each been invoked once in order, and the functions after `f` have not been
invoked (the trace has grown by `pre.length + 1` invocations).  If every function
returns nil, all are invoked once in order and `TilErr` returns nil; for the empty
list it returns nil at once. -/
theorem C18_TilErr_stops_at_first_error (w : World σ ε) :
    (∀ (pre : List (Task σ ε)) (f : Task σ ε) (post : List (Task σ ε)) (e : ε),
      allNil pre w = true → (invoke f (invokeAll pre w)).1 = some e →
      TilErr (pre ++ f :: post) w = (some e, invokeAll (pre ++ [f]) w)
      ∧ (invocations (TilErr (pre ++ f :: post) w).2.trace).length =
          (invocations w.trace).length + (pre.length + 1))
    ∧ (∀ fs : List (Task σ ε), allNil fs w = true →
      TilErr fs w = (none, invokeAll fs w)
      ∧ (invocations (TilErr fs w).2.trace).length = (invocations w.trace).length + fs.length)
    ∧ TilErr ([] : List (Task σ ε)) w = (none, w) := by
  refine ⟨?_, ?_, rfl⟩
  · intro pre f post e hpre he
    have h := TilErr_first_error pre f post e w hpre he
    have h2 : invokeAll (pre ++ [f]) w = (invoke f (invokeAll pre w)).2 := by
      rw [invokeAll_append]; rfl
    rw [h, h2]
    refine ⟨rfl, ?_⟩
    rw [← h2, invokeAll_invocations]
    simp
  · intro fs h
    rw [TilErr_of_allNil fs w h]
    exact ⟨rfl, invokeAll_invocations fs w⟩

/-! ## C19: `Retry` and `TriesAtMost` -/

/-- The invocation after `j + 1` earlier ones is the invocation after `j` earlier
ones in the world left by the first. -/
theorem invokeN_succ_left (f : Task σ ε) (j : Nat) (w : World σ ε) :
    invokeN f (j + 1) w = invokeN f j (invoke f w).2 := by
  induction j with
  | zero => rfl
  | succ j ih => rw [invokeN, ih]; rfl

/-- Shifting `errAt` by one invocation. -/
theorem errAt_succ_left (f : Task σ ε) (j : Nat) (w : World σ ε) :
    errAt f (j + 1) w = errAt f j (invoke f w).2 := by
  simp only [errAt, invokeN_succ_left]

/-- `Retry(f)`: when the first invocations of `f` fail with the errors `es` and the
next one returns nil, the channel receives `es` in order and is closed. -/
theorem Retry_plain (f : Task σ ε) (es : List ε) :
    ∀ (w : World σ ε) (fuel : Nat),
      (∀ j, j ≤ es.length → errAt f j w = es[j]?) → es.length + 1 ≤ fuel →
      Retry (plain f) fuel () w =
        some (es.map (fun e => ChanOp.send (some e)) ++ [ChanOp.close], (),
          invokeN f (es.length + 1) w) := by
  induction es with
  | nil =>
    intro w fuel h hf
    obtain ⟨fuel, rfl⟩ : ∃ k, fuel = k + 1 := ⟨fuel - 1, by simp at hf; omega⟩
    have h0 := h 0 (by simp)
    simp only [errAt, invokeN, List.getElem?_nil] at h0
    simp only [Retry, plain, h0, List.map_nil, List.nil_append, List.length_nil, invokeN]
  | cons e es ih =>
    intro w fuel h hf
    obtain ⟨fuel, rfl⟩ : ∃ k, fuel = k + 1 := ⟨fuel - 1, by simp at hf; omega⟩
    have h0 := h 0 (by simp)
    simp only [errAt, invokeN, List.getElem?_cons_zero] at h0
    have hrest : ∀ j, j ≤ es.length → errAt f j (invoke f w).2 = es[j]? := by
      intro j hj
      have := h (j + 1) (by simp; omega)
      rw [errAt_succ_left] at this
      simpa using this
    have := ih (invoke f w).2 fuel hrest (by simp at hf; omega)
    simp only [Retry, plain, h0, this, List.map_cons, List.cons_append, List.length_cons]
    rw [invokeN_succ_left f (es.length + 1) w]

/-- `TriesAtMost` with budget left: from index `t`, when the next invocations of `f`
fail with `es`, the one after returns nil, and `t + es.length < n`, the channel
receives `es` and is closed after `es.length + 1` invocations of `f`. -/
theorem Retry_attempt_done (n : Nat) (hn : n < 2 ^ 64) (f : Task σ ε) (es : List ε) :
    ∀ (t : Nat) (w : World σ ε) (fuel : Nat), t + es.length < n →
      (∀ j, j ≤ es.length → errAt f j w = es[j]?) → es.length + 1 ≤ fuel →
      Retry (Recorded (TriesAtMost.attempt n f)) fuel t w =
        some (es.map (fun e => ChanOp.send (some e)) ++ [ChanOp.close], t + es.length + 1,
          invokeN f (es.length + 1) w) := by
  induction es with
  | nil =>
    intro t w fuel ht h hf
    obtain ⟨fuel, rfl⟩ : ∃ k, fuel = k + 1 := ⟨fuel - 1, by simp at hf; omega⟩
    have h0 := h 0 (by simp)
    simp only [errAt, invokeN, List.getElem?_nil] at h0
    have hlt : ¬ t ≥ n := by simp at ht; omega
    have hmod : (t + 1) % 2 ^ 64 = t + 1 := Nat.mod_eq_of_lt (by simp at ht; omega)
    simp only [Retry, Recorded, TriesAtMost.attempt, hlt, if_false, h0, hmod, List.map_nil,
      List.nil_append, List.length_nil, invokeN, Nat.add_zero]
  | cons e es ih =>
    intro t w fuel ht h hf
    obtain ⟨fuel, rfl⟩ : ∃ k, fuel = k + 1 := ⟨fuel - 1, by simp at hf; omega⟩
    have h0 := h 0 (by simp)
    simp only [errAt, invokeN, List.getElem?_cons_zero] at h0
    have hlt : ¬ t ≥ n := by simp at ht; omega
    have hmod : (t + 1) % 2 ^ 64 = t + 1 := Nat.mod_eq_of_lt (by simp at ht; omega)
    have hrest : ∀ j, j ≤ es.length → errAt f j (invoke f w).2 = es[j]? := by
      intro j hj
      have := h (j + 1) (by simp; omega)
      rw [errAt_succ_left] at this
      simpa using this
    have := ih (t + 1) (invoke f w).2 fuel (by simp at ht; omega) hrest (by simp at hf; omega)
    simp only [Retry, Recorded, TriesAtMost.attempt, hlt, if_false, h0, hmod, this,
      List.map_cons, List.cons_append, List.length_cons]
    rw [invokeN_succ_left f (es.length + 1) w]
    have : t + 1 + es.length + 1 = t + (es.length + 1) + 1 := by omega
    rw [this]

/-- `TriesAtMost` running out of budget: from index `t`, when the next `es.length`
invocations of `f` fail with `es` and `t + es.length = n`, the channel receives
`es` and is closed after exactly `es.length` invocations of `f`. -/
theorem Retry_attempt_exhausted (n : Nat) (hn : n < 2 ^ 64) (f : Task σ ε) (es : List ε) :
    ∀ (t : Nat) (w : World σ ε) (fuel : Nat), t + es.length = n →
      (∀ j, j < es.length → errAt f j w = es[j]?) → es.length + 1 ≤ fuel →
      Retry (Recorded (TriesAtMost.attempt n f)) fuel t w =
        some (es.map (fun e => ChanOp.send (some e)) ++ [ChanOp.close], (n + 1) % 2 ^ 64,
          invokeN f es.length w) := by
  induction es with
  | nil =>
    intro t w fuel ht h hf
    obtain ⟨fuel, rfl⟩ : ∃ k, fuel = k + 1 := ⟨fuel - 1, by simp at hf; omega⟩
    have htn : t = n := by simp at ht; omega
    subst htn
    simp [Retry, Recorded, TriesAtMost.attempt, invokeN]
  | cons e es ih =>
    intro t w fuel ht h hf
    obtain ⟨fuel, rfl⟩ : ∃ k, fuel = k + 1 := ⟨fuel - 1, by simp at hf; omega⟩
    have h0 := h 0 (by simp)
    simp only [errAt, invokeN, List.getElem?_cons_zero] at h0
    have hlt : ¬ t ≥ n := by simp at ht; omega
    have hmod : (t + 1) % 2 ^ 64 = t + 1 := Nat.mod_eq_of_lt (by simp at ht; omega)
    have hrest : ∀ j, j < es.length → errAt f j (invoke f w).2 = es[j]? := by
      intro j hj
      have := h (j + 1) (by simp; omega)
      rw [errAt_succ_left] at this
      simpa using this
    have := ih (t + 1) (invoke f w).2 fuel (by simp at ht; omega) hrest (by simp at hf; omega)
    simp only [Retry, Recorded, TriesAtMost.attempt, hlt, if_false, h0, hmod, this,
      List.map_cons, List.cons_append, List.length_cons]
    rw [invokeN_succ_left f es.length w]

/-- C19: let the first invocations of `f` fail with the errors `es` (`k = es.length`).
`Retry(f)`: if the next invocation returns nil, the drained channel yields exactly
`es` in order and is then closed.  `TriesAtMost(n, f)`: the drained channel yields
exactly the first `min(n, k)` errors of `es` in order and is then closed; when
`k < n` and invocation `k + 1` returns nil, `f` has been invoked `k + 1 ≤ n` times;
when at least the first `n` invocations fail, `f` has been invoked exactly `n`
times.  Each result is reached with any fuel above the number of attempts. -/
theorem C19_Retry_and_TriesAtMost (n : Nat) (hn : n < 2 ^ 64) (f : Task σ ε)
    (w : World σ ε) (es : List ε) :
    ((∀ j, j ≤ es.length → errAt f j w = es[j]?) →
      ∀ fuel, es.length + 1 ≤ fuel →
        Retry (plain f) fuel () w =
          some (es.map (fun e => ChanOp.send (some e)) ++ [ChanOp.close], (),
            invokeN f (es.length + 1) w))
    ∧ (es.length < n → (∀ j, j ≤ es.length → errAt f j w = es[j]?) →
      ∀ fuel, es.length + 1 ≤ fuel →
        ∃ t, TriesAtMost n f fuel w =
          some ((es.take (min n es.length)).map (fun e => ChanOp.send (some e))
              ++ [ChanOp.close], t, invokeN f (es.length + 1) w)
        ∧ (invocations (invokeN f (es.length + 1) w).trace).length =
            (invocations w.trace).length + (es.length + 1)
        ∧ es.length + 1 ≤ n)
    ∧ (n ≤ es.length → (∀ j, j < n → errAt f j w = es[j]?) →
      ∀ fuel, n + 1 ≤ fuel →
        ∃ t, TriesAtMost n f fuel w =
          some ((es.take (min n es.length)).map (fun e => ChanOp.send (some e))
              ++ [ChanOp.close], t, invokeN f n w)
        ∧ (invocations (invokeN f n w).trace).length = (invocations w.trace).length + n) := by
  refine ⟨fun h fuel hf => Retry_plain f es w fuel h hf, ?_, ?_⟩
  · intro hk h fuel hf
    refine ⟨0 + es.length + 1, ?_, invokeN_invocations f w _, by omega⟩
    have := Retry_attempt_done n hn f es 0 w fuel (by omega) h hf
    rw [TriesAtMost, this, Nat.min_eq_right (by omega), List.take_length]
  · intro hk h fuel hf
    have hlen : (es.take n).length = n := by simp; omega
    have h2 : ∀ j, j < (es.take n).length → errAt f j w = (es.take n)[j]? := by
      intro j hj
      rw [hlen] at hj
      rw [h j hj, List.getElem?_take_of_lt hj]
    have := Retry_attempt_exhausted n hn f (es.take n) 0 w fuel (by omega) h2 (by omega)
    rw [hlen] at this
    refine ⟨(n + 1) % 2 ^ 64, ?_, invokeN_invocations f w n⟩
    rw [TriesAtMost, this, Nat.min_eq_left hk]

/-! ## C15, C16: the aggregating goroutine of `AllErr` and `AnyErr` -/

@[simp] theorem outs_append (xs ys : List (AggEvent ε)) :
    outs (xs ++ ys) = outs xs ++ outs ys := by
  induction xs with
  | nil => rfl
  | cons x xs ih => cases x <;> simp [outs, ih]

@[simp] theorem cancels_append (xs ys : List (AggEvent ε)) :
    cancels (xs ++ ys) = cancels xs ++ cancels ys := by
  induction xs with
  | nil => rfl
  | cons x xs ih => cases x <;> simp [cancels, ih]

@[simp] theorem discards_append (xs ys : List (AggEvent ε)) :
    discards (xs ++ ys) = discards xs ++ discards ys := by
  induction xs with
  | nil => rfl
  | cons x xs ih => cases x <;> simp [discards, ih]

@[simp] theorem cancels_map_cancel (l : List Nat) :
    cancels (l.map (AggEvent.cancel : Nat → AggEvent ε)) = l := by
  induction l with
  | nil => rfl
  | cons x xs ih => simp [cancels, ih]

/-- A step of either goroutine leaves the number of children alone. -/
theorem AllErr_step_n {κ : Type} (K : Kids κ ε) (pick : Nat) (r : Bool) (s : Agg κ ε) :
    (AllErr.step K pick r s).n = s.n := by
  unfold AllErr.step
  split <;> (try split) <;> (try split) <;> rfl

/-- A step of the goroutine of `AnyErr` leaves the number of children alone. -/
theorem AnyErr_step_n {κ : Type} (K : Kids κ ε) (pick : Nat) (r : Bool) (s : Agg κ ε) :
    (AnyErr.step K pick r s).n = s.n := by
  unfold AnyErr.step
  split <;> (try split) <;> (try split) <;> rfl

/-- With no children the goroutine of `AllErr` never leaves its first selection. -/
theorem AllErr_run_zero {κ : Type} (K : Kids κ ε) (sched : Nat → Nat × Bool) (kids : κ)
    (m : Nat) : AllErr.run K sched m (AllErr 0 kids) = AllErr 0 kids := by
  induction m with
  | zero => rfl
  | succ m ih =>
    simp only [AllErr.run, ih]
    simp [AllErr.step, AllErr]

/-- With no children the goroutine of `AnyErr` never leaves its first selection. -/
theorem AnyErr_run_zero {κ : Type} (K : Kids κ ε) (sched : Nat → Nat × Bool) (kids : κ)
    (m : Nat) : AnyErr.run K sched m (AnyErr 0 kids) = AnyErr 0 kids := by
  induction m with
  | zero => rfl
  | succ m ih =>
    simp only [AnyErr.run, ih]
    simp [AnyErr.step, AnyErr]

/-- C15 (evaluation at the failing input): with zero children the goroutines of
`AllErr()` and `AnyErr()` stay in their first `reflect.Select` over the empty case
list, however long they run: `ret.Err` is never closed and nothing happens on it. -/
theorem C15_no_children_blocks_in_first_select {κ : Type} (K : Kids κ ε)
    (sched : Nat → Nat × Bool) (kids : κ) (m : Nat) :
    ((AllErr.run K sched m (AllErr 0 kids)).pc = AggPc.first
      ∧ outs (AllErr.run K sched m (AllErr 0 kids)).events = []
      ∧ ChanOp.close ∉ outs (AllErr.run K sched m (AllErr 0 kids)).events)
    ∧ ((AnyErr.run K sched m (AnyErr 0 kids)).pc = AggPc.first
      ∧ outs (AnyErr.run K sched m (AnyErr 0 kids)).events = []
      ∧ ChanOp.close ∉ outs (AnyErr.run K sched m (AnyErr 0 kids)).events) := by
  rw [AllErr_run_zero, AnyErr_run_zero]
  simp [AllErr, AnyErr, outs]

/-- An event that is no call of `Cancel` may follow without disturbing the order. -/
theorem cancelOrder_extend (n : Nat) (events : List (AggEvent ε)) (x : AggEvent ε)
    (hx : cancels [x] = [])
    (h : ∃ pre post, firstPath pre
      ∧ events = pre ++ (List.range n).map AggEvent.cancel ++ post ∧ cancels post = []) :
    ∃ pre post, firstPath pre
      ∧ events ++ [x] = pre ++ (List.range n).map AggEvent.cancel ++ post
      ∧ cancels post = [] := by
  obtain ⟨pre, post, h1, h2, h3⟩ := h
  refine ⟨pre, post ++ [x], h1, ?_, ?_⟩
  · rw [h2]; simp
  · simp [h3, hx]

/-- The goroutine of `AllErr` keeps the order of the calls of `Cancel`. -/
theorem AllErr_step_cancelOrder {κ : Type} (K : Kids κ ε) (pick : Nat) (r : Bool)
    (s : Agg κ ε) (h : CancelOrder s) : CancelOrder (AllErr.step K pick r s) := by
  unfold AllErr.step
  cases hpc : s.pc with
  | first =>
    simp only [CancelOrder, hpc] at h
    simp only []
    split
    · simpa [CancelOrder, hpc] using h
    · split
      · simpa [CancelOrder, hpc] using h
      · simp [CancelOrder, h]
      · simp only [CancelOrder, h, List.nil_append]
        exact ⟨Nat.zero_le _,
          [AggEvent.selected (s.cases.getD (pick % s.cases.length) 0) Recv.closed],
          Or.inl ⟨_, rfl⟩, rfl⟩
  | forward v =>
    simp only [CancelOrder, hpc] at h
    obtain ⟨c, hc⟩ := h
    cases v with
    | none =>
      simp only [CancelOrder]
      exact ⟨Nat.zero_le _, _, Or.inr (Or.inr ⟨c, rfl⟩), by simp [hc]⟩
    | some e =>
      cases r with
      | false => simp only [Bool.false_eq_true, if_false]; simp [CancelOrder, hpc, hc]
      | true =>
        simp only [if_true, CancelOrder]
        exact ⟨Nat.zero_le _, _, Or.inr (Or.inl ⟨c, e, rfl⟩), by simp [hc]⟩
  | cancelling k =>
    simp only [CancelOrder, hpc] at h
    obtain ⟨hk, pre, hpre, hev⟩ := h
    simp only []
    split
    · rename_i hlt
      simp only [CancelOrder]
      refine ⟨hlt, pre, hpre, ?_⟩
      rw [hev, List.range_succ]
      simp
    · rename_i hge
      have hkn : k = s.n := by omega
      simp only [CancelOrder]
      exact ⟨pre, [], hpre, by rw [hev, hkn]; simp, rfl⟩
  | draining i =>
    simp only [CancelOrder, hpc] at h
    simp only []
    split
    · simpa [CancelOrder] using h
    · split
      · simpa [CancelOrder, hpc] using h
      · simp only [CancelOrder]
        exact cancelOrder_extend _ _ _ rfl h
      · simp only [CancelOrder]
        exact cancelOrder_extend _ _ _ rfl h
  | reforward v =>
    simp only [CancelOrder, hpc] at h
    cases v with
    | none => simpa [CancelOrder] using h
    | some e =>
      cases r with
      | false => simp only [Bool.false_eq_true, if_false]; simpa [CancelOrder, hpc] using h
      | true =>
        simp only [if_true, CancelOrder]
        exact cancelOrder_extend _ _ _ rfl h
  | closing =>
    simp only [CancelOrder, hpc] at h
    simp only [CancelOrder]
    exact cancelOrder_extend _ _ _ rfl h
  | finished => simpa [CancelOrder, hpc] using h
  | panicking d =>
    cases d with
    | cancelling k =>
      simp only [CancelOrder, hpc] at h
      obtain ⟨hk, pre, hpre, hev⟩ := h
      simp only []
      split
      · rename_i hlt
        simp only [CancelOrder]
        refine ⟨hlt, pre, hpre, ?_⟩
        rw [hev, List.range_succ]
        simp
      · rename_i hge
        have hkn : k = s.n := by omega
        simp only [CancelOrder]
        exact ⟨pre, [], hpre, by rw [hev, hkn]; simp, rfl⟩
    | draining i =>
      simp only [CancelOrder, hpc] at h
      simp only []
      split
      · simpa [CancelOrder] using h
      · split
        · simpa [CancelOrder, hpc] using h
        · simp only [CancelOrder]
          exact cancelOrder_extend _ _ _ rfl h
        · simp only [CancelOrder]
          exact cancelOrder_extend _ _ _ rfl h
    | reforward v =>
      simp only [CancelOrder, hpc] at h
      cases v with
      | none => simpa [CancelOrder] using h
      | some e =>
        cases r with
        | false => simp only [Bool.false_eq_true, if_false]; simpa [CancelOrder, hpc] using h
        | true =>
          simp only [if_true, CancelOrder]
          exact cancelOrder_extend _ _ _ rfl h
    | closing =>
      simp only [CancelOrder, hpc] at h
      simp only [CancelOrder]
      exact cancelOrder_extend _ _ _ rfl h
  | panicked => simpa [CancelOrder, hpc] using h

/-- The goroutine of `AnyErr` keeps the order of the calls of `Cancel`. -/
theorem AnyErr_step_cancelOrder {κ : Type} (K : Kids κ ε) (pick : Nat) (r : Bool)
    (s : Agg κ ε) (h : CancelOrder s) : CancelOrder (AnyErr.step K pick r s) := by
  unfold AnyErr.step
  cases hpc : s.pc with
  | first =>
    simp only [CancelOrder, hpc] at h
    simp only []
    split
    · simpa [CancelOrder, hpc] using h
    · split
      · simpa [CancelOrder, hpc] using h
      · simp [CancelOrder, h]
      · simp only [CancelOrder, h, List.nil_append]
        exact ⟨Nat.zero_le _,
          [AggEvent.selected (s.cases.getD (pick % s.cases.length) 0) Recv.closed],
          Or.inl ⟨_, rfl⟩, rfl⟩
  | forward v =>
    simp only [CancelOrder, hpc] at h
    obtain ⟨c, hc⟩ := h
    cases v with
    | none =>
      simp only [CancelOrder]
      exact ⟨Nat.zero_le _, _, Or.inr (Or.inr ⟨c, rfl⟩), by simp [hc]⟩
    | some e =>
      cases r with
      | false => simp only [Bool.false_eq_true, if_false]; simp [CancelOrder, hpc, hc]
      | true =>
        simp only [if_true, CancelOrder]
        exact ⟨Nat.zero_le _, _, Or.inr (Or.inl ⟨c, e, rfl⟩), by simp [hc]⟩
  | cancelling k =>
    simp only [CancelOrder, hpc] at h
    obtain ⟨hk, pre, hpre, hev⟩ := h
    simp only []
    split
    · rename_i hlt
      simp only [CancelOrder]
      refine ⟨hlt, pre, hpre, ?_⟩
      rw [hev, List.range_succ]
      simp
    · rename_i hge
      have hkn : k = s.n := by omega
      simp only [CancelOrder]
      exact ⟨pre, [], hpre, by rw [hev, hkn]; simp, rfl⟩
  | draining i =>
    simp only [CancelOrder, hpc] at h
    simp only []
    split
    · split
      · simpa [CancelOrder, hpc] using h
      · simp only [CancelOrder, hpc]
        exact cancelOrder_extend _ _ _ rfl h
      · simpa [CancelOrder] using h
    · simpa [CancelOrder] using h
  | reforward v => simpa [CancelOrder, hpc] using h
  | closing =>
    simp only [CancelOrder, hpc] at h
    simp only [CancelOrder]
    exact cancelOrder_extend _ _ _ rfl h
  | finished => simpa [CancelOrder, hpc] using h
  | panicking d =>
    cases d with
    | cancelling k =>
      simp only [CancelOrder, hpc] at h
      obtain ⟨hk, pre, hpre, hev⟩ := h
      simp only []
      split
      · rename_i hlt
        simp only [CancelOrder]
        refine ⟨hlt, pre, hpre, ?_⟩
        rw [hev, List.range_succ]
        simp
      · rename_i hge
        have hkn : k = s.n := by omega
        simp only [CancelOrder]
        exact ⟨pre, [], hpre, by rw [hev, hkn]; simp, rfl⟩
    | draining i =>
      simp only [CancelOrder, hpc] at h
      simp only []
      split
      · split
        · simpa [CancelOrder, hpc] using h
        · simp only [CancelOrder, hpc]
          exact cancelOrder_extend _ _ _ rfl h
        · simpa [CancelOrder] using h
      · simpa [CancelOrder] using h
    | reforward v => simpa [CancelOrder, hpc] using h
    | closing =>
      simp only [CancelOrder, hpc] at h
      simp only [CancelOrder]
      exact cancelOrder_extend _ _ _ rfl h
  | panicked => simpa [CancelOrder, hpc] using h

/-- Reading a list changed at one position. -/
theorem modifyAt_getElem? {α : Type} (f : α → α) :
    ∀ (l : List α) (i j : Nat),
      (modifyAt f i l)[j]? = if j = i then (l[j]?).map f else l[j]? := by
  intro l
  induction l with
  | nil => intro i j; cases i <;> simp [modifyAt]
  | cons x xs ih =>
    intro i j
    cases i with
    | zero => cases j <;> simp [modifyAt]
    | succ i =>
      cases j with
      | zero => simp [modifyAt]
      | succ j => simp [modifyAt, ih]

/-- Calling `Cancel` on the first `j` supervised loops marks each of them cancelled. -/
theorem foldl_cancel_loopKids (ks : List (Kid σ ε)) (j : Nat) :
    ∀ i k, ((List.range j).foldl (loopKids (σ := σ) (ε := ε)).cancel ks)[i]? = some k →
      i < j → k.cancelled = true := by
  induction j with
  | zero => intro i k _ hi; omega
  | succ j ih =>
    intro i k hk hi
    rw [List.range_succ, List.foldl_append] at hk
    simp only [List.foldl_cons, List.foldl_nil] at hk
    have hc : ∀ (l : List (Kid σ ε)) (a : Nat),
        (loopKids (σ := σ) (ε := ε)).cancel l a =
          modifyAt (fun k => { k with cancelled := true }) a l := fun _ _ => rfl
    rw [hc, modifyAt_getElem?] at hk
    by_cases hij : i = j
    · subst hij
      simp only [if_true] at hk
      cases hx : (List.foldl (loopKids (σ := σ) (ε := ε)).cancel ks (List.range i))[i]? with
      | none => rw [hx] at hk; simp at hk
      | some k0 =>
        rw [hx] at hk
        simp only [Option.map_some', Option.some.injEq] at hk
        rw [← hk]
    · simp only [hij, if_false] at hk
      exact ih i k hk (by omega)

/-- The goroutine of `AllErr` keeps the order of the calls of `Cancel` along a run. -/
theorem AllErr_run_cancelOrder {κ : Type} (K : Kids κ ε) (sched : Nat → Nat × Bool)
    (n : Nat) (kids : κ) (m : Nat) :
    CancelOrder (AllErr.run K sched m (AllErr n kids))
    ∧ (AllErr.run K sched m (AllErr n kids)).n = n := by
  induction m with
  | zero => exact ⟨rfl, rfl⟩
  | succ m ih =>
    exact ⟨AllErr_step_cancelOrder K _ _ _ ih.1, by rw [AllErr.run, AllErr_step_n, ih.2]⟩

/-- The goroutine of `AnyErr` keeps the order of the calls of `Cancel` along a run. -/
theorem AnyErr_run_cancelOrder {κ : Type} (K : Kids κ ε) (sched : Nat → Nat × Bool)
    (n : Nat) (kids : κ) (m : Nat) :
    CancelOrder (AnyErr.run K sched m (AnyErr n kids))
    ∧ (AnyErr.run K sched m (AnyErr n kids)).n = n := by
  induction m with
  | zero => exact ⟨rfl, rfl⟩
  | succ m ih =>
    exact ⟨AnyErr_step_cancelOrder K _ _ _ ih.1, by rw [AnyErr.run, AnyErr_step_n, ih.2]⟩

/-- What `CancelOrder` says once the deferred `ret.Cancel()` has returned. -/
theorem cancelOrder_after {κ : Type} (s : Agg κ ε) (h : CancelOrder s)
    (hpc : s.pc.afterCancel = true) :
    ∃ pre post, firstPath pre
      ∧ s.events = pre ++ (List.range s.n).map AggEvent.cancel ++ post
      ∧ cancels post = [] := by
  cases hp : s.pc with
  | first => simp [hp, AggPc.afterCancel] at hpc
  | forward v => simp [hp, AggPc.afterCancel] at hpc
  | cancelling k => simp [hp, AggPc.afterCancel] at hpc
  | draining i => simpa [CancelOrder, hp] using h
  | reforward v => simpa [CancelOrder, hp] using h
  | closing => simpa [CancelOrder, hp] using h
  | finished => simpa [CancelOrder, hp] using h
  | panicking d =>
    cases d with
    | cancelling k => simp [hp, AggPc.afterCancel] at hpc
    | draining i => simpa [CancelOrder, hp] using h
    | reforward v => simpa [CancelOrder, hp] using h
    | closing => simpa [CancelOrder, hp] using h
  | panicked => simpa [CancelOrder, hp] using h

/-- What `CancelOrder` says before the deferred `ret.Cancel()` is entered. -/
theorem cancelOrder_before {κ : Type} (s : Agg κ ε) (h : CancelOrder s)
    (hpc : s.pc = AggPc.first ∨ ∃ v, s.pc = AggPc.forward v) : cancels s.events = [] := by
  rcases hpc with h1 | ⟨v, h1⟩
  · simp only [CancelOrder, h1] at h
    simp [h, cancels]
  · simp only [CancelOrder, h1] at h
    obtain ⟨c, hc⟩ := h
    simp [hc, cancels]

/-- The events of a first selection hold no call of `Cancel`. -/
theorem cancels_firstPath (pre : List (AggEvent ε)) (h : firstPath pre) : cancels pre = [] := by
  rcases h with ⟨c, rfl⟩ | ⟨c, e, rfl⟩ | ⟨c, rfl⟩ <;> rfl

/-- Replaying one list of events after another. -/
theorem replay_append {κ : Type} (K : Kids κ ε) (xs ys : List (AggEvent ε)) :
    ∀ ks : κ, replay K (xs ++ ys) ks = replay K ys (replay K xs ks) := by
  induction xs with
  | nil => intro ks; rfl
  | cons x xs ih =>
    intro ks
    cases x with
    | selected c r => cases r <;> simp [replay, ih]
    | cancel c => simp [replay, ih]
    | out op => simp [replay, ih]
    | discarded c v => simp [replay, ih]

/-- Replaying calls of `Cancel` makes them one after the other. -/
theorem replay_map_cancel {κ : Type} (K : Kids κ ε) (l : List Nat) :
    ∀ ks : κ, replay K (l.map AggEvent.cancel) ks = l.foldl K.cancel ks := by
  induction l with
  | nil => intro ks; rfl
  | cons x xs ih => intro ks; simp [replay, ih]

/-- A step of the goroutine of `AllErr` changes the children by exactly the
operations it records. -/
theorem AllErr_step_replay {κ : Type} (K : Kids κ ε) (pick : Nat) (r : Bool) (s : Agg κ ε) :
    ∃ es, (AllErr.step K pick r s).events = s.events ++ es
      ∧ (AllErr.step K pick r s).kids = replay K es s.kids := by
  unfold AllErr.step
  split <;> (try split) <;> (try split) <;>
    first
    | exact ⟨[], (List.append_nil _).symm, rfl⟩
    | exact ⟨[_], rfl, rfl⟩

/-- A step of the goroutine of `AnyErr` changes the children by exactly the
operations it records. -/
theorem AnyErr_step_replay {κ : Type} (K : Kids κ ε) (pick : Nat) (r : Bool) (s : Agg κ ε) :
    ∃ es, (AnyErr.step K pick r s).events = s.events ++ es
      ∧ (AnyErr.step K pick r s).kids = replay K es s.kids := by
  unfold AnyErr.step
  split <;> (try split) <;> (try split) <;>
    first
    | exact ⟨[], (List.append_nil _).symm, rfl⟩
    | exact ⟨[_], rfl, rfl⟩

/-- Along a run of the goroutine of `AllErr` the children are what the recorded
operations make of them. -/
theorem AllErr_run_replay {κ : Type} (K : Kids κ ε) (sched : Nat → Nat × Bool)
    (n : Nat) (kids : κ) (m : Nat) :
    (AllErr.run K sched m (AllErr n kids)).kids =
      replay K (AllErr.run K sched m (AllErr n kids)).events kids := by
  induction m with
  | zero => rfl
  | succ m ih =>
    obtain ⟨es, he, hk⟩ := AllErr_step_replay K (sched m).1 (sched m).2
      (AllErr.run K sched m (AllErr n kids))
    simp only [AllErr.run]
    rw [he, hk, replay_append, ← ih]

/-- Along a run of the goroutine of `AnyErr` the children are what the recorded
operations make of them. -/
theorem AnyErr_run_replay {κ : Type} (K : Kids κ ε) (sched : Nat → Nat × Bool)
    (n : Nat) (kids : κ) (m : Nat) :
    (AnyErr.run K sched m (AnyErr n kids)).kids =
      replay K (AnyErr.run K sched m (AnyErr n kids)).events kids := by
  induction m with
  | zero => rfl
  | succ m ih =>
    obtain ⟨es, he, hk⟩ := AnyErr_step_replay K (sched m).1 (sched m).2
      (AnyErr.run K sched m (AnyErr n kids))
    simp only [AnyErr.run]
    rw [he, hk, replay_append, ← ih]

/-- Changing one element keeps the length of a list. -/
theorem modifyAt_length {α : Type} (f : α → α) :
    ∀ (l : List α) (i : Nat), (modifyAt f i l).length = l.length := by
  intro l
  induction l with
  | nil => intro i; cases i <;> rfl
  | cons x xs ih =>
    intro i
    cases i with
    | zero => rfl
    | succ i => simp [modifyAt, ih]

/-- A change of one supervised loop that never lifts a cancellation keeps every
cancelled loop cancelled. -/
theorem reached_modifyAt (f : Kid σ ε → Kid σ ε)
    (hf : ∀ x, x.cancelled = true → (f x).cancelled = true) (i : Nat)
    (L : List Nat) (ks : List (Kid σ ε)) (h : Reached L ks) : Reached L (modifyAt f i ks) := by
  intro c kid hc hk
  rw [modifyAt_getElem?] at hk
  by_cases hci : c = i
  · simp only [hci, if_true] at hk
    cases hx : ks[i]? with
    | none => rw [hx] at hk; simp at hk
    | some k0 =>
      rw [hx] at hk
      simp only [Option.map_some', Option.some.injEq] at hk
      rw [← hk]
      exact hf k0 (h i k0 (hci ▸ hc) hx)
  · simp only [hci, if_false] at hk
    exact h c kid hc hk

/-- A call of `Cancel` for a supervised loop cancels its context and lifts no other
cancellation. -/
theorem reached_cancel (c0 : Nat) (L : List Nat) (ks : List (Kid σ ε)) (h : Reached L ks) :
    Reached (L ++ [c0]) ((loopKids (σ := σ) (ε := ε)).cancel ks c0) := by
  intro c kid hc hk
  have hk2 : (modifyAt (fun k : Kid σ ε => { k with cancelled := true }) c0 ks)[c]? = some kid :=
    hk
  rw [modifyAt_getElem?] at hk2
  by_cases hci : c = c0
  · simp only [hci, if_true] at hk2
    cases hx : ks[c0]? with
    | none => rw [hx] at hk2; simp at hk2
    | some k0 =>
      rw [hx] at hk2
      simp only [Option.map_some', Option.some.injEq] at hk2
      rw [← hk2]
  · simp only [hci, if_false] at hk2
    have hcL : c ∈ L := by
      rcases List.mem_append.mp hc with h1 | h1
      · exact h1
      · exact absurd (List.mem_singleton.mp h1) hci
    exact h c kid hcL hk2

/-- Replaying the operations of an aggregating goroutine on supervised loops keeps
their number, keeps every cancelled loop cancelled, and cancels every loop a
call of `Cancel` is recorded for. -/
theorem replay_loopKids (es : List (AggEvent ε)) :
    ∀ (L : List Nat) (ks : List (Kid σ ε)), Reached L ks →
      Reached (L ++ cancels es) (replay loopKids es ks)
      ∧ (replay loopKids es ks).length = ks.length := by
  induction es with
  | nil => intro L ks h; exact ⟨by simpa [cancels] using h, rfl⟩
  | cons x xs ih =>
    intro L ks h
    have htake : ∀ c, Reached L ((loopKids (σ := σ) (ε := ε)).take ks c)
        ∧ ((loopKids (σ := σ) (ε := ε)).take ks c).length = ks.length := fun c =>
      ⟨reached_modifyAt Kid.deliver (fun _ hx => hx) c L ks h, modifyAt_length _ _ _⟩
    cases x with
    | selected c r =>
      cases r with
      | value v =>
        have := ih L _ (htake c).1
        exact ⟨by simpa [replay, cancels] using this.1, by
          simp only [replay]; rw [this.2, (htake c).2]⟩
      | closed =>
        have := ih L ks h
        exact ⟨by simpa [replay, cancels] using this.1, by simp only [replay]; rw [this.2]⟩
    | cancel c =>
      have := ih (L ++ [c]) _ (reached_cancel c L ks h)
      refine ⟨by simpa [replay, cancels] using this.1, ?_⟩
      simp only [replay]
      rw [this.2]
      exact modifyAt_length _ _ _
    | out op =>
      have := ih L ks h
      exact ⟨by simpa [replay, cancels] using this.1, by simp only [replay]; rw [this.2]⟩
    | discarded c v =>
      have := ih L _ (htake c).1
      exact ⟨by simpa [replay, cancels] using this.1, by
        simp only [replay]; rw [this.2, (htake c).2]⟩

/-- What holds of `AllErr` running together with its supervised loops, under every
schedule: the order of the calls of `Cancel`, the number of the loops, and the
cancellation of every loop a call of `Cancel` was made for. -/
theorem AllErr_system_inv (ks : List (Kid σ ε)) (acts : Nat → Act) (m : Nat) :
    CancelOrder (AllErr.systemRun acts m (AllErr ks.length ks))
    ∧ (AllErr.systemRun acts m (AllErr ks.length ks)).n = ks.length
    ∧ (AllErr.systemRun acts m (AllErr ks.length ks)).kids.length = ks.length
    ∧ Reached (cancels (AllErr.systemRun acts m (AllErr ks.length ks)).events)
        (AllErr.systemRun acts m (AllErr ks.length ks)).kids := by
  induction m with
  | zero => exact ⟨rfl, rfl, rfl, fun c kid hc _ => by simp [AllErr, cancels] at hc⟩
  | succ m ih =>
    obtain ⟨h1, h2, h3, h4⟩ := ih
    simp only [AllErr.systemRun]
    generalize AllErr.systemRun acts m (AllErr ks.length ks) = s at h1 h2 h3 h4
    cases acts m with
    | tick i =>
      exact ⟨h1, h2, by simp only [AllErr.system]; rw [modifyAt_length, h3],
        reached_modifyAt Kid.tick (fun _ hx => hx) i _ _ h4⟩
    | agg pick r =>
      obtain ⟨es, he, hk⟩ := AllErr_step_replay loopKids pick r s
      have hr := replay_loopKids es _ _ h4
      refine ⟨AllErr_step_cancelOrder loopKids pick r s h1, ?_, ?_, ?_⟩
      · simp only [AllErr.system]; rw [AllErr_step_n, h2]
      · simp only [AllErr.system]; rw [hk, hr.2, h3]
      · simp only [AllErr.system]; rw [hk, he, cancels_append]; exact hr.1

/-- What holds of `AnyErr` running together with its supervised loops, under every
schedule. -/
theorem AnyErr_system_inv (ks : List (Kid σ ε)) (acts : Nat → Act) (m : Nat) :
    CancelOrder (AnyErr.systemRun acts m (AnyErr ks.length ks))
    ∧ (AnyErr.systemRun acts m (AnyErr ks.length ks)).n = ks.length
    ∧ (AnyErr.systemRun acts m (AnyErr ks.length ks)).kids.length = ks.length
    ∧ Reached (cancels (AnyErr.systemRun acts m (AnyErr ks.length ks)).events)
        (AnyErr.systemRun acts m (AnyErr ks.length ks)).kids := by
  induction m with
  | zero => exact ⟨rfl, rfl, rfl, fun c kid hc _ => by simp [AnyErr, cancels] at hc⟩
  | succ m ih =>
    obtain ⟨h1, h2, h3, h4⟩ := ih
    simp only [AnyErr.systemRun]
    generalize AnyErr.systemRun acts m (AnyErr ks.length ks) = s at h1 h2 h3 h4
    cases acts m with
    | tick i =>
      exact ⟨h1, h2, by simp only [AnyErr.system]; rw [modifyAt_length, h3],
        reached_modifyAt Kid.tick (fun _ hx => hx) i _ _ h4⟩
    | agg pick r =>
      obtain ⟨es, he, hk⟩ := AnyErr_step_replay loopKids pick r s
      have hr := replay_loopKids es _ _ h4
      refine ⟨AnyErr_step_cancelOrder loopKids pick r s h1, ?_, ?_, ?_⟩
      · simp only [AnyErr.system]; rw [AnyErr_step_n, h2]
      · simp only [AnyErr.system]; rw [hk, hr.2, h3]
      · simp only [AnyErr.system]; rw [hk, he, cancels_append]; exact hr.1

/-- Once the deferred `ret.Cancel()` has returned, every supervised loop is
cancelled. -/
theorem all_cancelled_after (s : Agg (List (Kid σ ε)) ε) (h : CancelOrder s)
    (hr : Reached (cancels s.events) s.kids) (hpc : s.pc.afterCancel = true)
    (i : Nat) (k : Kid σ ε) (hi : i < s.n) (hk : s.kids[i]? = some k) :
    k.cancelled = true := by
  obtain ⟨pre, post, hpre, hev, hpost⟩ := cancelOrder_after s h hpc
  refine hr i k ?_ hk
  rw [hev]
  simp [cancels_firstPath pre hpre, hpost, hi]

/-- The deferred `ret.Cancel()` of `AllErr` waits for nobody: entered at the call for
child `k`, it has returned `n - k + 1` steps later, on return and in a panic. -/
theorem AllErr_cancel_completes {κ : Type} (K : Kids κ ε) (sched : Nat → Nat × Bool)
    (n : Nat) (kids : κ) :
    ∀ (d m k : Nat), k + d = n →
      ((AllErr.run K sched m (AllErr n kids)).pc = AggPc.cancelling k →
        (AllErr.run K sched (m + d + 1) (AllErr n kids)).pc = AggPc.draining 0)
      ∧ ((AllErr.run K sched m (AllErr n kids)).pc = AggPc.panicking (Deferred.cancelling k) →
        (AllErr.run K sched (m + d + 1) (AllErr n kids)).pc =
          AggPc.panicking (Deferred.draining 0)) := by
  intro d
  induction d with
  | zero =>
    intro m k hk
    have hn := (AllErr_run_cancelOrder K sched n kids m).2
    constructor <;> intro hpc
    · show (AllErr.step K _ _ (AllErr.run K sched m (AllErr n kids))).pc = _
      have hge : ¬ k < n := by omega
      simp [AllErr.step, hpc, hn, hge]
    · show (AllErr.step K _ _ (AllErr.run K sched m (AllErr n kids))).pc = _
      have hge : ¬ k < n := by omega
      simp [AllErr.step, hpc, hn, hge]
  | succ d ih =>
    intro m k hk
    have hn := (AllErr_run_cancelOrder K sched n kids m).2
    have hm : m + (d + 1) + 1 = (m + 1) + d + 1 := by omega
    have hlt : k < n := by omega
    rw [hm]
    constructor <;> intro hpc
    · refine (ih (m + 1) (k + 1) (by omega)).1 ?_
      show (AllErr.step K _ _ (AllErr.run K sched m (AllErr n kids))).pc = _
      simp [AllErr.step, hpc, hn, hlt]
    · refine (ih (m + 1) (k + 1) (by omega)).2 ?_
      show (AllErr.step K _ _ (AllErr.run K sched m (AllErr n kids))).pc = _
      simp [AllErr.step, hpc, hn, hlt]

/-- The deferred `ret.Cancel()` of `AnyErr` waits for nobody. -/
theorem AnyErr_cancel_completes {κ : Type} (K : Kids κ ε) (sched : Nat → Nat × Bool)
    (n : Nat) (kids : κ) :
    ∀ (d m k : Nat), k + d = n →
      ((AnyErr.run K sched m (AnyErr n kids)).pc = AggPc.cancelling k →
        (AnyErr.run K sched (m + d + 1) (AnyErr n kids)).pc = AggPc.draining 0)
      ∧ ((AnyErr.run K sched m (AnyErr n kids)).pc = AggPc.panicking (Deferred.cancelling k) →
        (AnyErr.run K sched (m + d + 1) (AnyErr n kids)).pc =
          AggPc.panicking (Deferred.draining 0)) := by
  intro d
  induction d with
  | zero =>
    intro m k hk
    have hn := (AnyErr_run_cancelOrder K sched n kids m).2
    constructor <;> intro hpc
    · show (AnyErr.step K _ _ (AnyErr.run K sched m (AnyErr n kids))).pc = _
      have hge : ¬ k < n := by omega
      simp [AnyErr.step, hpc, hn, hge]
    · show (AnyErr.step K _ _ (AnyErr.run K sched m (AnyErr n kids))).pc = _
      have hge : ¬ k < n := by omega
      simp [AnyErr.step, hpc, hn, hge]
  | succ d ih =>
    intro m k hk
    have hn := (AnyErr_run_cancelOrder K sched n kids m).2
    have hm : m + (d + 1) + 1 = (m + 1) + d + 1 := by omega
    have hlt : k < n := by omega
    rw [hm]
    constructor <;> intro hpc
    · refine (ih (m + 1) (k + 1) (by omega)).1 ?_
      show (AnyErr.step K _ _ (AnyErr.run K sched m (AnyErr n kids))).pc = _
      simp [AnyErr.step, hpc, hn, hlt]
    · refine (ih (m + 1) (k + 1) (by omega)).2 ?_
      show (AnyErr.step K _ _ (AnyErr.run K sched m (AnyErr n kids))).pc = _
      simp [AnyErr.step, hpc, hn, hlt]

/-- C16, for `AllErr` and `AnyErr` over `n` children alike.
(1) The `Cancel` of the returned handle calls `Cancel` on child 0 to child `n - 1`;
the children are left as these calls make them, and with supervised loops as
children the context of every child is cancelled.
(2) At every step of the aggregating goroutine, for any children and any
schedule: no `Cancel` is called before the first selection has returned; the
deferred `ret.Cancel()`, once entered (on return or in a panic), has returned
`n + 1` steps later; and once it has returned (the goroutine is in its drain, at
the close, or gone) the events are those of the first selection (a closed
channel, or a value and its forwarding, or a nil value on which the type
assertion panics), then the `n` calls `Cancel` of child 0 to child `n - 1`, then
everything else, with no further call of `Cancel`: every receive of the drain
and the close of `ret.Err` come after the calls.
(3) At every step the children are exactly what the recorded receives and calls
of `Cancel` make of the children the goroutine started with: every recorded
call is made on the child.
(4) With supervised loops as children that run alongside, under every schedule:
once the deferred `ret.Cancel()` has returned, all `n` loops are still there and
the context of each is cancelled. -/
theorem C16_cancel_reaches_every_child {κ : Type} (K : Kids κ ε)
    (sched : Nat → Nat × Bool) (n : Nat) (kids : κ) (m : Nat) :
    (cancels (AllErr.Cancel K n kids).2 = List.range n
      ∧ (AllErr.Cancel K n kids).1 = replay K (AllErr.Cancel K n kids).2 kids
      ∧ cancels (AnyErr.Cancel K n kids).2 = List.range n
      ∧ (AnyErr.Cancel K n kids).1 = replay K (AnyErr.Cancel K n kids).2 kids)
    ∧ (∀ (ks : List (Kid σ ε)) (i : Nat) (k : Kid σ ε), i < ks.length →
        ((AllErr.Cancel loopKids ks.length ks).1[i]? = some k → k.cancelled = true)
        ∧ ((AnyErr.Cancel loopKids ks.length ks).1[i]? = some k → k.cancelled = true))
    ∧ (((AllErr.run K sched m (AllErr n kids)).pc = AggPc.first
          ∨ ∃ v, (AllErr.run K sched m (AllErr n kids)).pc = AggPc.forward v) →
        cancels (AllErr.run K sched m (AllErr n kids)).events = [])
    ∧ (((AnyErr.run K sched m (AnyErr n kids)).pc = AggPc.first
          ∨ ∃ v, (AnyErr.run K sched m (AnyErr n kids)).pc = AggPc.forward v) →
        cancels (AnyErr.run K sched m (AnyErr n kids)).events = [])
    ∧ (((AllErr.run K sched m (AllErr n kids)).pc = AggPc.cancelling 0 →
          (AllErr.run K sched (m + n + 1) (AllErr n kids)).pc = AggPc.draining 0)
      ∧ ((AllErr.run K sched m (AllErr n kids)).pc = AggPc.panicking (Deferred.cancelling 0) →
          (AllErr.run K sched (m + n + 1) (AllErr n kids)).pc =
            AggPc.panicking (Deferred.draining 0))
      ∧ ((AnyErr.run K sched m (AnyErr n kids)).pc = AggPc.cancelling 0 →
          (AnyErr.run K sched (m + n + 1) (AnyErr n kids)).pc = AggPc.draining 0)
      ∧ ((AnyErr.run K sched m (AnyErr n kids)).pc = AggPc.panicking (Deferred.cancelling 0) →
          (AnyErr.run K sched (m + n + 1) (AnyErr n kids)).pc =
            AggPc.panicking (Deferred.draining 0)))
    ∧ ((AllErr.run K sched m (AllErr n kids)).pc.afterCancel = true →
        ∃ pre post, firstPath pre
          ∧ (AllErr.run K sched m (AllErr n kids)).events =
              pre ++ (List.range n).map AggEvent.cancel ++ post
          ∧ cancels post = [])
    ∧ ((AnyErr.run K sched m (AnyErr n kids)).pc.afterCancel = true →
        ∃ pre post, firstPath pre
          ∧ (AnyErr.run K sched m (AnyErr n kids)).events =
              pre ++ (List.range n).map AggEvent.cancel ++ post
          ∧ cancels post = [])
    ∧ ((AllErr.run K sched m (AllErr n kids)).kids =
          replay K (AllErr.run K sched m (AllErr n kids)).events kids
      ∧ (AnyErr.run K sched m (AnyErr n kids)).kids =
          replay K (AnyErr.run K sched m (AnyErr n kids)).events kids)
    ∧ (∀ (ks : List (Kid σ ε)) (acts : Nat → Act),
        ((AllErr.systemRun acts m (AllErr ks.length ks)).kids.length = ks.length
          ∧ ((AllErr.systemRun acts m (AllErr ks.length ks)).pc.afterCancel = true →
            ∀ (i : Nat) (k : Kid σ ε), i < ks.length →
              (AllErr.systemRun acts m (AllErr ks.length ks)).kids[i]? = some k →
              k.cancelled = true))
        ∧ ((AnyErr.systemRun acts m (AnyErr ks.length ks)).kids.length = ks.length
          ∧ ((AnyErr.systemRun acts m (AnyErr ks.length ks)).pc.afterCancel = true →
            ∀ (i : Nat) (k : Kid σ ε), i < ks.length →
              (AnyErr.systemRun acts m (AnyErr ks.length ks)).kids[i]? = some k →
              k.cancelled = true))) := by
  have hall := AllErr_run_cancelOrder K sched n kids m
  have hany := AnyErr_run_cancelOrder K sched n kids m
  refine ⟨⟨by simp [AllErr.Cancel], by simp [AllErr.Cancel, replay_map_cancel],
      by simp [AnyErr.Cancel], by simp [AnyErr.Cancel, replay_map_cancel]⟩,
    ?_, cancelOrder_before _ hall.1, cancelOrder_before _ hany.1, ?_, ?_, ?_,
    ⟨AllErr_run_replay K sched n kids m, AnyErr_run_replay K sched n kids m⟩, ?_⟩
  · intro ks i k hi
    exact ⟨fun h => foldl_cancel_loopKids ks ks.length i k h hi,
      fun h => foldl_cancel_loopKids ks ks.length i k h hi⟩
  · have h1 := AllErr_cancel_completes K sched n kids n m 0 (by omega)
    have h2 := AnyErr_cancel_completes K sched n kids n m 0 (by omega)
    exact ⟨h1.1, h1.2, h2.1, h2.2⟩
  · intro hpc
    have := cancelOrder_after _ hall.1 hpc
    rwa [hall.2] at this
  · intro hpc
    have := cancelOrder_after _ hany.1 hpc
    rwa [hany.2] at this
  · intro ks acts
    obtain ⟨a1, a2, a3, a4⟩ := AllErr_system_inv ks acts m
    obtain ⟨b1, b2, b3, b4⟩ := AnyErr_system_inv ks acts m
    exact ⟨⟨a3, fun hpc i k hi hk => all_cancelled_after _ a1 a4 hpc i k (by rw [a2]; exact hi) hk⟩,
      ⟨b3, fun hpc i k hi hk => all_cancelled_after _ b1 b4 hpc i k (by rw [b2]; exact hi) hk⟩⟩

/-! ## C13: `AllErr` forwards one value per child -/

/-- The case favoured by `reflect.Select` is one of the cases. -/
theorem pick_mem (cases : List Nat) (pick : Nat) (h : cases ≠ []) :
    cases.getD (pick % cases.length) 0 ∈ cases := by
  have hlen : 0 < cases.length := List.length_pos.mpr h
  have hlt : pick % cases.length < cases.length := Nat.mod_lt _ hlen
  rw [List.getD_eq_getElem _ _ hlt]
  exact List.getElem_mem _

/-- Removing a case removes nothing but the case at that position. -/
theorem mem_eraseIdx_of_ne (l : List Nat) (i x : Nat) (hx : x ∈ l) (hne : x ≠ l.getD i 0) :
    x ∈ l.eraseIdx i := by
  rw [List.mem_eraseIdx_iff_getElem?]
  obtain ⟨j, hj⟩ := List.mem_iff_getElem?.mp hx
  refine ⟨j, ?_, hj⟩
  intro hji
  subst hji
  apply hne
  simp [hj]

/-- The invariant of `AllErr` is kept by every step of its goroutine. -/
theorem AllErr_step_inv (v : Nat → ε) (pick : Nat) (r : Bool) (s : Agg (Nat → Chan ε) ε)
    (R : List Nat) (h : AllInv v s R) :
    ∃ R1, AllInv v (AllErr.step chanKids pick r s) R1 := by
  have hsent := h.sent
  unfold AllErr.step
  cases hpc : s.pc with
  | first =>
    simp only [AllSent, hpc] at hsent
    obtain ⟨hR, hout, hcases⟩ := hsent
    subst hR
    simp only []
    by_cases hc : s.cases = []
    · rw [if_pos hc]
      exact ⟨[], h⟩
    · have hmem := pick_mem s.cases pick hc
      have hk := h.kidsOpen _ (List.not_mem_nil (s.cases.getD (pick % s.cases.length) 0))
      have hpeek : chanKids.peek s.kids (s.cases.getD (pick % s.cases.length) 0) =
          some (Recv.value (some (v (s.cases.getD (pick % s.cases.length) 0)))) := by
        simp only [chanKids, hk]
      simp only [hc, if_false, hpeek]
      generalize s.cases.getD (pick % s.cases.length) 0 = c at hmem hk
      refine ⟨[c], ?_⟩
      constructor
      · intro c1 hc1
        have hne : c1 ≠ c := by simpa using hc1
        simp only [chanKids, hne, if_false]
        exact h.kidsOpen c1 (List.not_mem_nil c1)
      · intro c1 hc1
        have heq : c1 = c := by simpa using hc1
        simp [chanKids, heq]
      · simp
      · intro c1 hc1
        have heq : c1 = c := by simpa using hc1
        rw [heq]
        exact h.memCases c hmem
      · exact h.nodupCases
      · exact h.memCases
      · intro c1 h1 h2
        exact absurd (h.gone c1 h1 h2) (List.not_mem_nil c1)
      · simp only [AllSent]
        exact ⟨[], c, rfl, rfl, by simp [outs, hout]⟩
  | forward x =>
    simp only [AllSent, hpc] at hsent
    obtain ⟨R0, c, hR, hx, hout⟩ := hsent
    subst hx
    simp only []
    cases r with
    | false =>
      simp only [Bool.false_eq_true, if_false]
      exact ⟨R, h⟩
    | true =>
      simp only [if_true]
      refine ⟨R, ⟨h.kidsOpen, h.kidsClosed, h.nodupR, h.memR, h.nodupCases, h.memCases, h.gone, ?_⟩⟩
      simp only [AllSent]
      rw [hR]
      simp [outs, hout]
  | cancelling k =>
    simp only [AllSent, hpc] at hsent
    simp only []
    by_cases hk : k < s.n
    · simp only [hk, if_true]
      refine ⟨R, ⟨h.kidsOpen, h.kidsClosed, h.nodupR, h.memR, h.nodupCases, h.memCases, h.gone, ?_⟩⟩
      simp only [AllSent]
      simp [outs, hsent]
    · simp only [hk, if_false]
      refine ⟨R, ⟨h.kidsOpen, h.kidsClosed, h.nodupR, h.memR, h.nodupCases, h.memCases, h.gone, ?_⟩⟩
      simp only [AllSent]
      exact hsent
  | draining i =>
    simp only [AllSent, hpc] at hsent
    simp only []
    by_cases hc : s.cases = []
    · rw [if_pos hc]
      refine ⟨R, ⟨h.kidsOpen, h.kidsClosed, h.nodupR, h.memR, h.nodupCases, h.memCases, h.gone, ?_⟩⟩
      simp only [AllSent]
      exact ⟨hc, hsent⟩
    · have hmem := pick_mem s.cases pick hc
      by_cases hin : s.cases.getD (pick % s.cases.length) 0 ∈ R
      · have hk := h.kidsClosed _ hin
        have hpeek : chanKids.peek s.kids (s.cases.getD (pick % s.cases.length) 0) =
            some Recv.closed := by
          simp only [chanKids, hk]
        simp only [hc, if_false, hpeek]
        refine ⟨R, ⟨h.kidsOpen, h.kidsClosed, h.nodupR, h.memR, ?_, ?_, ?_, ?_⟩⟩
        · exact h.nodupCases.eraseIdx _
        · intro c1 hc1
          exact h.memCases c1 (List.mem_of_mem_eraseIdx hc1)
        · intro c1 h1 h2
          by_cases h3 : c1 ∈ s.cases
          · by_cases h4 : c1 = s.cases.getD (pick % s.cases.length) 0
            · rw [h4]; exact hin
            · exact absurd (mem_eraseIdx_of_ne s.cases _ c1 h3 h4) h2
          · exact h.gone c1 h1 h3
        · simp only [AllSent]
          simp [outs, hsent]
      · have hk := h.kidsOpen _ hin
        have hpeek : chanKids.peek s.kids (s.cases.getD (pick % s.cases.length) 0) =
            some (Recv.value (some (v (s.cases.getD (pick % s.cases.length) 0)))) := by
          simp only [chanKids, hk]
        simp only [hc, if_false, hpeek]
        generalize s.cases.getD (pick % s.cases.length) 0 = c at hmem hk hin
        refine ⟨R ++ [c], ?_⟩
        constructor
        · intro c1 hc1
          have hne : c1 ≠ c := by
            intro heq
            apply hc1
            simp [heq]
          have hnot : c1 ∉ R := fun hx => hc1 (List.mem_append_left _ hx)
          simp only [chanKids, hne, if_false]
          exact h.kidsOpen c1 hnot
        · intro c1 hc1
          by_cases heq : c1 = c
          · simp [chanKids, heq]
          · have : c1 ∈ R := by
              rcases List.mem_append.mp hc1 with hx | hx
              · exact hx
              · exact absurd (by simpa using hx) heq
            simp only [chanKids, heq, if_false]
            exact h.kidsClosed c1 this
        · rw [List.nodup_append]
          refine ⟨h.nodupR, by simp, ?_⟩
          intro a ha hb
          have : a = c := by simpa using hb
          exact hin (this ▸ ha)
        · intro c1 hc1
          rcases List.mem_append.mp hc1 with hx | hx
          · exact h.memR c1 hx
          · have : c1 = c := by simpa using hx
            rw [this]
            exact h.memCases c hmem
        · exact h.nodupCases
        · exact h.memCases
        · intro c1 h1 h2
          exact List.mem_append_left _ (h.gone c1 h1 h2)
        · simp only [AllSent]
          exact ⟨R, c, rfl, rfl, by simp [outs, hsent]⟩
  | reforward x =>
    simp only [AllSent, hpc] at hsent
    obtain ⟨R0, c, hR, hx, hout⟩ := hsent
    subst hx
    simp only []
    cases r with
    | false =>
      simp only [Bool.false_eq_true, if_false]
      exact ⟨R, h⟩
    | true =>
      simp only [if_true]
      refine ⟨R, ⟨h.kidsOpen, h.kidsClosed, h.nodupR, h.memR, h.nodupCases, h.memCases, h.gone, ?_⟩⟩
      simp only [AllSent]
      rw [hR]
      simp [outs, hout]
  | closing =>
    simp only [AllSent, hpc] at hsent
    refine ⟨R, ⟨h.kidsOpen, h.kidsClosed, h.nodupR, h.memR, h.nodupCases, h.memCases, h.gone, ?_⟩⟩
    simp only [AllSent]
    exact ⟨hsent.1, by simp [outs, hsent.2]⟩
  | finished => exact ⟨R, h⟩
  | panicking u =>
    simp only [AllSent, hpc] at hsent
  | panicked =>
    simp only [AllSent, hpc] at hsent

/-- Closing a channel that is not among the cases leaves the work alone. -/
theorem work_close_other (kids : Nat → Chan ε) (c : Nat) :
    ∀ cases : List Nat, c ∉ cases →
      work (fun j => if j = c then Chan.closed else kids j) cases = work kids cases := by
  intro cases
  induction cases with
  | nil => intro _; rfl
  | cons a cs ih =>
    intro h
    have h1 : a ≠ c := fun e => h (by simp [e])
    have h2 : c ∉ cs := fun e => h (by simp [e])
    simp only [work, h1, if_false, ih h2]

/-- Receiving the value of one of the cases saves two steps of work. -/
theorem work_close (kids : Nat → Chan ε) (c : Nat) (x : Option ε)
    (hk : kids c = Chan.offering x) :
    ∀ cases : List Nat, c ∈ cases → cases.Nodup →
      work (fun j => if j = c then Chan.closed else kids j) cases + 2 = work kids cases := by
  intro cases
  induction cases with
  | nil => intro h _; simp at h
  | cons a cs ih =>
    intro h hnd
    have hnd2 := List.nodup_cons.mp hnd
    by_cases hac : a = c
    · subst hac
      simp only [work, if_true, hk, work_close_other kids a cs hnd2.1]
      omega
    · have hin : c ∈ cs := by
        rcases List.mem_cons.mp h with e | e
        · exact absurd e.symm hac
        · exact e
      have := ih hin hnd2.2
      simp only [work, hac, if_false]
      omega

/-- Removing a case whose channel is closed saves one step of work. -/
theorem work_eraseIdx (kids : Nat → Chan ε) :
    ∀ (cases : List Nat) (idx : Nat), idx < cases.length →
      kids (cases.getD idx 0) = Chan.closed →
      work kids (cases.eraseIdx idx) + 1 = work kids cases := by
  intro cases
  induction cases with
  | nil => intro idx h _; simp at h
  | cons a cs ih =>
    intro idx h hk
    cases idx with
    | zero =>
      simp only [List.getD_cons_zero] at hk
      simp only [List.eraseIdx_cons_zero, work, hk]
      omega
    | succ i =>
      simp only [List.getD_cons_succ] at hk
      have := ih i (by simpa using h) hk
      simp only [List.eraseIdx_cons_succ, work]
      omega

/-- With every channel still offering its value the work is three steps per case. -/
theorem work_offeringAll (v : Nat → ε) (cases : List Nat) :
    work (offeringAll v) cases = 3 * cases.length := by
  induction cases with
  | nil => rfl
  | cons a cs ih => simp only [work, offeringAll, ih, List.length_cons]; omega

/-- With a receiver ready, every step of the goroutine of `AllErr` over at least one
child brings it closer to its return. -/
theorem AllErr_step_progress (v : Nat → ε) (pick : Nat) (s : Agg (Nat → Chan ε) ε)
    (R : List Nat) (h : AllInv v s R) (hn : 1 ≤ s.n) (hpc : s.pc ≠ AggPc.finished) :
    AllErr.stepsLeft (AllErr.step chanKids pick true s) < AllErr.stepsLeft s := by
  have hsent := h.sent
  unfold AllErr.step
  cases hp : s.pc with
  | first =>
    simp only [AllSent, hp] at hsent
    obtain ⟨hR, _, hcases⟩ := hsent
    subst hR
    have hc : s.cases ≠ [] := by
      rw [hcases]
      intro e
      have := congrArg List.length e
      simp at this
      omega
    have hmem := pick_mem s.cases pick hc
    have hk := h.kidsOpen _ (List.not_mem_nil (s.cases.getD (pick % s.cases.length) 0))
    have hpeek : chanKids.peek s.kids (s.cases.getD (pick % s.cases.length) 0) =
        some (Recv.value (some (v (s.cases.getD (pick % s.cases.length) 0)))) := by
      simp only [chanKids, hk]
    simp only [hc, if_false, hpeek]
    have hw := work_close s.kids _ _ hk s.cases hmem h.nodupCases
    simp only [AllErr.stepsLeft, hp, chanKids]
    omega
  | forward x =>
    simp only [AllSent, hp] at hsent
    obtain ⟨R0, c, hR, hx, hout⟩ := hsent
    subst hx
    simp only [if_true, AllErr.stepsLeft, hp]
    omega
  | cancelling k =>
    simp only []
    by_cases hk : k < s.n
    · simp only [hk, if_true, AllErr.stepsLeft, hp, chanKids]
      omega
    · simp only [hk, if_false, AllErr.stepsLeft, hp]
      omega
  | draining i =>
    simp only [AllSent, hp] at hsent
    simp only []
    by_cases hc : s.cases = []
    · rw [if_pos hc]
      simp only [AllErr.stepsLeft, hp]
      omega
    · have hmem := pick_mem s.cases pick hc
      have hlt : pick % s.cases.length < s.cases.length :=
        Nat.mod_lt _ (List.length_pos.mpr hc)
      by_cases hin : s.cases.getD (pick % s.cases.length) 0 ∈ R
      · have hk := h.kidsClosed _ hin
        have hpeek : chanKids.peek s.kids (s.cases.getD (pick % s.cases.length) 0) =
            some Recv.closed := by
          simp only [chanKids, hk]
        simp only [hc, if_false, hpeek]
        have hw := work_eraseIdx s.kids s.cases _ hlt hk
        simp only [AllErr.stepsLeft, hp]
        omega
      · have hk := h.kidsOpen _ hin
        have hpeek : chanKids.peek s.kids (s.cases.getD (pick % s.cases.length) 0) =
            some (Recv.value (some (v (s.cases.getD (pick % s.cases.length) 0)))) := by
          simp only [chanKids, hk]
        simp only [hc, if_false, hpeek]
        have hw := work_close s.kids _ _ hk s.cases hmem h.nodupCases
        simp only [AllErr.stepsLeft, hp, chanKids]
        omega
  | reforward x =>
    simp only [AllSent, hp] at hsent
    obtain ⟨R0, c, hR, hx, hout⟩ := hsent
    subst hx
    simp only [if_true, AllErr.stepsLeft, hp]
    omega
  | closing =>
    simp only [AllErr.stepsLeft, hp]
    omega
  | finished => exact absurd hp hpc
  | panicking u =>
    simp only [AllSent, hp] at hsent
  | panicked =>
    simp only [AllSent, hp] at hsent

/-- The invariant of `AllErr` holds along every run from the start. -/
theorem AllErr_run_inv (v : Nat → ε) (K : Nat) (sched : Nat → Nat × Bool) (m : Nat) :
    (∃ R, AllInv v (AllErr.run chanKids sched m (AllErr K (offeringAll v))) R)
    ∧ (AllErr.run chanKids sched m (AllErr K (offeringAll v))).n = K := by
  induction m with
  | zero =>
    refine ⟨⟨[], ?_⟩, rfl⟩
    constructor
    · intro c _; rfl
    · intro c hc; simp at hc
    · simp
    · intro c hc; simp at hc
    · exact List.nodup_range K
    · intro c hc; exact List.mem_range.mp hc
    · intro c h1 h2; exact absurd (List.mem_range.mpr h1) h2
    · exact ⟨rfl, rfl, rfl⟩
  | succ m ih =>
    obtain ⟨⟨R, hR⟩, hn⟩ := ih
    exact ⟨AllErr_step_inv v _ _ _ R hR, by rw [AllErr.run, AllErr_step_n, hn]⟩

/-- With a receiver always ready, the goroutine of `AllErr` over `K ≥ 1` children has
returned, or has used up as many of its `4 * K + 5` steps as it has made. -/
theorem AllErr_run_progress (v : Nat → ε) (K : Nat) (hK : 1 ≤ K) (sched : Nat → Nat × Bool)
    (hready : ∀ k, (sched k).2 = true) (m : Nat) :
    (AllErr.run chanKids sched m (AllErr K (offeringAll v))).pc = AggPc.finished
    ∨ AllErr.stepsLeft (AllErr.run chanKids sched m (AllErr K (offeringAll v))) + m
        ≤ 4 * K + 5 := by
  induction m with
  | zero =>
    right
    simp only [AllErr.run, AllErr, AllErr.stepsLeft, work_offeringAll, List.length_range]
    omega
  | succ m ih =>
    obtain ⟨⟨R, hR⟩, hn⟩ := AllErr_run_inv v K sched m
    rcases ih with hfin | hle
    · left
      simp only [AllErr.run]
      generalize AllErr.run chanKids sched m (AllErr K (offeringAll v)) = s at hfin
      simp [AllErr.step, hfin]
    · by_cases hfin : (AllErr.run chanKids sched m (AllErr K (offeringAll v))).pc
          = AggPc.finished
      · left
        simp only [AllErr.run]
        generalize AllErr.run chanKids sched m (AllErr K (offeringAll v)) = s at hfin
        simp [AllErr.step, hfin]
      · right
        have := AllErr_step_progress v (sched m).1 _ R hR (by omega) hfin
        simp only [AllErr.run, hready m]
        omega

/-- C13: for `K ≥ 1` children whose `Err` channels each deliver one non-nil value `v c`
and are then closed, whatever case `reflect.Select` favours at each selection:
(1) whenever the goroutine of `AllErr` has returned, `ret.Err` has carried exactly
`K` values followed by the close, namely the values of the children in some order
in which every child occurs exactly once; (2) at every moment the values carried
so far are those of distinct children; (3) with a receiver that is always ready
the goroutine has returned after at most `4 * K + 5` steps. -/
theorem C13_AllErr_yields_one_value_per_child (K : Nat) (hK : 1 ≤ K) (v : Nat → ε)
    (sched : Nat → Nat × Bool) :
    (∀ m, (AllErr.run chanKids sched m (AllErr K (offeringAll v))).pc = AggPc.finished →
      ∃ order : List Nat, order.Perm (List.range K)
        ∧ outs (AllErr.run chanKids sched m (AllErr K (offeringAll v))).events =
            order.map (fun c => ChanOp.send (some (v c))) ++ [ChanOp.close])
    ∧ (∀ m, ∃ order : List Nat, order.Nodup ∧ (∀ c, c ∈ order → c < K)
        ∧ (outs (AllErr.run chanKids sched m (AllErr K (offeringAll v))).events =
              order.map (fun c => ChanOp.send (some (v c)))
          ∨ outs (AllErr.run chanKids sched m (AllErr K (offeringAll v))).events =
              order.map (fun c => ChanOp.send (some (v c))) ++ [ChanOp.close]))
    ∧ ((∀ k, (sched k).2 = true) → ∀ m, 4 * K + 5 ≤ m →
        (AllErr.run chanKids sched m (AllErr K (offeringAll v))).pc = AggPc.finished) := by
  refine ⟨?_, ?_, ?_⟩
  · intro m hfin
    obtain ⟨⟨R, hR⟩, hn⟩ := AllErr_run_inv v K sched m
    have hsent := hR.sent
    simp only [AllSent, hfin] at hsent
    refine ⟨R, ?_, hsent.2⟩
    rw [List.perm_ext_iff_of_nodup hR.nodupR (List.nodup_range K)]
    intro c
    constructor
    · intro hc
      have h1 := hR.memR c hc
      rw [hn] at h1
      exact List.mem_range.mpr h1
    · intro hc
      have h1 : c < K := List.mem_range.mp hc
      apply hR.gone c (by rw [hn]; exact h1)
      rw [hsent.1]
      simp
  · intro m
    obtain ⟨⟨R, hR⟩, hn⟩ := AllErr_run_inv v K sched m
    have hsent := hR.sent
    have hmem : ∀ c, c ∈ R → c < K := by
      intro c hc
      have h1 := hR.memR c hc
      rw [hn] at h1
      exact h1
    cases hpc : (AllErr.run chanKids sched m (AllErr K (offeringAll v))).pc with
    | first =>
      simp only [AllSent, hpc] at hsent
      exact ⟨[], by simp, by simp, Or.inl (by simp [hsent.2.1])⟩
    | forward x =>
      simp only [AllSent, hpc] at hsent
      obtain ⟨R0, c, hR0, _, hout⟩ := hsent
      have hnd := hR.nodupR
      rw [hR0] at hnd
      exact ⟨R0, (List.nodup_append.mp hnd).1,
        fun c hc => hmem c (by rw [hR0]; exact List.mem_append_left _ hc), Or.inl hout⟩
    | reforward x =>
      simp only [AllSent, hpc] at hsent
      obtain ⟨R0, c, hR0, _, hout⟩ := hsent
      have hnd := hR.nodupR
      rw [hR0] at hnd
      exact ⟨R0, (List.nodup_append.mp hnd).1,
        fun c hc => hmem c (by rw [hR0]; exact List.mem_append_left _ hc), Or.inl hout⟩
    | cancelling k =>
      simp only [AllSent, hpc] at hsent
      exact ⟨R, hR.nodupR, hmem, Or.inl hsent⟩
    | draining i =>
      simp only [AllSent, hpc] at hsent
      exact ⟨R, hR.nodupR, hmem, Or.inl hsent⟩
    | closing =>
      simp only [AllSent, hpc] at hsent
      exact ⟨R, hR.nodupR, hmem, Or.inl hsent.2⟩
    | finished =>
      simp only [AllSent, hpc] at hsent
      exact ⟨R, hR.nodupR, hmem, Or.inr hsent.2⟩
    | panicking u =>
      simp only [AllSent, hpc] at hsent
    | panicked =>
      simp only [AllSent, hpc] at hsent
  · intro hready m hm
    rcases AllErr_run_progress v K hK sched hready m with hfin | hle
    · exact hfin
    · by_contra hne
      obtain ⟨⟨R, hR⟩, _⟩ := AllErr_run_inv v K sched m
      have hsent := hR.sent
      have hpos : 1 ≤ AllErr.stepsLeft
          (AllErr.run chanKids sched m (AllErr K (offeringAll v))) := by
        generalize AllErr.run chanKids sched m (AllErr K (offeringAll v)) = s at hne hsent ⊢
        cases hpc : s.pc <;> simp only [AllErr.stepsLeft, hpc] <;> try omega
        · exact absurd hpc hne
        · simp only [AllSent, hpc] at hsent
        · simp only [AllSent, hpc] at hsent
      omega

/-! ## C14: `AnyErr` forwards one value -/

/-- The first event of a list stays the first when events are appended. -/
theorem head?_append_some {α : Type} (l l2 : List α) (a : α) (h : l.head? = some a) :
    (l ++ l2).head? = some a := by
  cases l with
  | nil => simp at h
  | cons x xs => simpa using h

/-- Draining one more child drops its value unless it is the child received first. -/
theorem dropped_succ (v : Nat → ε) (c0 j : Nat) :
    dropped v c0 (j + 1) =
      dropped v c0 j ++ (if j = c0 then [] else [(j, some (v j))]) := by
  simp only [dropped, List.range_succ, List.filter_append, List.map_append]
  by_cases h : j = c0
  · simp [h]
  · simp [h]

/-- The invariant of `AnyErr` is kept by every step of its goroutine. -/
theorem AnyErr_step_inv (v : Nat → ε) (pick : Nat) (r : Bool) (s : Agg (Nat → Chan ε) ε)
    (h : AnyInv v s) : AnyInv v (AnyErr.step chanKids pick r s) := by
  unfold AnyErr.step
  cases hpc : s.pc with
  | first =>
    simp only [AnyInv, hpc] at h
    obtain ⟨hev, hcases, hkids⟩ := h
    simp only []
    by_cases hc : s.cases = []
    · rw [if_pos hc]
      simp only [AnyInv, hpc]
      exact ⟨hev, hcases, hkids⟩
    · have hmem := pick_mem s.cases pick hc
      have hlt : s.cases.getD (pick % s.cases.length) 0 < s.n :=
        List.mem_range.mp (by rw [← hcases]; exact hmem)
      have hpeek : chanKids.peek s.kids (s.cases.getD (pick % s.cases.length) 0) =
          some (Recv.value (some (v (s.cases.getD (pick % s.cases.length) 0)))) := by
        simp only [chanKids, hkids, offeringAll]
      simp only [hc, if_false, hpeek]
      generalize s.cases.getD (pick % s.cases.length) 0 = c at hmem hlt
      simp only [AnyInv]
      refine ⟨c, hlt, rfl, by simp [hev], by simp [hev, outs], by simp [hev, discards], ?_⟩
      intro c1
      simp only [chanKids, hkids, offeringAll, Nat.not_lt_zero, or_false]
  | forward x =>
    simp only [AnyInv, hpc] at h
    obtain ⟨c0, h0, hx, hhead, hout, hdis, hk⟩ := h
    subst hx
    simp only []
    cases r with
    | false =>
      simp only [Bool.false_eq_true, if_false, AnyInv, hpc]
      exact ⟨c0, h0, rfl, hhead, hout, hdis, hk⟩
    | true =>
      simp only [if_true, AnyInv]
      exact ⟨c0, h0, head?_append_some _ _ _ hhead, by simp [outs, hout],
        by simp [discards, hdis], hk⟩
  | cancelling k =>
    simp only [AnyInv, hpc] at h
    obtain ⟨c0, h0, hhead, hout, hdis, hk⟩ := h
    simp only []
    by_cases hlt : k < s.n
    · simp only [hlt, if_true, AnyInv]
      exact ⟨c0, h0, head?_append_some _ _ _ hhead, by simp [outs, hout],
        by simp [discards, hdis], hk⟩
    · simp only [hlt, if_false, AnyInv]
      exact ⟨c0, 0, h0, Nat.zero_le _, Or.inl rfl, hhead, hout, by simp [hdis, dropped], hk⟩
  | draining i =>
    simp only [AnyInv, hpc] at h
    obtain ⟨c0, j, h0, hi, hj, hhead, hout, hdis, hk⟩ := h
    simp only []
    by_cases hlt : i < s.n
    · simp only [hlt, if_true]
      by_cases hcl : i = c0 ∨ i < j
      · have hki : s.kids i = Chan.closed := by rw [hk i]; simp [hcl]
        have hpeek : chanKids.peek s.kids i = some Recv.closed := by
          simp only [chanKids, hki]
        simp only [hpeek, AnyInv]
        refine ⟨c0, i + 1, h0, hlt, Or.inl rfl, hhead, hout, ?_, ?_⟩
        · rcases hj with hj | ⟨hj, _, _⟩
          · have hic : i = c0 := by
              rcases hcl with e | e
              · exact e
              · omega
            rw [dropped_succ, hdis, hj]
            simp [hic]
          · rw [hdis, hj]
        · rcases hj with hj | ⟨hj, _, _⟩
          · have hic : i = c0 := by
              rcases hcl with e | e
              · exact e
              · omega
            intro c
            rw [hk c, hj]
            by_cases e1 : c = c0
            · simp [e1]
            · have : (c < i + 1) = (c < i) := by
                apply propext
                constructor
                · intro hh
                  have : c ≠ i := fun e => e1 (e.trans hic)
                  omega
                · intro hh; omega
              simp only [e1, false_or, this]
          · rw [← hj]; exact hk
      · have hki : s.kids i = Chan.offering (some (v i)) := by rw [hk i]; simp [hcl]
        have hpeek : chanKids.peek s.kids i = some (Recv.value (some (v i))) := by
          simp only [chanKids, hki]
        have hji : j = i := by
          rcases hj with e | ⟨e, _, _⟩
          · exact e
          · exact absurd (Or.inr (by omega)) hcl
        have hne : i ≠ c0 := fun e => hcl (Or.inl e)
        simp only [hpeek, AnyInv, hpc]
        refine ⟨c0, i + 1, h0, hi, Or.inr ⟨rfl, hne, hlt⟩, head?_append_some _ _ _ hhead,
          by simp [outs, hout], ?_, ?_⟩
        · rw [dropped_succ, discards_append, hdis, hji]
          simp [hne, discards]
        · intro c
          simp only [chanKids]
          by_cases e1 : c = i
          · simp [e1]
          · rw [hk c, hji]
            have : (c < i + 1) = (c < i) := by
              apply propext
              constructor
              · intro hh; omega
              · intro hh; omega
            simp only [e1, if_false, this]
    · simp only [hlt, if_false, AnyInv]
      have hin : i = s.n := by omega
      have hji : j = s.n := by
        rcases hj with e | ⟨_, _, e⟩
        · omega
        · omega
      exact ⟨c0, h0, hhead, hout, by rw [hdis, hji]⟩
  | reforward x => simp only [AnyInv, hpc] at h
  | closing =>
    simp only [AnyInv, hpc] at h
    obtain ⟨c0, h0, hhead, hout, hdis⟩ := h
    simp only [AnyInv]
    exact ⟨c0, h0, head?_append_some _ _ _ hhead, by simp [outs, hout],
      by simp [discards, hdis]⟩
  | finished =>
    simp only [AnyInv, hpc] at h ⊢
    exact h
  | panicking u => simp only [AnyInv, hpc] at h
  | panicked => simp only [AnyInv, hpc] at h

/-- With a receiver ready, every step of the goroutine of `AnyErr` over at least one
child brings it closer to its return. -/
theorem AnyErr_step_progress (v : Nat → ε) (pick : Nat) (s : Agg (Nat → Chan ε) ε)
    (h : AnyInv v s) (hn : 1 ≤ s.n) (hpc : s.pc ≠ AggPc.finished) :
    AnyErr.stepsLeft (AnyErr.step chanKids pick true s) < AnyErr.stepsLeft s := by
  unfold AnyErr.step
  cases hp : s.pc with
  | first =>
    simp only [AnyInv, hp] at h
    obtain ⟨hev, hcases, hkids⟩ := h
    have hc : s.cases ≠ [] := by
      rw [hcases]
      intro e
      have := congrArg List.length e
      simp at this
      omega
    have hpeek : chanKids.peek s.kids (s.cases.getD (pick % s.cases.length) 0) =
        some (Recv.value (some (v (s.cases.getD (pick % s.cases.length) 0)))) := by
      simp only [chanKids, hkids, offeringAll]
    simp only [hc, if_false, hpeek, AnyErr.stepsLeft, hp]
    omega
  | forward x =>
    simp only [AnyInv, hp] at h
    obtain ⟨c0, h0, hx, _⟩ := h
    subst hx
    simp only [if_true, AnyErr.stepsLeft, hp]
    omega
  | cancelling k =>
    simp only []
    by_cases hk : k < s.n
    · simp only [hk, if_true, AnyErr.stepsLeft, hp]
      omega
    · simp only [hk, if_false, AnyErr.stepsLeft, hp]
      split
      · omega
      · omega
  | draining i =>
    simp only [AnyInv, hp] at h
    obtain ⟨c0, j, h0, hi, hj, hhead, hout, hdis, hk⟩ := h
    simp only []
    by_cases hlt : i < s.n
    · simp only [hlt, if_true]
      by_cases hcl : i = c0 ∨ i < j
      · have hki : s.kids i = Chan.closed := by rw [hk i]; simp [hcl]
        have hpeek : chanKids.peek s.kids i = some Recv.closed := by
          simp only [chanKids, hki]
        simp only [hpeek, AnyErr.stepsLeft, hp, hlt, if_true, hki]
        split
        · omega
        · omega
      · have hki : s.kids i = Chan.offering (some (v i)) := by rw [hk i]; simp [hcl]
        have hpeek : chanKids.peek s.kids i = some (Recv.value (some (v i))) := by
          simp only [chanKids, hki]
        simp only [hpeek, AnyErr.stepsLeft, hp, hlt, if_true, hki, chanKids]
        omega
    · simp only [hlt, if_false, AnyErr.stepsLeft, hp]
      omega
  | reforward x => simp only [AnyInv, hp] at h
  | closing =>
    simp only [AnyErr.stepsLeft, hp]
    omega
  | finished => exact absurd hp hpc
  | panicking u => simp only [AnyInv, hp] at h
  | panicked => simp only [AnyInv, hp] at h

/-- The invariant of `AnyErr` holds along every run from the start. -/
theorem AnyErr_run_inv (v : Nat → ε) (K : Nat) (sched : Nat → Nat × Bool) (m : Nat) :
    AnyInv v (AnyErr.run chanKids sched m (AnyErr K (offeringAll v)))
    ∧ (AnyErr.run chanKids sched m (AnyErr K (offeringAll v))).n = K := by
  induction m with
  | zero => exact ⟨⟨rfl, rfl, rfl⟩, rfl⟩
  | succ m ih =>
    exact ⟨AnyErr_step_inv v _ _ _ ih.1, by rw [AnyErr.run, AnyErr_step_n, ih.2]⟩

/-- With a receiver always ready, the goroutine of `AnyErr` over `K ≥ 1` children has
returned, or has used up as many of its `3 * K + 5` steps as it has made. -/
theorem AnyErr_run_progress (v : Nat → ε) (K : Nat) (hK : 1 ≤ K) (sched : Nat → Nat × Bool)
    (hready : ∀ k, (sched k).2 = true) (m : Nat) :
    (AnyErr.run chanKids sched m (AnyErr K (offeringAll v))).pc = AggPc.finished
    ∨ AnyErr.stepsLeft (AnyErr.run chanKids sched m (AnyErr K (offeringAll v))) + m
        ≤ 3 * K + 5 := by
  induction m with
  | zero =>
    right
    simp only [AnyErr.run, AnyErr, AnyErr.stepsLeft]
    omega
  | succ m ih =>
    obtain ⟨hI, hn⟩ := AnyErr_run_inv v K sched m
    by_cases hfin : (AnyErr.run chanKids sched m (AnyErr K (offeringAll v))).pc
        = AggPc.finished
    · left
      simp only [AnyErr.run]
      generalize AnyErr.run chanKids sched m (AnyErr K (offeringAll v)) = s at hfin
      simp [AnyErr.step, hfin]
    · right
      rcases ih with h1 | hle
      · exact absurd h1 hfin
      · have := AnyErr_step_progress v (sched m).1 _ hI (by omega) hfin
        simp only [AnyErr.run, hready m]
        omega

/-- C14: for `K ≥ 1` children whose `Err` channels each deliver one non-nil value `v c`
and are then closed, whatever case `reflect.Select` favours: (1) whenever the
goroutine of `AnyErr` has returned, `ret.Err` has carried exactly one value and then
the close; that value is the one of the child `c0` received in the first
selection, and the values of all other children have been received and dropped,
each once; (2) at every moment `ret.Err` has carried at most one value, which is
the value of a child; (3) with a receiver that is always ready the goroutine has
returned after at most `3 * K + 5` steps. -/
theorem C14_AnyErr_yields_exactly_one_value (K : Nat) (hK : 1 ≤ K) (v : Nat → ε)
    (sched : Nat → Nat × Bool) :
    (∀ m, (AnyErr.run chanKids sched m (AnyErr K (offeringAll v))).pc = AggPc.finished →
      ∃ c0, c0 < K
        ∧ (AnyErr.run chanKids sched m (AnyErr K (offeringAll v))).events.head? =
            some (AggEvent.selected c0 (Recv.value (some (v c0))))
        ∧ outs (AnyErr.run chanKids sched m (AnyErr K (offeringAll v))).events =
            [ChanOp.send (some (v c0)), ChanOp.close]
        ∧ discards (AnyErr.run chanKids sched m (AnyErr K (offeringAll v))).events =
            ((List.range K).filter (fun c => decide (c ≠ c0))).map (fun c => (c, some (v c))))
    ∧ (∀ m, outs (AnyErr.run chanKids sched m (AnyErr K (offeringAll v))).events = []
        ∨ ∃ c0, c0 < K
          ∧ (outs (AnyErr.run chanKids sched m (AnyErr K (offeringAll v))).events =
                [ChanOp.send (some (v c0))]
            ∨ outs (AnyErr.run chanKids sched m (AnyErr K (offeringAll v))).events =
                [ChanOp.send (some (v c0)), ChanOp.close]))
    ∧ ((∀ k, (sched k).2 = true) → ∀ m, 3 * K + 5 ≤ m →
        (AnyErr.run chanKids sched m (AnyErr K (offeringAll v))).pc = AggPc.finished) := by
  refine ⟨?_, ?_, ?_⟩
  · intro m hfin
    obtain ⟨hI, hn⟩ := AnyErr_run_inv v K sched m
    simp only [AnyInv, hfin] at hI
    obtain ⟨c0, h0, hhead, hout, hdis⟩ := hI
    rw [hn] at h0 hdis
    exact ⟨c0, h0, hhead, hout, hdis⟩
  · intro m
    obtain ⟨hI, hn⟩ := AnyErr_run_inv v K sched m
    cases hpc : (AnyErr.run chanKids sched m (AnyErr K (offeringAll v))).pc with
    | first =>
      simp only [AnyInv, hpc] at hI
      left
      simp [hI.1, outs]
    | forward x =>
      simp only [AnyInv, hpc] at hI
      obtain ⟨c0, _, _, _, hout, _⟩ := hI
      exact Or.inl hout
    | cancelling k =>
      simp only [AnyInv, hpc] at hI
      obtain ⟨c0, h0, _, hout, _⟩ := hI
      exact Or.inr ⟨c0, hn ▸ h0, Or.inl hout⟩
    | draining i =>
      simp only [AnyInv, hpc] at hI
      obtain ⟨c0, j, h0, _, _, _, hout, _⟩ := hI
      exact Or.inr ⟨c0, hn ▸ h0, Or.inl hout⟩
    | closing =>
      simp only [AnyInv, hpc] at hI
      obtain ⟨c0, h0, _, hout, _⟩ := hI
      exact Or.inr ⟨c0, hn ▸ h0, Or.inl hout⟩
    | finished =>
      simp only [AnyInv, hpc] at hI
      obtain ⟨c0, h0, _, hout, _⟩ := hI
      exact Or.inr ⟨c0, hn ▸ h0, Or.inr hout⟩
    | reforward x => simp only [AnyInv, hpc] at hI
    | panicking u => simp only [AnyInv, hpc] at hI
    | panicked => simp only [AnyInv, hpc] at hI
  · intro hready m hm
    rcases AnyErr_run_progress v K hK sched hready m with hfin | hle
    · exact hfin
    · by_contra hne
      obtain ⟨hI, hn⟩ := AnyErr_run_inv v K sched m
      have hpos : 1 ≤ AnyErr.stepsLeft
          (AnyErr.run chanKids sched m (AnyErr K (offeringAll v))) := by
        generalize AnyErr.run chanKids sched m (AnyErr K (offeringAll v)) = s at hne hI hn ⊢
        cases hpc : s.pc with
        | first => simp only [AnyErr.stepsLeft, hpc]; omega
        | forward x => simp only [AnyErr.stepsLeft, hpc]; omega
        | cancelling k => simp only [AnyErr.stepsLeft, hpc]; omega
        | draining i =>
          simp only [AnyErr.stepsLeft, hpc]
          split
          · split <;> omega
          · omega
        | closing => simp only [AnyErr.stepsLeft, hpc]; omega
        | finished => exact absurd hpc hne
        | reforward x => simp only [AnyInv, hpc] at hI
        | panicking u => simp only [AnyInv, hpc] at hI
        | panicked => simp only [AnyInv, hpc] at hI
      omega

/-! ## C17: `AllErr` over a never-failing and a failing loop -/

/-- A step of a child on its own keeps it waiting if it was. -/
theorem tick_waiting (k : Kid σ ε) (h : Waiting k) : Waiting k.tick := by
  unfold Waiting at *
  rcases h with h | h
  · by_cases he : k.loop.err.isNone = true
    · by_cases hc : k.cancelled = true
      · left; simp [Kid.tick, doInfiniteLooping.step, h, he, Kid.ctx, hc]
      · left; simp [Kid.tick, doInfiniteLooping.step, h, he, Kid.ctx, hc]
    · right; simp [Kid.tick, doInfiniteLooping.step, h, he]
  · right; simp [Kid.tick, doInfiniteLooping.step, h]

/-- A step of a child on its own keeps it delivered if it was. -/
theorem tick_delivered (k : Kid σ ε) (h : Delivered k) : Delivered k.tick := by
  unfold Delivered at *
  rcases h with h | h
  · right; simp [Kid.tick, doInfiniteLooping.step, h]
  · right; simp [Kid.tick, doInfiniteLooping.step, h]

/-- A step of the never-failing child keeps what is known of it. -/
theorem tick_quiet (t0 : Task σ ε) (canceled : ε) (h0 : ∀ t e, (t0 t e).err = none)
    (a : Kid σ ε) (h : QuietKid t0 canceled a) : QuietKid t0 canceled a.tick := by
  obtain ⟨ht, hc, hidle, herr, hleft⟩ := h
  cases hpc : a.loop.pc with
  | looping =>
    cases he : a.loop.err with
    | none =>
      cases hcan : a.cancelled with
      | false =>
        have hstep : a.tick.loop = { a.loop with
            err := (invoke a.task a.loop.world).1
            world := (invoke a.task a.loop.world).2
            checks := a.loop.checks + 1 } := by
          simp [Kid.tick, doInfiniteLooping.step, hpc, he, Kid.ctx, hcan]
        have hnil : (invoke a.task a.loop.world).1 = none := by
          rw [ht]; exact h0 _ _
        refine ⟨ht, hc, ?_, ?_, ?_⟩
        · intro _
          rw [hstep]
          exact ⟨hpc, hnil⟩
        · rw [hstep]; exact Or.inl hnil
        · intro hne
          rw [hstep] at hne
          exact absurd hpc hne
      | true =>
        have hstep : a.tick.loop = { a.loop with
            err := some a.cause, checks := a.loop.checks + 1 } := by
          simp [Kid.tick, doInfiniteLooping.step, hpc, he, Kid.ctx, hcan]
        refine ⟨ht, hc, ?_, ?_, ?_⟩
        · intro hf
          have : a.tick.cancelled = a.cancelled := rfl
          rw [this, hcan] at hf
          cases hf
        · rw [hstep]; exact Or.inr (by rw [hc])
        · intro _
          rw [hstep]
          simp only [hc]
    | some e =>
      have hstep : a.tick.loop = { a.loop with pc := Pc.sending } := by
        simp [Kid.tick, doInfiniteLooping.step, hpc, he]
      have hcan : a.cancelled = true := by
        cases hx : a.cancelled with
        | true => rfl
        | false => have := (hidle hx).2; rw [he] at this; cases this
      refine ⟨ht, hc, ?_, ?_, ?_⟩
      · intro hf
        have : a.tick.cancelled = a.cancelled := rfl
        rw [this, hcan] at hf
        cases hf
      · rw [hstep]; exact herr
      · intro _
        rw [hstep]
        rcases herr with e1 | e1
        · rw [he] at e1; cases e1
        · exact e1
  | sending =>
    have hstep : a.tick.loop = a.loop := by
      simp [Kid.tick, doInfiniteLooping.step, hpc]
    have hcan : a.cancelled = true := by
      cases hx : a.cancelled with
      | true => rfl
      | false => have := (hidle hx).1; rw [hpc] at this; cases this
    refine ⟨ht, hc, ?_, by rw [hstep]; exact herr, by rw [hstep]; exact hleft⟩
    intro hf
    have : a.tick.cancelled = a.cancelled := rfl
    rw [this, hcan] at hf
    cases hf
  | closing =>
    have hstep : a.tick.loop = { a.loop with
        pc := Pc.returned, errchan := a.loop.errchan ++ [ChanOp.close] } := by
      simp [Kid.tick, doInfiniteLooping.step, hpc]
    have hcan : a.cancelled = true := by
      cases hx : a.cancelled with
      | true => rfl
      | false => have := (hidle hx).1; rw [hpc] at this; cases this
    refine ⟨ht, hc, ?_, by rw [hstep]; exact herr, ?_⟩
    · intro hf
      have : a.tick.cancelled = a.cancelled := rfl
      rw [this, hcan] at hf
      cases hf
    · intro _
      rw [hstep]
      exact hleft (by rw [hpc]; simp)
  | returned =>
    have hstep : a.tick.loop = a.loop := by
      simp [Kid.tick, doInfiniteLooping.step, hpc]
    have hcan : a.cancelled = true := by
      cases hx : a.cancelled with
      | true => rfl
      | false => have := (hidle hx).1; rw [hpc] at this; cases this
    refine ⟨ht, hc, ?_, by rw [hstep]; exact herr, by rw [hstep]; exact hleft⟩
    intro hf
    have : a.tick.cancelled = a.cancelled := rfl
    rw [this, hcan] at hf
    cases hf

/-- A step of the failing child keeps what is known of it. -/
theorem tick_failing (t1 : Task σ ε) (w1 : World σ ε) (E : ε)
    (h1 : (t1 w1.now w1.env).err = some E)
    (b : Kid σ ε) (h : FailingKid t1 w1 E b) : FailingKid t1 w1 E b.tick := by
  obtain ⟨ht, hfresh, herr, hleft⟩ := h
  cases hpc : b.loop.pc with
  | looping =>
    cases he : b.loop.err with
    | none =>
      obtain ⟨_, hw, hcan⟩ := hfresh he
      have hstep : b.tick.loop = { b.loop with
          err := (invoke b.task b.loop.world).1
          world := (invoke b.task b.loop.world).2
          checks := b.loop.checks + 1 } := by
        simp [Kid.tick, doInfiniteLooping.step, hpc, he, Kid.ctx, hcan]
      have hE : (invoke b.task b.loop.world).1 = some E := by
        rw [ht, hw]; exact h1
      refine ⟨ht, ?_, ?_, ?_⟩
      · intro hx
        rw [hstep] at hx
        simp only [] at hx
        rw [hE] at hx
        cases hx
      · rw [hstep]; exact Or.inr hE
      · intro _
        rw [hstep]; exact hE
    | some e =>
      have hstep : b.tick.loop = { b.loop with pc := Pc.sending } := by
        simp [Kid.tick, doInfiniteLooping.step, hpc, he]
      have heE : b.loop.err = some E := by
        rcases herr with e1 | e1
        · rw [he] at e1; cases e1
        · exact e1
      refine ⟨ht, ?_, by rw [hstep]; exact herr, by intro _; rw [hstep]; exact heE⟩
      intro hx
      rw [hstep] at hx
      simp only [] at hx
      rw [he] at hx
      cases hx
  | sending =>
    have hstep : b.tick.loop = b.loop := by
      simp [Kid.tick, doInfiniteLooping.step, hpc]
    have heE := hleft (by rw [hpc]; simp)
    refine ⟨ht, ?_, by rw [hstep]; exact herr, by rw [hstep]; exact hleft⟩
    intro hx
    rw [hstep, heE] at hx
    cases hx
  | closing =>
    have hstep : b.tick.loop = { b.loop with
        pc := Pc.returned, errchan := b.loop.errchan ++ [ChanOp.close] } := by
      simp [Kid.tick, doInfiniteLooping.step, hpc]
    have heE := hleft (by rw [hpc]; simp)
    refine ⟨ht, ?_, by rw [hstep]; exact herr, by intro _; rw [hstep]; exact heE⟩
    intro hx
    rw [hstep] at hx
    simp only [] at hx
    rw [heE] at hx
    cases hx
  | returned =>
    have hstep : b.tick.loop = b.loop := by
      simp [Kid.tick, doInfiniteLooping.step, hpc]
    have heE := hleft (by rw [hpc]; simp)
    refine ⟨ht, ?_, by rw [hstep]; exact herr, by rw [hstep]; exact hleft⟩
    intro hx
    rw [hstep, heE] at hx
    cases hx

/-- When the aggregating goroutine receives from a child that waits at its send,
the child moves on to its close with `err` unchanged. -/
theorem deliver_sending (k : Kid σ ε) (h : k.loop.pc = Pc.sending) :
    k.deliver.loop = { k.loop with
        pc := Pc.closing, errchan := k.loop.errchan ++ [ChanOp.send k.loop.err] }
    ∧ Delivered k.deliver := by
  have hstep : k.deliver.loop = { k.loop with
      pc := Pc.closing, errchan := k.loop.errchan ++ [ChanOp.send k.loop.err] } := by
    simp [Kid.deliver, doInfiniteLooping.step, h]
  refine ⟨hstep, ?_⟩
  unfold Delivered
  rw [hstep]
  exact Or.inl rfl

/-- The phase only looks at the program counter, the cases and the events of the
aggregating goroutine, and at whether each child is cancelled, waiting or
delivered. -/
theorem phase17_congr (E canceled : ε) (s s1 : Agg (List (Kid σ ε)) ε) (a b a1 b1 : Kid σ ε)
    (hpc : s1.pc = s.pc) (hcases : s1.cases = s.cases) (hev : s1.events = s.events)
    (hac : a1.cancelled = a.cancelled) (hbc : b1.cancelled = b.cancelled)
    (haw : Waiting a → Waiting a1) (had : Delivered a → Delivered a1)
    (hbw : Waiting b → Waiting b1) (hbd : Delivered b → Delivered b1)
    (h : Phase17 E canceled s a b) : Phase17 E canceled s1 a1 b1 := by
  unfold Phase17 at *
  rw [hpc, hcases, hev, hac, hbc]
  cases hp : s.pc with
  | first =>
    simp only [hp] at h
    exact ⟨h.1, h.2.1, h.2.2.1, h.2.2.2.1, hbw h.2.2.2.2⟩
  | forward x =>
    simp only [hp] at h
    exact ⟨h.1, h.2.1, h.2.2.1, h.2.2.2.1, h.2.2.2.2.1, hbd h.2.2.2.2.2⟩
  | cancelling k =>
    simp only [hp] at h
    exact ⟨h.1, h.2.1, hbd h.2.2.1, haw h.2.2.2.1, h.2.2.2.2⟩
  | draining i =>
    simp only [hp] at h
    refine ⟨hbd h.1, h.2.1, h.2.2.1, ?_⟩
    rcases h.2.2.2 with ⟨h1, h2, h3⟩ | ⟨h1, h2⟩
    · exact Or.inl ⟨haw h1, h2, h3⟩
    · exact Or.inr ⟨had h1, h2⟩
  | reforward x =>
    simp only [hp] at h
    exact ⟨h.1, had h.2.1, hbd h.2.2.1, h.2.2.2.1, h.2.2.2.2.1, h.2.2.2.2.2⟩
  | closing => simpa only [hp] using h
  | finished => simpa only [hp] using h
  | panicking u => simp only [hp] at h
  | panicked => simp only [hp] at h

/-- A step of a child keeps the invariant of the system. -/
theorem system_tick_inv (t0 t1 : Task σ ε) (w1 : World σ ε) (E canceled : ε)
    (h0 : ∀ t e, (t0 t e).err = none) (h1 : (t1 w1.now w1.env).err = some E)
    (i : Nat) (s : Agg (List (Kid σ ε)) ε) (h : Inv17 t0 t1 w1 E canceled s) :
    Inv17 t0 t1 w1 E canceled (AllErr.system (Act.tick i) s) := by
  obtain ⟨a, b, hk, hn, hA, hB, hP⟩ := h
  simp only [AllErr.system, hk]
  cases i with
  | zero =>
    refine ⟨a.tick, b, rfl, hn, tick_quiet t0 canceled h0 a hA, hB, ?_⟩
    exact phase17_congr E canceled s _ a b a.tick b rfl rfl rfl rfl rfl
      (tick_waiting a) (tick_delivered a) id id hP
  | succ i =>
    cases i with
    | zero =>
      refine ⟨a, b.tick, rfl, hn, hA, tick_failing t1 w1 E h1 b hB, ?_⟩
      exact phase17_congr E canceled s _ a b a b.tick rfl rfl rfl rfl rfl
        id id (tick_waiting b) (tick_delivered b) hP
    | succ i =>
      refine ⟨a, b, by cases i <;> rfl, hn, hA, hB, ?_⟩
      exact phase17_congr E canceled s _ a b a b rfl rfl rfl rfl rfl id id id id hP

/-- Delivering the value of the never-failing child keeps what is known of it. -/
theorem deliver_quiet (t0 : Task σ ε) (canceled : ε) (a : Kid σ ε)
    (h : QuietKid t0 canceled a) (hs : a.loop.pc = Pc.sending) :
    QuietKid t0 canceled a.deliver := by
  obtain ⟨hd1, _⟩ := deliver_sending a hs
  have hcan : a.cancelled = true := by
    cases hx : a.cancelled with
    | true => rfl
    | false => have := (h.idle hx).1; rw [hs] at this; cases this
  refine ⟨h.task, h.cause, ?_, by rw [hd1]; exact h.err, ?_⟩
  · intro hf
    have : a.deliver.cancelled = a.cancelled := rfl
    rw [this, hcan] at hf
    cases hf
  · intro _
    rw [hd1]
    exact h.left (by rw [hs]; simp)

/-- Delivering the value of the failing child keeps what is known of it. -/
theorem deliver_failing (t1 : Task σ ε) (w1 : World σ ε) (E : ε) (b : Kid σ ε)
    (h : FailingKid t1 w1 E b) (hs : b.loop.pc = Pc.sending) :
    FailingKid t1 w1 E b.deliver := by
  obtain ⟨hd1, _⟩ := deliver_sending b hs
  have hE := h.left (by rw [hs]; simp)
  refine ⟨h.task, ?_, by rw [hd1]; exact h.err, by intro _; rw [hd1]; exact hE⟩
  intro hx
  rw [hd1] at hx
  simp only [] at hx
  rw [hE] at hx
  cases hx

/-- A step of the aggregating goroutine keeps the invariant of the system. -/
theorem system_agg_inv (t0 t1 : Task σ ε) (w1 : World σ ε) (E canceled : ε)
    (pick : Nat) (r : Bool) (s : Agg (List (Kid σ ε)) ε)
    (h : Inv17 t0 t1 w1 E canceled s) :
    Inv17 t0 t1 w1 E canceled (AllErr.system (Act.agg pick r) s) := by
  obtain ⟨a, b, hk, hn, hA, hB, hP⟩ := h
  have hsame : Inv17 t0 t1 w1 E canceled s := ⟨a, b, hk, hn, hA, hB, hP⟩
  simp only [AllErr.system]
  unfold AllErr.step
  cases hpc : s.pc with
  | first =>
    simp only [Phase17, hpc] at hP
    obtain ⟨hcases, hout, hac, hbc, hbw⟩ := hP
    have hne : s.cases ≠ [] := by rw [hcases]; simp
    have hpick : s.cases.getD (pick % s.cases.length) 0 = 0
        ∨ s.cases.getD (pick % s.cases.length) 0 = 1 := by
      rw [hcases]
      have : pick % 2 = 0 ∨ pick % 2 = 1 := by omega
      rcases this with e | e <;> simp [e]
    simp only [hne, if_false]
    rcases hpick with hc | hc
    · have hpeek : loopKids.peek s.kids 0 = none := by
        rw [hk]
        have := (hA.idle hac).1
        simp [loopKids, this]
      simp only [hc, hpeek]
      exact hsame
    · rcases hbw with hb | hb
      · have hpeek : loopKids.peek s.kids 1 = none := by
          rw [hk]
          simp [loopKids, hb]
        simp only [hc, hpeek]
        exact hsame
      · have hpeek : loopKids.peek s.kids 1 = some (Recv.value b.loop.err) := by
          rw [hk]
          simp [loopKids, hb]
        have hE := hB.left (by rw [hb]; simp)
        obtain ⟨_, hd2⟩ := deliver_sending b hb
        simp only [hc, hpeek]
        refine ⟨a, b.deliver, by simp only [hk]; rfl, hn, hA, deliver_failing t1 w1 E b hB hb, ?_⟩
        simp only [Phase17]
        exact ⟨hE, hcases, by simp [outs, hout], hac, hbc, hd2⟩
  | forward x =>
    simp only [Phase17, hpc] at hP
    obtain ⟨hx, hcases, hout, hac, hbc, hbd⟩ := hP
    subst hx
    simp only []
    cases r with
    | false =>
      simp only [Bool.false_eq_true, if_false]
      exact hsame
    | true =>
      simp only [if_true]
      refine ⟨a, b, hk, hn, hA, hB, ?_⟩
      simp only [Phase17]
      exact ⟨hcases, by simp [outs, hout], hbd, Or.inl (hA.idle hac).1,
        fun h => absurd h (by omega)⟩
  | cancelling k =>
    simp only [Phase17, hpc] at hP
    obtain ⟨hcases, hout, hbd, haw, hcan⟩ := hP
    simp only [hn]
    by_cases hk2 : k < 2
    · simp only [hk2, if_true]
      have hk01 : k = 0 ∨ k = 1 := by omega
      rcases hk01 with e | e
      · subst e
        refine ⟨{ a with cancelled := true }, b, by simp only [hk]; rfl, rfl,
          ⟨hA.task, hA.cause, (fun hf => by cases hf), hA.err, hA.left⟩, hB, ?_⟩
        simp only [Phase17]
        exact ⟨hcases, by simp [outs, hout], hbd, haw, by simp⟩
      · subst e
        have hbE : b.loop.err = some E := by
          apply hB.left
          rcases hbd with e1 | e1 <;> rw [e1] <;> simp
        refine ⟨a, { b with cancelled := true }, by simp only [hk]; rfl, rfl, hA,
          ⟨hB.task, (fun hx => by have hy : b.loop.err = none := hx
                                  rw [hbE] at hy; cases hy),
            hB.err, hB.left⟩, ?_⟩
        simp only [Phase17]
        exact ⟨hcases, by simp [outs, hout], hbd, haw, fun _ => hcan (by omega)⟩
    · simp only [hk2, if_false]
      refine ⟨a, b, hk, rfl, hA, hB, ?_⟩
      simp only [Phase17]
      refine ⟨hbd, hcan (by omega), ?_, Or.inl ⟨haw, hout, by rw [hcases]; simp⟩⟩
      intro c hc
      rw [hcases] at hc
      simp at hc
      omega
  | draining i =>
    simp only [Phase17, hpc] at hP
    obtain ⟨hbd, hcan, hbound, hdis⟩ := hP
    simp only []
    by_cases hc : s.cases = []
    · rw [if_pos hc]
      refine ⟨a, b, hk, hn, hA, hB, ?_⟩
      simp only [Phase17]
      rcases hdis with ⟨_, _, h3⟩ | ⟨_, h2⟩
      · rw [hc] at h3; simp at h3
      · exact h2
    · rw [if_neg hc]
      have hmem := pick_mem s.cases pick hc
      have hlt := hbound _ hmem
      have hpick : s.cases.getD (pick % s.cases.length) 0 = 0
          ∨ s.cases.getD (pick % s.cases.length) 0 = 1 := by omega
      rcases hpick with hc0 | hc1
      · cases hap : a.loop.pc with
        | looping =>
          have hpeek : loopKids.peek s.kids 0 = none := by
            rw [hk]; simp [loopKids, hap]
          simp only [hc0, hpeek]
          exact hsame
        | closing =>
          have hpeek : loopKids.peek s.kids 0 = none := by
            rw [hk]; simp [loopKids, hap]
          simp only [hc0, hpeek]
          exact hsame
        | sending =>
          have hpeek : loopKids.peek s.kids 0 = some (Recv.value a.loop.err) := by
            rw [hk]; simp [loopKids, hap]
          have hcz := hA.left (by rw [hap]; simp)
          obtain ⟨_, hd2⟩ := deliver_sending a hap
          simp only [hc0, hpeek]
          refine ⟨a.deliver, b, by simp only [hk]; rfl, hn, deliver_quiet t0 canceled a hA hap,
            hB, ?_⟩
          simp only [Phase17]
          rcases hdis with ⟨_, h2, _⟩ | ⟨h1, _⟩
          · exact ⟨hcz, hd2, hbd, hcan, hbound, by simp [outs, h2]⟩
          · rcases h1 with e | e <;> rw [hap] at e <;> cases e
        | returned =>
          have hpeek : loopKids.peek s.kids 0 = some Recv.closed := by
            rw [hk]; simp [loopKids, hap]
          simp only [hc0, hpeek]
          refine ⟨a, b, hk, hn, hA, hB, ?_⟩
          simp only [Phase17]
          refine ⟨hbd, hcan, fun c hc => hbound c (List.mem_of_mem_eraseIdx hc), ?_⟩
          rcases hdis with ⟨h1, _, _⟩ | ⟨h1, h2⟩
          · rcases h1 with e | e <;> rw [hap] at e <;> cases e
          · exact Or.inr ⟨h1, by simp [outs, h2]⟩
      · rcases hbd with hbp | hbp
        · have hpeek : loopKids.peek s.kids 1 = none := by
            rw [hk]; simp [loopKids, hbp]
          simp only [hc1, hpeek]
          exact hsame
        · have hpeek : loopKids.peek s.kids 1 = some Recv.closed := by
            rw [hk]; simp [loopKids, hbp]
          simp only [hc1, hpeek]
          refine ⟨a, b, hk, hn, hA, hB, ?_⟩
          simp only [Phase17]
          refine ⟨Or.inr hbp, hcan, fun c hc => hbound c (List.mem_of_mem_eraseIdx hc), ?_⟩
          rcases hdis with ⟨h1, h2, h3⟩ | ⟨h1, h2⟩
          · refine Or.inl ⟨h1, by simp [outs, h2], ?_⟩
            exact mem_eraseIdx_of_ne s.cases _ 0 h3 (by rw [hc1]; omega)
          · exact Or.inr ⟨h1, by simp [outs, h2]⟩
  | reforward x =>
    simp only [Phase17, hpc] at hP
    obtain ⟨hx, had, hbd, hcan, hbound, hout⟩ := hP
    subst hx
    simp only []
    cases r with
    | false =>
      simp only [Bool.false_eq_true, if_false]
      exact hsame
    | true =>
      simp only [if_true]
      refine ⟨a, b, hk, hn, hA, hB, ?_⟩
      simp only [Phase17]
      exact ⟨hbd, hcan, hbound, Or.inr ⟨had, by simp [outs, hout]⟩⟩
  | closing =>
    simp only [Phase17, hpc] at hP
    refine ⟨a, b, hk, hn, hA, hB, ?_⟩
    simp only [Phase17]
    simp [outs, hP]
  | finished => exact hsame
  | panicking u => simp only [Phase17, hpc] at hP
  | panicked => simp only [Phase17, hpc] at hP

/-- The invariant of the system holds along every run under every schedule. -/
theorem system_run_inv (t0 t1 : Task σ ε) (w0 w1 : World σ ε) (E canceled : ε)
    (h0 : ∀ t e, (t0 t e).err = none) (h1 : (t1 w1.now w1.env).err = some E)
    (sched : Nat → Act) (m : Nat) :
    Inv17 t0 t1 w1 E canceled
      (AllErr.systemRun sched m
        (AllErr 2 [InfiniteLoop.kid t0 canceled w0, InfiniteLoop.kid t1 canceled w1])) := by
  induction m with
  | zero =>
    refine ⟨InfiniteLoop.kid t0 canceled w0, InfiniteLoop.kid t1 canceled w1, rfl, rfl, ?_, ?_, ?_⟩
    · exact ⟨rfl, rfl, fun _ => ⟨rfl, rfl⟩, Or.inl rfl, fun h => absurd rfl h⟩
    · exact ⟨rfl, fun _ => ⟨rfl, rfl, rfl⟩, Or.inl rfl, fun h => absurd rfl h⟩
    · exact ⟨rfl, rfl, rfl, rfl, Or.inl rfl⟩
  | succ m ih =>
    simp only [AllErr.systemRun]
    cases hact : sched m with
    | tick i => exact system_tick_inv t0 t1 w1 E canceled h0 h1 i _ ih
    | agg pick r => exact system_agg_inv t0 t1 w1 E canceled pick r _ ih

/-- C17: `AllErr` over two supervised loops, the first with a task that always returns
nil, the second with a task that returns `E` in its first invocation, nobody but
the aggregating goroutine calling `Cancel`.  Under every schedule of the three
goroutines and every choice of `reflect.Select`: (1) whenever the aggregating
goroutine has returned, `ret.Err` has carried exactly `E`, then the cancellation
cause, then the close; (2) at every moment what `ret.Err` has carried is an
initial part of that sequence; (3) under the round-robin schedule the
aggregating goroutine has returned after 36 steps. -/
theorem C17_AllErr_failing_then_canceled (t0 t1 : Task σ ε) (w0 w1 : World σ ε)
    (E canceled : ε) (h0 : ∀ t e, (t0 t e).err = none)
    (h1 : (t1 w1.now w1.env).err = some E) :
    (∀ (sched : Nat → Act) (m : Nat),
      (AllErr.systemRun sched m
        (AllErr 2 [InfiniteLoop.kid t0 canceled w0, InfiniteLoop.kid t1 canceled w1])).pc
        = AggPc.finished →
      outs (AllErr.systemRun sched m
        (AllErr 2 [InfiniteLoop.kid t0 canceled w0, InfiniteLoop.kid t1 canceled w1])).events
        = [ChanOp.send (some E), ChanOp.send (some canceled), ChanOp.close])
    ∧ (∀ (sched : Nat → Act) (m : Nat),
      outs (AllErr.systemRun sched m
        (AllErr 2 [InfiniteLoop.kid t0 canceled w0, InfiniteLoop.kid t1 canceled w1])).events
        = []
      ∨ outs (AllErr.systemRun sched m
        (AllErr 2 [InfiniteLoop.kid t0 canceled w0, InfiniteLoop.kid t1 canceled w1])).events
        = [ChanOp.send (some E)]
      ∨ outs (AllErr.systemRun sched m
        (AllErr 2 [InfiniteLoop.kid t0 canceled w0, InfiniteLoop.kid t1 canceled w1])).events
        = [ChanOp.send (some E), ChanOp.send (some canceled)]
      ∨ outs (AllErr.systemRun sched m
        (AllErr 2 [InfiniteLoop.kid t0 canceled w0, InfiniteLoop.kid t1 canceled w1])).events
        = [ChanOp.send (some E), ChanOp.send (some canceled), ChanOp.close])
    ∧ (AllErr.systemRun roundRobin 36
        (AllErr 2 [InfiniteLoop.kid t0 canceled w0, InfiniteLoop.kid t1 canceled w1])).pc
        = AggPc.finished := by
  refine ⟨?_, ?_, ?_⟩
  · intro sched m hfin
    obtain ⟨a, b, _, _, _, _, hP⟩ := system_run_inv t0 t1 w0 w1 E canceled h0 h1 sched m
    simpa only [Phase17, hfin] using hP
  · intro sched m
    obtain ⟨a, b, _, _, _, _, hP⟩ := system_run_inv t0 t1 w0 w1 E canceled h0 h1 sched m
    generalize AllErr.systemRun sched m
      (AllErr 2 [InfiniteLoop.kid t0 canceled w0, InfiniteLoop.kid t1 canceled w1]) = s at hP ⊢
    cases hpc : s.pc with
    | first =>
      simp only [Phase17, hpc] at hP
      exact Or.inl hP.2.1
    | forward x =>
      simp only [Phase17, hpc] at hP
      exact Or.inl hP.2.2.1
    | cancelling k =>
      simp only [Phase17, hpc] at hP
      exact Or.inr (Or.inl hP.2.1)
    | draining i =>
      simp only [Phase17, hpc] at hP
      rcases hP.2.2.2 with ⟨_, h2, _⟩ | ⟨_, h2⟩
      · exact Or.inr (Or.inl h2)
      · exact Or.inr (Or.inr (Or.inl h2))
    | reforward x =>
      simp only [Phase17, hpc] at hP
      exact Or.inr (Or.inl hP.2.2.2.2.2)
    | closing =>
      simp only [Phase17, hpc] at hP
      exact Or.inr (Or.inr (Or.inl hP))
    | finished =>
      simp only [Phase17, hpc] at hP
      exact Or.inr (Or.inr (Or.inr hP))
    | panicking u => simp only [Phase17, hpc] at hP
    | panicked => simp only [Phase17, hpc] at hP
  · simp [AllErr.systemRun, roundRobin, AllErr.system, AllErr, AllErr.step, loopKids, modifyAt,
      Kid.tick, Kid.deliver, Kid.ctx, doInfiniteLooping.step, InfiniteLoop.kid, InfiniteLoop,
      h0, h1, invoke]

/-! ## The theorems at concrete inputs -/

/-- Witness for C3: a floor of 50ns around a task that succeeds at once. -/
theorem C3_witness :
    (((instantTask startWorld.now startWorld.env).took : Int) ≤ 50
      ∧ sleeps (RunAtLeast 50 instantTask startWorld).2.trace = [50])
    ∧ (¬ ((instantTask startWorld.now startWorld.env).err ≠ none
          ∧ ((instantTask startWorld.now startWorld.env).took : Int) ≤ 50)
      ∧ (RunFailedAtLeast 50 instantTask startWorld).2.now - startWorld.now = 0) :=
  ⟨⟨by decide,
      ((C3_floor_wrappers_sleep_exactly_when 50 instantTask startWorld).1 (by decide)).1⟩,
    ⟨by decide,
      ((C3_floor_wrappers_sleep_exactly_when 50 instantTask startWorld).2.2.2.2.2
        (by decide)).2⟩⟩

/-- Witness for C4: three calls in a row with a limit of 50ns. -/
theorem C4_witness :
    1 ≤ 3 ∧ ([0, 0, 0] : List Nat).length = 3
    ∧ ((starts (callSeq (OnceAtMost.call 50 instantTask) [0, 0, 0]
          (OnceAtMost 50 startWorld) startWorld).2.2.trace).drop
        (starts startWorld.trace).length).getD 0 0 + (((3 : Nat) : Int) - 1) * 50 ≤
      ((starts (callSeq (OnceAtMost.call 50 instantTask) [0, 0, 0]
          (OnceAtMost 50 startWorld) startWorld).2.2.trace).drop
        (starts startWorld.trace).length).getD (3 - 1) 0 :=
  ⟨by decide, rfl,
    (C4_OnceAtMost_starts_spaced 50 instantTask startWorld 3 (by decide) [0, 0, 0] rfl).2.2⟩

/-- Witness for C6: a call 10ns after `last` with a limit of 50ns. -/
theorem C6_witness :
    (World.fresh 10 0 : World Nat Unit).now - 0 ≤ 50
    ∧ OnceWithin.call 50 instantTask 0 (World.fresh 10 0) = (none, 0, World.fresh 10 0)
    ∧ OnceSuccessWithin.call 50 instantTask 0 (World.fresh 10 0) =
        (none, 0, World.fresh 10 0) :=
  ⟨by decide,
    C6_call_within_window_is_a_no_op 50 instantTask 0 (World.fresh 10 0) (by decide)⟩

/-- Witness for C8: with a limit of 50ns, a failed run started at 100ns leaves
`last` at 0 and the next call runs at once; after a successful run started at 0
(`OnceSuccessAtMost`) or 1 (`OnceSuccessWithin`), a call 10ns later sleeps for the
remaining 40ns, respectively is dropped. -/
theorem C8_witness :
    ((OnceSuccessAtMost.call 50 failingTask 0 (World.fresh 100 0)).1 ≠ none
      ∧ (OnceSuccessAtMost.call 50 failingTask 0 (World.fresh 100 0)).2.1 = 0)
    ∧ ((OnceSuccessAtMost.call 50 instantTask 0 (World.fresh 100 0)).1 = none
      ∧ starts (OnceSuccessAtMost.call 50 instantTask 0 (World.fresh 100 0)).2.2.trace =
          starts (World.fresh 100 0 : World Nat Unit).trace ++
            [(OnceSuccessAtMost.call 50 instantTask 0 (World.fresh 100 0)).2.1])
    ∧ ((50 : Int) < (World.fresh 100 0 : World Nat Unit).now - 0
      ∧ (OnceSuccessWithin.call 50 failingTask 0 (World.fresh 100 0)).2.1 = 0
      ∧ (OnceSuccessWithin.call 50 instantTask 0 (World.fresh 100 0)).2.1 =
          (World.fresh 100 0 : World Nat Unit).now)
    ∧ starts (thenCall (OnceSuccessAtMost.call 50 failingTask) 0
          (OnceSuccessAtMost.call 50 failingTask 0 (World.fresh 100 0))).2.2.trace =
        starts (OnceSuccessAtMost.call 50 failingTask 0 (World.fresh 100 0)).2.2.trace ++
          [(OnceSuccessAtMost.call 50 failingTask 0 (World.fresh 100 0)).2.2.now
            + ((0 : Nat) : Int)]
    ∧ starts (thenCall (OnceSuccessWithin.call 50 failingTask) 0
          (OnceSuccessWithin.call 50 failingTask 0 (World.fresh 100 0))).2.2.trace =
        starts (OnceSuccessWithin.call 50 failingTask 0 (World.fresh 100 0)).2.2.trace ++
          [(OnceSuccessWithin.call 50 failingTask 0 (World.fresh 100 0)).2.2.now
            + ((0 : Nat) : Int)]
    ∧ sleeps (thenCall (OnceSuccessAtMost.call 50 instantTask) 10
          (callSeq (OnceSuccessAtMost.call 50 instantTask) [0]
            (OnceSuccessAtMost 50 startWorld) startWorld)).2.2.trace =
        sleeps (callSeq (OnceSuccessAtMost.call 50 instantTask) [0]
            (OnceSuccessAtMost 50 startWorld) startWorld).2.2.trace ++
          [50 - ((callSeq (OnceSuccessAtMost.call 50 instantTask) [0]
            (OnceSuccessAtMost 50 startWorld) startWorld).2.2.now + ((10 : Nat) : Int) - 0)]
    ∧ thenCall (OnceSuccessWithin.call 50 instantTask) 10
          (callSeq (OnceSuccessWithin.call 50 instantTask) [1]
            (OnceSuccessWithin 50 startWorld) startWorld) =
        (none, 1,
          idle 10 (callSeq (OnceSuccessWithin.call 50 instantTask) [1]
            (OnceSuccessWithin 50 startWorld) startWorld).2.2) :=
  ⟨⟨by decide,
      ((C8_success_conditioned_last 50 failingTask).1 0 (World.fresh 100 0)).1 (by decide)⟩,
    ⟨by decide,
      ((C8_success_conditioned_last 50 instantTask).1 0 (World.fresh 100 0)).2 (by decide)⟩,
    ⟨by decide,
      ((C8_success_conditioned_last 50 failingTask).2.1 0 (World.fresh 100 0)
        (by decide)).1 (by decide),
      (((C8_success_conditioned_last 50 instantTask).2.1 0 (World.fresh 100 0)
        (by decide)).2 (by decide)).1⟩,
    (C8_success_conditioned_last 50 failingTask).2.2.1 0 (World.fresh 100 0) 0 (by decide),
    (C8_success_conditioned_last 50 failingTask).2.2.2.1 0 (World.fresh 100 0) 0 (by decide),
    ((C8_success_conditioned_last 50 instantTask).2.2.2.2.1 startWorld [0] 10 0
      (by decide) (by decide)).1,
    (C8_success_conditioned_last 50 instantTask).2.2.2.2.2 startWorld [1] 10 1
      (by decide) (by decide)⟩

/-- Witness for C10: a loop over a task that always succeeds, cancelled before its
second iteration and with a receiver always ready, has returned after five steps. -/
theorem C10_witness :
    (doInfiniteLooping cancelledAfterOne instantTask (fun _ => true) 5
        (InfiniteLoop startWorld)).pc = Pc.returned
    ∧ (∃ e, (doInfiniteLooping cancelledAfterOne instantTask (fun _ => true) 5
        (InfiniteLoop startWorld)).errchan = [ChanOp.send (some e), ChanOp.close])
    ∧ (doInfiniteLooping cancelledAfterOne instantTask (fun _ => true) 3
        (InfiniteLoop startWorld)).pc = Pc.sending
    ∧ (doInfiniteLooping cancelledAfterOne instantTask (fun _ => true) 0
        (InfiniteLoop startWorld)).errchan = [] :=
  ⟨by decide,
    (C10_loop_sends_one_nonnil_value_then_closes cancelledAfterOne instantTask
      (fun _ => true) startWorld 5).1 (by decide),
    by decide,
    (C10_loop_sends_one_nonnil_value_then_closes cancelledAfterOne instantTask
      (fun _ => true) startWorld 0).2.1 (by decide)⟩

/-- Witness for C11: the loop of `TestInfiniteLoopCancelAfterDone`, whose task fails
in its fourth invocation at 30ms, cancelled at 35ms. -/
theorem C11_witness :
    (1 ≤ 4)
    ∧ errAt jobTask (4 - 1) startWorld = some ()
    ∧ (invocations (doInfiniteLooping (cancelAt 35000000 ()) jobTask (fun _ => true) 7
        (InfiniteLoop startWorld)).world.trace).length = (invocations startWorld.trace).length + 4
    ∧ (doInfiniteLooping (cancelAt 35000000 ()) jobTask (fun _ => true) 7
        (InfiniteLoop startWorld)).pc = Pc.returned
    ∧ (doInfiniteLooping (cancelAt 35000000 ()) jobTask (fun _ => true) 7
        (InfiniteLoop startWorld)).errchan = [ChanOp.send (some ()), ChanOp.close] :=
  ⟨by decide, by decide,
    ((C11_first_task_error_is_the_terminal_cause (cancelAt 35000000 ()) jobTask (fun _ => true)
      startWorld 4 () (by decide)
      (fun i hi => by have hi3 : i < 3 := by omega
                      interval_cases i <;> rfl)
      (by decide) (by decide)).1 7 (by decide)).1,
    (C11_first_task_error_is_the_terminal_cause (cancelAt 35000000 ()) jobTask (fun _ => true)
      startWorld 4 () (by decide)
      (fun i hi => by have hi3 : i < 3 := by omega
                      interval_cases i <;> rfl)
      (by decide) (by decide)).2.2 5 (by decide) rfl 7
      (by decide),
    (C11_first_task_error_is_the_terminal_cause (cancelAt 35000000 ()) jobTask (fun _ => true)
      startWorld 4 () (by decide)
      (fun i hi => by have hi3 : i < 3 := by omega
                      interval_cases i <;> rfl)
      (by decide) (by decide)).2.1 7 (by decide)⟩

/-- Witness for C12: the loop of `TestInfiniteLoop`, a task of 9ms cancelled at 10ms, is
invoked exactly twice and reports the cancellation. -/
theorem C12_witness :
    ((invokeN nineMsTask 1 startWorld).now < 10000000
      ∧ (10000000 : Int) ≤ (invokeN nineMsTask 2 startWorld).now)
    ∧ (invocations (doInfiniteLooping (cancelAt 10000000 ()) nineMsTask (fun _ => true) 6
        (InfiniteLoop startWorld)).world.trace).length = (invocations startWorld.trace).length + 2
    ∧ (doInfiniteLooping (cancelAt 10000000 ()) nineMsTask (fun _ => true) 6
        (InfiniteLoop startWorld)).pc = Pc.returned
    ∧ (doInfiniteLooping (cancelAt 10000000 ()) nineMsTask (fun _ => true) 6
        (InfiniteLoop startWorld)).errchan = [ChanOp.send (some ()), ChanOp.close] :=
  ⟨⟨by decide, by decide⟩,
    ((C12_cancel_gates_the_next_iteration 10000000 () nineMsTask (fun _ => true) startWorld 2
      (by decide) (by decide) (by decide)).1 6 (by decide)).2.1,
    (C12_cancel_gates_the_next_iteration 10000000 () nineMsTask (fun _ => true) startWorld 2
      (by decide) (by decide) (by decide)).2.2 4 (by decide) rfl 6 (by decide),
    (C12_cancel_gates_the_next_iteration 10000000 () nineMsTask (fun _ => true) startWorld 2
      (by decide) (by decide) (by decide)).2.1 6 (by decide)⟩

/-- Witness for C18: `TilErr(fgood, fbad, fgood)` as in `TestTilErr`, and
`TilErr(fgood, fgood, fgood)` as in `TestTilErrAllDone`. -/
theorem C18_witness :
    (allNil [instantTask] startWorld = true
      ∧ (TilErr ([instantTask] ++ failingTask :: [instantTask]) startWorld).1 = some ()
      ∧ (invocations (TilErr ([instantTask] ++ failingTask :: [instantTask]) startWorld).2.trace).length
          = (invocations startWorld.trace).length + ([instantTask].length + 1))
    ∧ (allNil [instantTask, instantTask, instantTask] startWorld = true
      ∧ (TilErr [instantTask, instantTask, instantTask] startWorld).1 = none
      ∧ (invocations (TilErr [instantTask, instantTask, instantTask] startWorld).2.trace).length
          = (invocations startWorld.trace).length + [instantTask, instantTask, instantTask].length) :=
  ⟨⟨by decide,
      congrArg Prod.fst ((C18_TilErr_stops_at_first_error startWorld).1 [instantTask] failingTask
        [instantTask] () (by decide) (by decide)).1,
      ((C18_TilErr_stops_at_first_error startWorld).1 [instantTask] failingTask
        [instantTask] () (by decide) (by decide)).2⟩,
    ⟨by decide,
      congrArg Prod.fst ((C18_TilErr_stops_at_first_error startWorld).2.1
        [instantTask, instantTask, instantTask] (by decide)).1,
      ((C18_TilErr_stops_at_first_error startWorld).2.1
        [instantTask, instantTask, instantTask] (by decide)).2⟩⟩

/-- Witness for C19: a task that fails five times, as in `TestRetry` and
`TestTriesAtMostFailed` (budget 3), and one that fails three times, as in
`TestTriesAtMostDone` (budget 5). -/
theorem C19_witness :
    (3 < 2 ^ 64 ∧ 5 < 2 ^ 64)
    ∧ (Retry (plain (flaky 0 5 ())) 6 () startWorld).map Prod.fst =
        some ([(), (), (), (), ()].map (fun e => ChanOp.send (some e)) ++ [ChanOp.close])
    ∧ (∃ t, TriesAtMost 3 (flaky 0 5 ()) 4 startWorld =
        some ((([(), (), (), (), ()] : List Unit).take (min 3 5)).map
            (fun e => ChanOp.send (some e)) ++ [ChanOp.close], t,
          invokeN (flaky 0 5 ()) 3 startWorld))
    ∧ (∃ t, TriesAtMost 5 (flaky 0 3 ()) 4 startWorld =
        some ((([(), (), ()] : List Unit).take (min 5 3)).map
            (fun e => ChanOp.send (some e)) ++ [ChanOp.close], t,
          invokeN (flaky 0 3 ()) (3 + 1) startWorld)) :=
  ⟨⟨by decide, by decide⟩,
    by
      rw [(C19_Retry_and_TriesAtMost 3 (by decide) (flaky 0 5 ()) startWorld
        [(), (), (), (), ()]).1 (by decide) 6 (by decide)]
      rfl,
    by
      obtain ⟨t, h, _⟩ := (C19_Retry_and_TriesAtMost 3 (by decide) (flaky 0 5 ()) startWorld
        [(), (), (), (), ()]).2.2 (by decide) (by decide) 4 (by decide)
      exact ⟨t, h⟩,
    by
      obtain ⟨t, h, _⟩ := (C19_Retry_and_TriesAtMost 5 (by decide) (flaky 0 3 ()) startWorld
        [(), (), ()]).2.1 (by decide) (by decide) 4 (by decide)
      exact ⟨t, h⟩⟩

/-- Witness for C13: `AllErr` over three children that deliver 10, 11 and 12. -/
theorem C13_witness :
    1 ≤ 3
    ∧ (AllErr.run chanKids favourInTurn 17 (AllErr 3 (offeringAll tenPlus))).pc = AggPc.finished
    ∧ (∃ order : List Nat, order.Perm (List.range 3)
        ∧ outs (AllErr.run chanKids favourInTurn 17 (AllErr 3 (offeringAll tenPlus))).events =
            order.map (fun c => ChanOp.send (some (tenPlus c))) ++ [ChanOp.close]) :=
  ⟨by decide,
    (C13_AllErr_yields_one_value_per_child 3 (by decide) tenPlus favourInTurn).2.2
      (fun _ => rfl) 17 (by decide),
    (C13_AllErr_yields_one_value_per_child 3 (by decide) tenPlus favourInTurn).1 17 (by decide)⟩

/-- Witness for C14: `AnyErr` over three children that deliver 10, 11 and 12. -/
theorem C14_witness :
    1 ≤ 3
    ∧ (AnyErr.run chanKids favourInTurn 14 (AnyErr 3 (offeringAll tenPlus))).pc = AggPc.finished
    ∧ (∃ c0, c0 < 3
        ∧ (AnyErr.run chanKids favourInTurn 14 (AnyErr 3 (offeringAll tenPlus))).events.head? =
            some (AggEvent.selected c0 (Recv.value (some (tenPlus c0))))
        ∧ outs (AnyErr.run chanKids favourInTurn 14 (AnyErr 3 (offeringAll tenPlus))).events =
            [ChanOp.send (some (tenPlus c0)), ChanOp.close]
        ∧ discards (AnyErr.run chanKids favourInTurn 14 (AnyErr 3 (offeringAll tenPlus))).events =
            ((List.range 3).filter (fun c => decide (c ≠ c0))).map
              (fun c => (c, some (tenPlus c)))) :=
  ⟨by decide,
    (C14_AnyErr_yields_exactly_one_value 3 (by decide) tenPlus favourInTurn).2.2
      (fun _ => rfl) 14 (by decide),
    (C14_AnyErr_yields_exactly_one_value 3 (by decide) tenPlus favourInTurn).1 14 (by decide)⟩

/-- Witness for C16: `AllErr` over three children once it has returned; `AnyErr` over
two children of which the first delivers a nil value, once the panic has left
the goroutine; `AllErr` with the two loops of `TestAllErrWithCancel` run
alongside; and the `Cancel` of `AllErr` over these two loops. -/
theorem C16_witness :
    ((AllErr.run chanKids favourInTurn 17 (AllErr 3 (offeringAll tenPlus))).pc = AggPc.finished
      ∧ ∃ pre post, firstPath pre
        ∧ (AllErr.run chanKids favourInTurn 17 (AllErr 3 (offeringAll tenPlus))).events =
            pre ++ (List.range 3).map AggEvent.cancel ++ post
        ∧ cancels post = [])
    ∧ ((AnyErr.run chanKids favourInTurn 10 (AnyErr 2 nilFirst)).pc = AggPc.panicked
      ∧ ∃ pre post, firstPath pre
        ∧ (AnyErr.run chanKids favourInTurn 10 (AnyErr 2 nilFirst)).events =
            pre ++ (List.range 2).map AggEvent.cancel ++ post
        ∧ cancels post = [])
    ∧ ((AllErr.systemRun roundRobin 36
          (AllErr [InfiniteLoop.kid okLoopTask 99 (World.fresh 0 0),
              InfiniteLoop.kid badLoopTask 99 (World.fresh 0 0)].length
            [InfiniteLoop.kid okLoopTask 99 (World.fresh 0 0),
              InfiniteLoop.kid badLoopTask 99 (World.fresh 0 0)])).pc = AggPc.finished
      ∧ ∀ (i : Nat) (k : Kid Nat Nat),
          i < [InfiniteLoop.kid okLoopTask 99 (World.fresh 0 0),
              InfiniteLoop.kid badLoopTask 99 (World.fresh 0 0)].length →
          (AllErr.systemRun roundRobin 36
            (AllErr [InfiniteLoop.kid okLoopTask 99 (World.fresh 0 0),
                InfiniteLoop.kid badLoopTask 99 (World.fresh 0 0)].length
              [InfiniteLoop.kid okLoopTask 99 (World.fresh 0 0),
                InfiniteLoop.kid badLoopTask 99 (World.fresh 0 0)])).kids[i]? = some k →
          k.cancelled = true)
    ∧ (0 < [InfiniteLoop.kid okLoopTask 99 (World.fresh 0 0),
          InfiniteLoop.kid badLoopTask 99 (World.fresh 0 0)].length
      ∧ ({ InfiniteLoop.kid okLoopTask 99 (World.fresh 0 0) with cancelled := true }
          : Kid Nat Nat).cancelled = true) :=
  ⟨⟨by decide,
      (C16_cancel_reaches_every_child chanKids favourInTurn 3 (offeringAll tenPlus) 17
        (σ := Nat)).2.2.2.2.2.1 (by decide)⟩,
    ⟨by decide,
      (C16_cancel_reaches_every_child chanKids favourInTurn 2 nilFirst 10
        (σ := Nat)).2.2.2.2.2.2.1 (by decide)⟩,
    ⟨by decide,
      ((C16_cancel_reaches_every_child chanKids favourInTurn 2 nilFirst 36).2.2.2.2.2.2.2.2
        [InfiniteLoop.kid okLoopTask 99 (World.fresh 0 0),
          InfiniteLoop.kid badLoopTask 99 (World.fresh 0 0)] roundRobin).1.2 (by decide)⟩,
    ⟨by decide,
      ((C16_cancel_reaches_every_child chanKids favourInTurn 3 (offeringAll tenPlus) 0).2.1
        [InfiniteLoop.kid okLoopTask 99 (World.fresh 0 0),
          InfiniteLoop.kid badLoopTask 99 (World.fresh 0 0)]
        0 { InfiniteLoop.kid okLoopTask 99 (World.fresh 0 0) with cancelled := true }
        (by decide)).1 rfl⟩⟩

/-- Witness for C17: the two loops of `TestAllErrWithCancel`, the failing one with the
error 7, the cancellation cause being 99, scheduled in turn. -/
theorem C17_witness :
    ((okLoopTask 0 0).err = none ∧ (badLoopTask (World.fresh 0 0 : World Nat Nat).now
        (World.fresh 0 0 : World Nat Nat).env).err = some 7)
    ∧ (AllErr.systemRun roundRobin 36
        (AllErr 2 [InfiniteLoop.kid okLoopTask 99 (World.fresh 0 0),
          InfiniteLoop.kid badLoopTask 99 (World.fresh 0 0)])).pc = AggPc.finished
    ∧ outs (AllErr.systemRun roundRobin 36
        (AllErr 2 [InfiniteLoop.kid okLoopTask 99 (World.fresh 0 0),
          InfiniteLoop.kid badLoopTask 99 (World.fresh 0 0)])).events
        = [ChanOp.send (some 7), ChanOp.send (some 99), ChanOp.close] :=
  ⟨⟨by decide, by decide⟩,
    (C17_AllErr_failing_then_canceled okLoopTask badLoopTask (World.fresh 0 0) (World.fresh 0 0)
      7 99 (fun _ _ => by simp [okLoopTask, flaky]) (by decide)).2.2,
    (C17_AllErr_failing_then_canceled okLoopTask badLoopTask (World.fresh 0 0) (World.fresh 0 0)
      7 99 (fun _ _ => by simp [okLoopTask, flaky]) (by decide)).1 roundRobin 36
      ((C17_AllErr_failing_then_canceled okLoopTask badLoopTask (World.fresh 0 0)
        (World.fresh 0 0) 7 99 (fun _ _ => by simp [okLoopTask, flaky]) (by decide)).2.2)⟩

end Rasync
